import Mathlib

/-!
three_dee: a shallow embedding of the wire-frame pipeline.

Source files: `src/three_dee.h` (fast math, line drawing, vectors, matrices,
mesh projection) and `src/three_dee.c` (the cube factory).

Conventions of the embedding.

* `float` arithmetic is read as exact arithmetic over `ℚ` (every finite float
  is a rational number); the decimal constants are the literals of the source.
  `sin_fast` has a second embedding, `sin_fast_rounded`, in which every
  operation is followed by a rounding to `double` or to `float`, the two
  roundings being parameters.  The loops of `fix_mesh_rotation`, where the
  rounding decides whether the loop ends, have such a second embedding too
  (`fix_mesh_rotation_rounded`, with fuel), and `draw_mesh_rounded` is
  `draw_mesh` with these loops.  `round_float` and `round_double` are the
  roundings of IEEE 754 arithmetic.
* C `int` is read as `Int` where the source is used without overflow.
  `draw_line` has a second embedding on the 32-bit `int` of the target,
  `draw_line_int32`, in which every result wraps around modulo `2^32`.
* Output parameters that are completely overwritten and never read become
  return values.  `matrix_multiply_to_ref` reads its operands while it writes
  its output field by field, so it is embedded over an explicit memory of
  matrices addressed by pointers, one assignment after the other.
* `sqrt_fast` reinterprets the bits of a float; it is taken as a parameter
  `sqrt_fast : ℚ → ℚ` by every function that reaches it.
* `while (1)` in `draw_line` is a loop with fuel, returning `none` when the
  fuel runs out.
-/

namespace ThreeDee

/-! ## Fast math -/

/-- `#define PI_1 3.14159265` -/
def PI_1 : ℚ := 3.14159265

/-- `#define PI_2 6.28318531` -/
def PI_2 : ℚ := 6.28318531

/-- `sin_fast` of `three_dee.h`, lines 39-62. -/
def sin_fast (x : ℚ) : ℚ :=
  let x := if x < -PI_1 then x + PI_2 else x
  let x := if x > PI_1 then x - PI_2 else x
  if x < 0 then
    let sin := 1.2732395 * x + 0.40528473 * x * x
    if sin < 0 then
      0.225 * (sin * -sin - sin) + sin
    else
      0.225 * (sin * sin - sin) + sin
  else
    let sin := 1.2732395 * x - 0.40528473 * x * x
    if sin < 0 then
      0.225 * (sin * -sin - sin) + sin
    else
      0.225 * (sin * sin - sin) + sin

/-- `cos_fast` of `three_dee.h`, lines 64-66. -/
def cos_fast (x : ℚ) : ℚ :=
  sin_fast (x + 1.57079632)

/-- `abs` of `three_dee.h`, lines 84-86, on unbounded integers. -/
def abs (i : Int) : Int :=
  if i < 0 then -i else i

/-- `absf` of `three_dee.h`, lines 88-90. -/
def absf (i : ℚ) : ℚ :=
  if i < 0 then -i else i

/-! ## Line drawing -/

/-- A pixel position, as handed to `graphics_draw_pixel`. -/
structure GPoint where
  x : Int
  y : Int
  deriving DecidableEq, Repr

/-- The `while (1)` loop of `draw_line` (lines 105-112).  The result is the
sequence of pixels handed to `graphics_draw_pixel`, in order; `none` when the
fuel is used up before the loop breaks.  `err << 1` is `err * 2`. -/
def draw_line_loop (dx dy sx sy x1 y1 : Int) : Nat → Int → Int → Int → Option (List GPoint)
  | 0, _, _, _ => none
  | fuel + 1, x0, y0, err =>
    if x0 = x1 ∧ y0 = y1 then
      some [⟨x0, y0⟩]
    else
      let e2 := err * 2
      let err1 := if e2 > -dy then err - dy else err
      let x0n := if e2 > -dy then x0 + sx else x0
      let err2 := if e2 < dx then err1 + dx else err1
      let y0n := if e2 < dx then y0 + sy else y0
      (draw_line_loop dx dy sx sy x1 y1 fuel x0n y0n err2).map (fun ps => ⟨x0, y0⟩ :: ps)

/-- `draw_line` of `three_dee.h`, lines 96-113, run with the given fuel, on
unbounded integers; `draw_line_int32` is the same code on 32-bit integers. -/
def draw_line (fuel : Nat) (x0 y0 x1 y1 : Int) : Option (List GPoint) :=
  let dx := abs (x1 - x0)
  let dy := abs (y1 - y0)
  let sx : Int := if x0 < x1 then 1 else -1
  let sy : Int := if y0 < y1 then 1 else -1
  let err := dx - dy
  draw_line_loop dx dy sx sy x1 y1 fuel x0 y0 err

/-! ## Vectors -/

/-- `struct Vector`. -/
structure Vector where
  x : ℚ
  y : ℚ
  z : ℚ
  deriving DecidableEq

/-- `struct Vector2`. -/
structure Vector2 where
  x : ℚ
  y : ℚ
  deriving DecidableEq

/-- `#define null_vector` -/
def null_vector : Vector := ⟨0.0, 0.0, 0.0⟩

/-- `#define up_vector` -/
def up_vector : Vector := ⟨0.0, 1.0, 0.0⟩

/-- `length` (lines 138-141); `sqrt_fast` is a parameter. -/
def length (sqrt_fast : ℚ → ℚ) (v : Vector) : ℚ :=
  let x := v.x
  let y := v.y
  let z := v.z
  sqrt_fast (x * x + y * y + z * z)

/-- `normalize` (lines 143-146); the vector updated in place is returned. -/
def normalize (sqrt_fast : ℚ → ℚ) (v : Vector) : Vector :=
  let scale := 1.0 / length sqrt_fast v
  ⟨v.x * scale, v.y * scale, v.z * scale⟩

/-- `substract_to_ref` (lines 153-157), `c = a - b`. -/
def substract_to_ref (a b : Vector) : Vector :=
  ⟨a.x - b.x, a.y - b.y, a.z - b.z⟩

/-- `cross_to_ref` (lines 160-164), `c = a x b`, with `c` distinct from `a`, `b`. -/
def cross_to_ref (a b : Vector) : Vector :=
  ⟨a.y * b.z - a.z * b.y, a.z * b.x - a.x * b.z, a.x * b.y - a.y * b.x⟩

/-- `dot_product` (lines 166-168). -/
def dot_product (a b : Vector) : ℚ :=
  a.x * b.x + a.y * b.y + a.z * b.z

/-! ## Matrices -/

/-- `struct Matrix`: sixteen floats, `m_rowcol`. -/
structure Matrix where
  m11 : ℚ
  m12 : ℚ
  m13 : ℚ
  m14 : ℚ
  m21 : ℚ
  m22 : ℚ
  m23 : ℚ
  m24 : ℚ
  m31 : ℚ
  m32 : ℚ
  m33 : ℚ
  m34 : ℚ
  m41 : ℚ
  m42 : ℚ
  m43 : ℚ
  m44 : ℚ
  deriving DecidableEq

/-- `#define identity_matrix` -/
def identity_matrix : Matrix :=
  ⟨1.0, 0.0, 0.0, 0.0, 0.0, 1.0, 0.0, 0.0, 0.0, 0.0, 1.0, 0.0, 0.0, 0.0, 0.0, 1.0⟩

/-- `look_at_LH_to_ref` (lines 195-218); `result` is returned. -/
def look_at_LH_to_ref (sqrt_fast : ℚ → ℚ) (eye target up : Vector) : Matrix :=
  let zAxis := substract_to_ref target eye
  let zAxis := normalize sqrt_fast zAxis
  let xAxis := cross_to_ref up zAxis
  let xAxis := normalize sqrt_fast xAxis
  let yAxis := cross_to_ref zAxis xAxis
  let yAxis := normalize sqrt_fast yAxis
  let x := -dot_product xAxis eye
  let y := -dot_product yAxis eye
  let z := -dot_product zAxis eye
  ⟨xAxis.x, yAxis.x, zAxis.x, 0,
   xAxis.y, yAxis.y, zAxis.y, 0,
   xAxis.z, yAxis.z, zAxis.z, 0,
   x, y, z, 1⟩

/-- `perspective_for_LH_to_ref` (lines 220-234); `m` is returned.  The
argument `fov` is not read by the source. -/
def perspective_for_LH_to_ref (_fov aspect znear zfar : ℚ) : Matrix :=
  let tan : ℚ := 2.56
  { m11 := tan / aspect, m12 := 0.0, m13 := 0.0, m14 := 0.0
    m22 := tan, m21 := 0.0, m23 := 0.0, m24 := 0.0
    m31 := 0.0, m32 := 0.0
    m33 := -zfar / (znear - zfar)
    m34 := 1.0
    m41 := 0.0, m42 := 0.0, m43 := 0.0
    m44 := (znear * zfar) / (znear - zfar) }

/-- Memory holding matrices, addressed by pointers of type `P`. -/
abbrev Mem (P : Type) := P → Matrix

/-- `matrix_multiply_to_ref` (lines 236-256) on a memory of matrices: sixteen
assignments to the fields of `*c`, in source order, each reading `*a` and `*b`
from the memory as it is at that point.  The pointers may coincide. -/
def matrix_multiply_to_ref {P : Type} [DecidableEq P] (a b c : P) (σ : Mem P) : Mem P :=
  let σ := Function.update σ c { σ c with m11 := (σ a).m11 * (σ b).m11 + (σ a).m12 * (σ b).m21 + (σ a).m13 * (σ b).m31 + (σ a).m14 * (σ b).m41 }
  let σ := Function.update σ c { σ c with m12 := (σ a).m11 * (σ b).m12 + (σ a).m12 * (σ b).m22 + (σ a).m13 * (σ b).m32 + (σ a).m14 * (σ b).m42 }
  let σ := Function.update σ c { σ c with m13 := (σ a).m11 * (σ b).m13 + (σ a).m12 * (σ b).m23 + (σ a).m13 * (σ b).m33 + (σ a).m14 * (σ b).m43 }
  let σ := Function.update σ c { σ c with m14 := (σ a).m11 * (σ b).m14 + (σ a).m12 * (σ b).m24 + (σ a).m13 * (σ b).m34 + (σ a).m14 * (σ b).m44 }
  let σ := Function.update σ c { σ c with m21 := (σ a).m21 * (σ b).m11 + (σ a).m22 * (σ b).m21 + (σ a).m23 * (σ b).m31 + (σ a).m24 * (σ b).m41 }
  let σ := Function.update σ c { σ c with m22 := (σ a).m21 * (σ b).m12 + (σ a).m22 * (σ b).m22 + (σ a).m23 * (σ b).m32 + (σ a).m24 * (σ b).m42 }
  let σ := Function.update σ c { σ c with m23 := (σ a).m21 * (σ b).m13 + (σ a).m22 * (σ b).m23 + (σ a).m23 * (σ b).m33 + (σ a).m24 * (σ b).m43 }
  let σ := Function.update σ c { σ c with m24 := (σ a).m21 * (σ b).m14 + (σ a).m22 * (σ b).m24 + (σ a).m23 * (σ b).m34 + (σ a).m24 * (σ b).m44 }
  let σ := Function.update σ c { σ c with m31 := (σ a).m31 * (σ b).m11 + (σ a).m32 * (σ b).m21 + (σ a).m33 * (σ b).m31 + (σ a).m34 * (σ b).m41 }
  let σ := Function.update σ c { σ c with m32 := (σ a).m31 * (σ b).m12 + (σ a).m32 * (σ b).m22 + (σ a).m33 * (σ b).m32 + (σ a).m34 * (σ b).m42 }
  let σ := Function.update σ c { σ c with m33 := (σ a).m31 * (σ b).m13 + (σ a).m32 * (σ b).m23 + (σ a).m33 * (σ b).m33 + (σ a).m34 * (σ b).m43 }
  let σ := Function.update σ c { σ c with m34 := (σ a).m31 * (σ b).m14 + (σ a).m32 * (σ b).m24 + (σ a).m33 * (σ b).m34 + (σ a).m34 * (σ b).m44 }
  let σ := Function.update σ c { σ c with m41 := (σ a).m41 * (σ b).m11 + (σ a).m42 * (σ b).m21 + (σ a).m43 * (σ b).m31 + (σ a).m44 * (σ b).m41 }
  let σ := Function.update σ c { σ c with m42 := (σ a).m41 * (σ b).m12 + (σ a).m42 * (σ b).m22 + (σ a).m43 * (σ b).m32 + (σ a).m44 * (σ b).m42 }
  let σ := Function.update σ c { σ c with m43 := (σ a).m41 * (σ b).m13 + (σ a).m42 * (σ b).m23 + (σ a).m43 * (σ b).m33 + (σ a).m44 * (σ b).m43 }
  let σ := Function.update σ c { σ c with m44 := (σ a).m41 * (σ b).m14 + (σ a).m42 * (σ b).m24 + (σ a).m43 * (σ b).m34 + (σ a).m44 * (σ b).m44 }
  σ

/-- The 4x4 matrix product `a · b` of the specification ("standard
row-vector-on-the-right 4×4 product"), as a value. -/
def matrix_product (a b : Matrix) : Matrix :=
  { m11 := a.m11 * b.m11 + a.m12 * b.m21 + a.m13 * b.m31 + a.m14 * b.m41
    m12 := a.m11 * b.m12 + a.m12 * b.m22 + a.m13 * b.m32 + a.m14 * b.m42
    m13 := a.m11 * b.m13 + a.m12 * b.m23 + a.m13 * b.m33 + a.m14 * b.m43
    m14 := a.m11 * b.m14 + a.m12 * b.m24 + a.m13 * b.m34 + a.m14 * b.m44
    m21 := a.m21 * b.m11 + a.m22 * b.m21 + a.m23 * b.m31 + a.m24 * b.m41
    m22 := a.m21 * b.m12 + a.m22 * b.m22 + a.m23 * b.m32 + a.m24 * b.m42
    m23 := a.m21 * b.m13 + a.m22 * b.m23 + a.m23 * b.m33 + a.m24 * b.m43
    m24 := a.m21 * b.m14 + a.m22 * b.m24 + a.m23 * b.m34 + a.m24 * b.m44
    m31 := a.m31 * b.m11 + a.m32 * b.m21 + a.m33 * b.m31 + a.m34 * b.m41
    m32 := a.m31 * b.m12 + a.m32 * b.m22 + a.m33 * b.m32 + a.m34 * b.m42
    m33 := a.m31 * b.m13 + a.m32 * b.m23 + a.m33 * b.m33 + a.m34 * b.m43
    m34 := a.m31 * b.m14 + a.m32 * b.m24 + a.m33 * b.m34 + a.m34 * b.m44
    m41 := a.m41 * b.m11 + a.m42 * b.m21 + a.m43 * b.m31 + a.m44 * b.m41
    m42 := a.m41 * b.m12 + a.m42 * b.m22 + a.m43 * b.m32 + a.m44 * b.m42
    m43 := a.m41 * b.m13 + a.m42 * b.m23 + a.m43 * b.m33 + a.m44 * b.m43
    m44 := a.m41 * b.m14 + a.m42 * b.m24 + a.m43 * b.m34 + a.m44 * b.m44 }

/-- What `matrix_multiply_to_ref (a, b, a)` leaves in `*a`, as a value: the
output is the left operand, so every entry of a row after the first is
computed from the entries of that row already overwritten. -/
def matrix_multiply_in_place (a b : Matrix) : Matrix :=
  let n11 := a.m11 * b.m11 + a.m12 * b.m21 + a.m13 * b.m31 + a.m14 * b.m41
  let n12 := n11 * b.m12 + a.m12 * b.m22 + a.m13 * b.m32 + a.m14 * b.m42
  let n13 := n11 * b.m13 + n12 * b.m23 + a.m13 * b.m33 + a.m14 * b.m43
  let n14 := n11 * b.m14 + n12 * b.m24 + n13 * b.m34 + a.m14 * b.m44
  let n21 := a.m21 * b.m11 + a.m22 * b.m21 + a.m23 * b.m31 + a.m24 * b.m41
  let n22 := n21 * b.m12 + a.m22 * b.m22 + a.m23 * b.m32 + a.m24 * b.m42
  let n23 := n21 * b.m13 + n22 * b.m23 + a.m23 * b.m33 + a.m24 * b.m43
  let n24 := n21 * b.m14 + n22 * b.m24 + n23 * b.m34 + a.m24 * b.m44
  let n31 := a.m31 * b.m11 + a.m32 * b.m21 + a.m33 * b.m31 + a.m34 * b.m41
  let n32 := n31 * b.m12 + a.m32 * b.m22 + a.m33 * b.m32 + a.m34 * b.m42
  let n33 := n31 * b.m13 + n32 * b.m23 + a.m33 * b.m33 + a.m34 * b.m43
  let n34 := n31 * b.m14 + n32 * b.m24 + n33 * b.m34 + a.m34 * b.m44
  let n41 := a.m41 * b.m11 + a.m42 * b.m21 + a.m43 * b.m31 + a.m44 * b.m41
  let n42 := n41 * b.m12 + a.m42 * b.m22 + a.m43 * b.m32 + a.m44 * b.m42
  let n43 := n41 * b.m13 + n42 * b.m23 + a.m43 * b.m33 + a.m44 * b.m43
  let n44 := n41 * b.m14 + n42 * b.m24 + n43 * b.m34 + a.m44 * b.m44
  ⟨n11, n12, n13, n14, n21, n22, n23, n24, n31, n32, n33, n34, n41, n42, n43, n44⟩

/-- `yaw_pitch_roll_to_ref` (lines 258-304); `m` is returned. -/
def yaw_pitch_roll_to_ref (yaw Pitch roll : ℚ) : Matrix :=
  let halfRoll := roll * 0.5
  let halfPitch := Pitch * 0.5
  let halfYaw := yaw * 0.5
  let sinRoll := sin_fast halfRoll
  let cosRoll := cos_fast halfRoll
  let sinPitch := sin_fast halfPitch
  let cosPitch := cos_fast halfPitch
  let sinYaw := sin_fast halfYaw
  let cosYaw := cos_fast halfYaw
  let x := (cosYaw * sinPitch * cosRoll) + (sinYaw * cosPitch * sinRoll)
  let y := (sinYaw * cosPitch * cosRoll) - (cosYaw * sinPitch * sinRoll)
  let z := (cosYaw * cosPitch * sinRoll) - (sinYaw * sinPitch * cosRoll)
  let w := (cosYaw * cosPitch * cosRoll) + (sinYaw * sinPitch * sinRoll)
  let xx := x * x
  let yy := y * y
  let zz := z * z
  let xy := x * y
  let zw := z * w
  let zx := z * x
  let yw := y * w
  let yz := y * z
  let xw := x * w
  { m11 := 1.0 - (2.0 * (yy + zz))
    m12 := 2.0 * (xy + zw)
    m13 := 2.0 * (zx - yw)
    m14 := 0.0
    m21 := 2.0 * (xy - zw)
    m22 := 1.0 - (2.0 * (zz + xx))
    m23 := 2.0 * (yz + xw)
    m24 := 0.0
    m31 := 2.0 * (zx + yw)
    m32 := 2.0 * (yz - xw)
    m33 := 1.0 - (2.0 * (yy + xx))
    m34 := 0.0
    m41 := 0.0
    m42 := 0.0
    m43 := 0.0
    m44 := 1.0 }

/-- `translation_to_ref` (lines 306-326); `m` is returned. -/
def translation_to_ref (x y z : ℚ) : Matrix :=
  { m11 := 1.0, m12 := 0.0, m13 := 0.0, m14 := 0.0
    m21 := 0.0, m22 := 1.0, m23 := 0.0, m24 := 0.0
    m31 := 0.0, m32 := 0.0, m33 := 1.0, m34 := 0.0
    m41 := x, m42 := y, m43 := z, m44 := 1.0 }

/-- `transform_coords` (lines 328-335); `r` is returned. -/
def transform_coords (v : Vector) (m : Matrix) : Vector2 :=
  let rx := v.x * m.m11 + v.y * m.m21 + v.z * m.m31 + m.m41
  let ry := v.x * m.m12 + v.y * m.m22 + v.z * m.m32 + m.m42
  let w := v.x * m.m14 + v.y * m.m24 + v.z * m.m34 + m.m44
  ⟨rx / w, ry / w⟩

/-! ## Camera and mesh -/

/-- `struct Camera`. -/
structure Camera where
  position : Vector
  target : Vector

/-- `struct Triangle`: three `uint8_t` vertex indices. -/
structure Triangle where
  a : Nat
  b : Nat
  c : Nat
  deriving DecidableEq

/-- `struct Mesh`.  The three buffers are lists; `num_vertices` and
`num_faces` are the `uint8_t` counters kept next to them. -/
structure Mesh where
  position : Vector
  rotation : Vector
  num_vertices : Nat
  vertices : List Vector
  num_faces : Nat
  faces : List Triangle
  proj : List Vector2

/-! ## Screen drawing -/

/-- `calc_pre_drawing` (lines 383-389): the view matrix and the projection
matrix, in this order. -/
def calc_pre_drawing (sqrt_fast : ℚ → ℚ) (cam : Camera) (w h : Int) : Matrix × Matrix :=
  (look_at_LH_to_ref sqrt_fast cam.position cam.target up_vector,
   perspective_for_LH_to_ref 0.78 ((w : ℚ) / (h : ℚ)) 0.01 1.0)

/-- The loop `while (r < -PI_1) r += PI_2;` of `fix_mesh_rotation`, every
correction exact; `fix_rotation_add_rounded` is the loop with the corrections
rounded as the code rounds them. -/
def fix_rotation_add (r : ℚ) : ℚ :=
  if r < -PI_1 then fix_rotation_add (r + PI_2) else r
termination_by (⌈(-PI_1 - r) / PI_2⌉).toNat
decreasing_by
  have hp : (0 : ℚ) < PI_2 := by norm_num [PI_2]
  have hq : 0 < (-PI_1 - r) / PI_2 := div_pos (by linarith) hp
  have he : (-PI_1 - (r + PI_2)) / PI_2 = (-PI_1 - r) / PI_2 - 1 := by
    field_simp
    ring
  rw [he, Int.ceil_sub_one]
  have h1 : 0 < ⌈(-PI_1 - r) / PI_2⌉ := Int.ceil_pos.mpr hq
  omega

/-- The loop `while (r > -PI_1) r -= PI_2;` of `fix_mesh_rotation` (the
bound is `-PI_1` in the source, lines 394, 399 and 404), every correction
exact; `fix_rotation_sub_rounded` is the loop with the corrections rounded as
the code rounds them. -/
def fix_rotation_sub (r : ℚ) : ℚ :=
  if r > -PI_1 then fix_rotation_sub (r - PI_2) else r
termination_by (⌈(r + PI_1) / PI_2⌉).toNat
decreasing_by
  have hp : (0 : ℚ) < PI_2 := by norm_num [PI_2]
  have hq : 0 < (r + PI_1) / PI_2 := div_pos (by linarith) hp
  have he : (r - PI_2 + PI_1) / PI_2 = (r + PI_1) / PI_2 - 1 := by
    field_simp
    ring
  rw [he, Int.ceil_sub_one]
  have h1 : 0 < ⌈(r + PI_1) / PI_2⌉ := Int.ceil_pos.mpr hq
  omega

/-- `fix_mesh_rotation` (lines 391-406), in exact arithmetic. -/
def fix_mesh_rotation (mesh : Mesh) : Mesh :=
  let x := fix_rotation_sub (fix_rotation_add mesh.rotation.x)
  let y := fix_rotation_sub (fix_rotation_add mesh.rotation.y)
  let z := fix_rotation_sub (fix_rotation_add mesh.rotation.z)
  { mesh with rotation := ⟨x, y, z⟩ }

/-- Conversion of a `float` to `uint8_t`, as in `ax = (mesh->proj[a].x)`: the
value is truncated toward zero; C leaves the conversion undefined when the
truncated value is not in `0..255`, which is `none` here. -/
def float_to_uint8 (q : ℚ) : Option Int :=
  let t : Int := if q < 0 then -⌊-q⌋ else ⌊q⌋
  if 0 ≤ t ∧ t ≤ 255 then some t else none

/-- Lines 434-444 of `draw_mesh`: the rotation matrix is written to
`*worldMatrix`, the translation matrix to `*translateMatrix`, and three calls
of `matrix_multiply_to_ref` follow, the last two with `transformMatrix` as
left operand and as output. -/
def draw_mesh_matrices {P : Type} [DecidableEq P] (viewMatrix projectionMatrix : P)
    (worldMatrix translateMatrix transformMatrix : P) (mesh : Mesh) (σ : Mem P) : Mem P :=
  let σ := Function.update σ worldMatrix
    (yaw_pitch_roll_to_ref mesh.rotation.x mesh.rotation.y mesh.rotation.z)
  let σ := Function.update σ translateMatrix
    (translation_to_ref mesh.position.x mesh.position.y mesh.position.z)
  let σ := matrix_multiply_to_ref worldMatrix translateMatrix transformMatrix σ
  let σ := matrix_multiply_to_ref transformMatrix viewMatrix transformMatrix σ
  let σ := matrix_multiply_to_ref transformMatrix projectionMatrix transformMatrix σ
  σ

/-- Body of the vertex loop of `draw_mesh` (lines 433-450) for index `i`.
`none` when `vertices[i]` or `proj[i]` is outside its buffer. -/
def draw_mesh_vertex {P : Type} [DecidableEq P] (viewMatrix projectionMatrix : P) (w h : Int)
    (worldMatrix translateMatrix transformMatrix : P) (i : Nat) (s : Mesh × Mem P) :
    Option (Mesh × Mem P) :=
  let mesh := s.1
  let σ := draw_mesh_matrices viewMatrix projectionMatrix
    worldMatrix translateMatrix transformMatrix mesh s.2
  match mesh.vertices[i]? with
  | none => none
  | some v =>
    let proj := transform_coords v (σ transformMatrix)
    if i < mesh.proj.length then
      some ({ mesh with proj := mesh.proj.set i ⟨proj.x * w + w * 0.5, proj.y * h + h * 0.5⟩ }, σ)
    else none

/-- The value `draw_mesh_matrices` leaves in `*transformMatrix` when the five
matrices are distinct objects, in terms of the view and projection matrices. -/
def draw_mesh_transform (mesh : Mesh) (view projection : Matrix) : Matrix :=
  matrix_multiply_in_place
    (matrix_multiply_in_place
      (matrix_product
        (yaw_pitch_roll_to_ref mesh.rotation.x mesh.rotation.y mesh.rotation.z)
        (translation_to_ref mesh.position.x mesh.position.y mesh.position.z))
      view)
    projection

/-- Body of the face loop of `draw_mesh` (lines 457-475) for index `i`: the
pixels plotted so far, followed by those of the lines a-b, a-c and b-c.
`none` on an access outside a buffer, an undefined conversion, or when a line
runs out of fuel. -/
def draw_mesh_face (fuel : Nat) (mesh : Mesh) (i : Nat) (pixels : List GPoint) :
    Option (List GPoint) := do
  let face ← mesh.faces[i]?
  let a := face.a
  let b := face.b
  let c := face.c
  let pa ← mesh.proj[a]?
  let pb ← mesh.proj[b]?
  let pc ← mesh.proj[c]?
  let ax ← float_to_uint8 pa.x
  let ay ← float_to_uint8 pa.y
  let bx ← float_to_uint8 pb.x
  let by_ ← float_to_uint8 pb.y  -- `by` in the source
  let cx ← float_to_uint8 pc.x
  let cy ← float_to_uint8 pc.y
  let ab ← draw_line fuel ax ay bx by_
  let ac ← draw_line fuel ax ay cx cy
  let bc ← draw_line fuel bx by_ cx cy
  pure (pixels ++ ab ++ ac ++ bc)

/-- `draw_mesh` (lines 412-477).  The memory `σ` holds the five matrices the
pointer arguments refer to; the result is the mesh, the memory and the pixels
plotted, in order.  `fuel` is the fuel given to each `draw_line`. -/
def draw_mesh {P : Type} [DecidableEq P] (fuel : Nat) (mesh : Mesh)
    (viewMatrix projectionMatrix : P) (w h : Int)
    (worldMatrix translateMatrix transformMatrix : P) (σ : Mem P) :
    Option (Mesh × Mem P × List GPoint) := do
  let num_vertices := mesh.num_vertices
  let num_faces := mesh.num_faces
  let mesh := fix_mesh_rotation mesh
  let s ← (List.range num_vertices).foldlM
    (fun s i => draw_mesh_vertex viewMatrix projectionMatrix w h
      worldMatrix translateMatrix transformMatrix i s) (mesh, σ)
  let pixels ← (List.range num_faces).foldlM
    (fun pixels i => draw_mesh_face fuel s.1 i pixels) []
  pure (s.1, s.2, pixels)

/-- The five matrices allocated by `init_world` in `three_dee.c`. -/
inductive MatrixPtr where
  | viewMatrix
  | projectionMatrix
  | transformMatrix
  | worldMatrix
  | translateMatrix
  deriving DecidableEq

/-! ## The cube factory (`three_dee.c`) -/

/-- `make_basic_cube` (`three_dee.c`, lines 75-113).  Every field of `*mesh`
is overwritten; `proj_buffer` is the content of the freshly allocated,
uninitialised projection buffer. -/
def make_basic_cube (_mesh : Mesh) (side_length : ℚ) (proj_buffer : Fin 8 → Vector2) : Mesh :=
  let num := 0.5 * side_length
  { position := null_vector
    rotation := null_vector
    num_vertices := 8
    vertices :=
      [⟨-num, num, num⟩, ⟨num, num, num⟩, ⟨-num, -num, num⟩, ⟨num, -num, num⟩,
       ⟨-num, num, -num⟩, ⟨num, num, -num⟩, ⟨num, -num, -num⟩, ⟨-num, -num, -num⟩]
    proj := List.ofFn proj_buffer
    num_faces := 12
    faces :=
      [⟨0, 1, 2⟩, ⟨1, 2, 3⟩, ⟨1, 3, 6⟩, ⟨1, 5, 6⟩, ⟨0, 1, 4⟩, ⟨1, 4, 5⟩,
       ⟨2, 3, 7⟩, ⟨3, 6, 7⟩, ⟨0, 2, 7⟩, ⟨0, 4, 7⟩, ⟨4, 5, 6⟩, ⟨4, 6, 7⟩] }

/-! ## Vocabulary for the sides of the cube -/

/-- The coordinate of a vector along an axis (`0` is x, `1` is y, `2` is z). -/
def Vector.coord (v : Vector) : Fin 3 → ℚ
  | 0 => v.x
  | 1 => v.y
  | 2 => v.z

/-- The three vertex indices of a face. -/
def Triangle.indices (t : Triangle) : List Nat :=
  [t.a, t.b, t.c]

/-- Vertex `i` of the mesh exists and lies on the plane `axis = c`. -/
def vertex_on_plane (mesh : Mesh) (axis : Fin 3) (c : ℚ) (i : Nat) : Bool :=
  match mesh.vertices[i]? with
  | some v => decide (v.coord axis = c)
  | none => false

/-- The three vertices of a face lie on the plane `axis = c`. -/
def triangle_on_plane (mesh : Mesh) (axis : Fin 3) (c : ℚ) (t : Triangle) : Bool :=
  vertex_on_plane mesh axis c t.a && vertex_on_plane mesh axis c t.b &&
    vertex_on_plane mesh axis c t.c

/-- The two vertices `i` and `j` exist and differ in both coordinates other
than `axis`: on a side of the cube they are the end points of a diagonal. -/
def diagonal_on_side (mesh : Mesh) (axis : Fin 3) (i j : Nat) : Prop :=
  ∃ vi vj, mesh.vertices[i]? = some vi ∧ mesh.vertices[j]? = some vj ∧
    ∀ ax : Fin 3, ax ≠ axis → vi.coord ax ≠ vj.coord ax

/-! ## Interval enclosures for the fast trigonometry -/

/-- What `sin_fast` computes from the range-reduced angle `y`: the parabola
`y * (1.2732395 - 0.40528473 * |y|)` (both branches of `x < 0`), followed by
the correction `s * (0.775 + 0.225 * |s|)` (both branches of `sin < 0`). -/
def sin_core (y : ℚ) : ℚ :=
  let s := y * (1.2732395 - 0.40528473 * |y|)
  s * (0.775 + 0.225 * |s|)

/-- A closed interval of rationals. -/
structure Ival where
  lo : ℚ
  hi : ℚ

/-- Membership in an interval. -/
def Ival.mem (x : ℚ) (I : Ival) : Prop :=
  I.lo ≤ x ∧ x ≤ I.hi

/-- Enclosure of the products of two intervals. -/
def Ival.mul (I J : Ival) : Ival :=
  ⟨min (min (I.lo * J.lo) (I.lo * J.hi)) (min (I.hi * J.lo) (I.hi * J.hi)),
   max (max (I.lo * J.lo) (I.lo * J.hi)) (max (I.hi * J.lo) (I.hi * J.hi))⟩

/-- Enclosure of the absolute values of an interval. -/
def Ival.abs (I : Ival) : Ival :=
  if 0 ≤ I.lo then I
  else if I.hi ≤ 0 then ⟨-I.hi, -I.lo⟩
  else ⟨0, max (-I.lo) I.hi⟩

/-- The smallest interval containing two intervals. -/
def Ival.hull (I J : Ival) : Ival :=
  ⟨min I.lo J.lo, max I.hi J.hi⟩

/-- Enclosure of `sin_core` on an interval. -/
def sin_core_ival (I : Ival) : Ival :=
  let g := I.abs
  let p := I.mul ⟨1.2732395 - 0.40528473 * g.hi, 1.2732395 - 0.40528473 * g.lo⟩
  let q := p.abs
  p.mul ⟨0.775 + 0.225 * q.lo, 0.775 + 0.225 * q.hi⟩

/-- Enclosure of `sin_fast` on an interval that starts at or above `-PI_1`. -/
def sin_fast_ival (I : Ival) : Ival :=
  if I.hi ≤ PI_1 then sin_core_ival I
  else if PI_1 < I.lo then sin_core_ival ⟨I.lo - PI_2, I.hi - PI_2⟩
  else (sin_core_ival ⟨I.lo, PI_1⟩).hull (sin_core_ival ⟨PI_1 - PI_2, I.hi - PI_2⟩)

/-- The interval check behind the bound on `sin_fast^2 + cos_fast^2`: on the
interval `I`, the enclosure of the sum of squares lies in `[0.94, 1.06]`. -/
def pythagoras_check (I : Ival) : Bool :=
  let s := sin_fast_ival I
  let c := sin_fast_ival ⟨I.lo + 1.57079632, I.hi + 1.57079632⟩
  let s2 := s.mul s
  let c2 := c.mul c
  decide (-PI_1 ≤ I.lo ∧ 0.94 ≤ s2.lo + c2.lo ∧ s2.hi + c2.hi ≤ 1.06)

/-- The `i`-th cell of the grid of width `1/40` that starts at `-PI_1`. -/
def pythagoras_cell (i : Nat) : Ival :=
  ⟨-PI_1 + i / 40, -PI_1 + (i + 1) / 40⟩

/-- The interval check on the first `n` cells of the grid. -/
def pythagoras_check_all (n : Nat) : Bool :=
  (List.range n).all (fun i => pythagoras_check (pythagoras_cell i))

/-! ## Range reduction and machine integers -/

/-- The range reduction at the start of `sin_fast` (lines 41-44): the value of
`x` after the two `if` statements. -/
def sin_fast_reduce (x : ℚ) : ℚ :=
  let x := if x < -PI_1 then x + PI_2 else x
  let x := if x > PI_1 then x - PI_2 else x
  x

/-- Wrap-around of an integer into the range of a 32-bit two's complement
`int`, `-2^31 .. 2^31 - 1`. -/
def wrap_int32 (z : Int) : Int :=
  (z + 2147483648) % 4294967296 - 2147483648

/-- `abs` of `three_dee.h`, lines 84-86, on a 32-bit `int` whose negation
wraps around modulo `2^32`. -/
def abs_int32 (i : Int) : Int :=
  if i < 0 then wrap_int32 (-i) else i

/-! ## The vertex loop with the transform matrix hoisted -/

/-- The pixel position stored in `proj[i]` for the vertex `v` (lines 447-450
of `draw_mesh`), given the content of the transform matrix. -/
def draw_mesh_project (transform : Matrix) (w h : Int) (v : Vector) : Vector2 :=
  let proj := transform_coords v transform
  ⟨proj.x * w + w * 0.5, proj.y * h + h * 0.5⟩

/-- Body of the vertex loop when the transform matrix is computed before the
loop: lines 447-450 alone, for index `i`.  `none` when `vertices[i]` or
`proj[i]` is outside its buffer. -/
def draw_mesh_vertex_hoisted (transform : Matrix) (w h : Int) (i : Nat) (mesh : Mesh) :
    Option Mesh :=
  match mesh.vertices[i]? with
  | none => none
  | some v =>
    if i < mesh.proj.length then
      some { mesh with proj := mesh.proj.set i (draw_mesh_project transform w h v) }
    else none

/-- The variant of `draw_mesh` the specification allows ("an implementer may
hoist it as a pure optimization"): the world, translate and transform
matrices are computed once, before the vertex loop; everything else is as in
`draw_mesh`. -/
def draw_mesh_hoisted {P : Type} [DecidableEq P] (fuel : Nat) (mesh : Mesh)
    (viewMatrix projectionMatrix : P) (w h : Int)
    (worldMatrix translateMatrix transformMatrix : P) (σ : Mem P) :
    Option (Mesh × Mem P × List GPoint) := do
  let num_vertices := mesh.num_vertices
  let num_faces := mesh.num_faces
  let mesh := fix_mesh_rotation mesh
  let σ := draw_mesh_matrices viewMatrix projectionMatrix
    worldMatrix translateMatrix transformMatrix mesh σ
  let mesh ← (List.range num_vertices).foldlM
    (fun mesh i => draw_mesh_vertex_hoisted (σ transformMatrix) w h i mesh) mesh
  let pixels ← (List.range num_faces).foldlM
    (fun pixels i => draw_mesh_face fuel mesh i pixels) []
  pure (mesh, σ, pixels)

/-! ## Counting the corrections of `fix_mesh_rotation` -/

/-- The two loops `while (r < -PI_1) r += PI_2; while (r > -PI_1) r -= PI_2;`
started at `r` make exactly `n` additions followed by `m` subtractions and
end at `r'`: each loop condition holds before each of its corrections and
fails after the last one. -/
def fix_rotation_corrections (r r' : ℚ) (n m : Nat) : Prop :=
  (∀ k : Nat, k < n → r + k * PI_2 < -PI_1) ∧ ¬ (r + n * PI_2 < -PI_1) ∧
  (∀ k : Nat, k < m → r + n * PI_2 - k * PI_2 > -PI_1) ∧
  ¬ (r + n * PI_2 - m * PI_2 > -PI_1) ∧
  r' = r + n * PI_2 - m * PI_2

/-! ## Steps of a rasterised line -/

/-- The pixel `q` follows the pixel `p` by one step of a line with step
directions `sx`, `sy`: `0` or `sx` in x, `0` or `sy` in y, not both `0`. -/
def line_step (sx sy : Int) (p q : GPoint) : Prop :=
  (q.x = p.x ∨ q.x = p.x + sx) ∧ (q.y = p.y ∨ q.y = p.y + sy) ∧ ¬ (q.x = p.x ∧ q.y = p.y)

/-! ## End points of the lines of a face -/

/-- Truncation of a rational toward zero. -/
def truncate_toward_zero (q : ℚ) : Int :=
  if q < 0 then -⌊-q⌋ else ⌊q⌋

/-- The values of `ax, ay, bx, by, cx, cy` for face `i` (lines 457-466 of
`draw_mesh`), in this order: what `draw_mesh` passes to `draw_line`.  `none`
on an access outside a buffer or an undefined conversion to `uint8_t`. -/
def draw_mesh_face_endpoints (mesh : Mesh) (i : Nat) :
    Option (Int × Int × Int × Int × Int × Int) := do
  let face ← mesh.faces[i]?
  let a := face.a
  let b := face.b
  let c := face.c
  let pa ← mesh.proj[a]?
  let pb ← mesh.proj[b]?
  let pc ← mesh.proj[c]?
  let ax ← float_to_uint8 pa.x
  let ay ← float_to_uint8 pa.y
  let bx ← float_to_uint8 pb.x
  let by_ ← float_to_uint8 pb.y  -- `by` in the source
  let cx ← float_to_uint8 pc.x
  let cy ← float_to_uint8 pc.y
  pure (ax, ay, bx, by_, cx, cy)

/-- A mesh at position `(2,0,0)` whose three vertices are at its origin, with
the single face `(0,1,2)`: with identity view and projection matrices its
vertices are projected to the right of a viewport of width `144`. -/
def offscreen_mesh : Mesh :=
  { position := ⟨2, 0, 0⟩
    rotation := ⟨0, 0, 0⟩
    num_vertices := 3
    vertices := [⟨0, 0, 0⟩, ⟨0, 0, 0⟩, ⟨0, 0, 0⟩]
    num_faces := 1
    faces := [⟨0, 1, 2⟩]
    proj := [⟨0, 0⟩, ⟨0, 0⟩, ⟨0, 0⟩] }

/-! ## `sin_fast` in machine arithmetic -/

/-- `sin_fast` of `three_dee.h`, lines 39-62, with the rounding of the machine
arithmetic written out.  `rd` rounds to `double`: it is applied to every
constant with a decimal point and to the result of every operation that has a
`double` operand.  `rf` rounds to `float`: it is applied to the result of every
operation between two `float`s and to every value stored in the `float`
variables `x` and `sin`.  Comparisons and the unary minus are exact; the
`float` operands of an operation with a `double` are converted exactly.  With
`rd = rf = id` this is `sin_fast`. -/
def sin_fast_rounded (rd rf : ℚ → ℚ) (x : ℚ) : ℚ :=
  let x := if x < -rd PI_1 then rf (rd (x + rd PI_2)) else x
  let x := if x > rd PI_1 then rf (rd (x - rd PI_2)) else x
  if x < 0 then
    let sin := rf (rd (rd (rd 1.2732395 * x) + rd (rd (rd 0.40528473 * x) * x)))
    if sin < 0 then
      rf (rd (rd (rd 0.225 * rf (rf (sin * -sin) - sin)) + sin))
    else
      rf (rd (rd (rd 0.225 * rf (rf (sin * sin) - sin)) + sin))
  else
    let sin := rf (rd (rd (rd 1.2732395 * x) - rd (rd (rd 0.40528473 * x) * x)))
    if sin < 0 then
      rf (rd (rd (rd 0.225 * rf (rf (sin * -sin) - sin)) + sin))
    else
      rf (rd (rd (rd 0.225 * rf (rf (sin * sin) - sin)) + sin))

/-- Rounding of a magnitude `a ≥ 0` to the nearest number with `p` significant
binary digits and an exponent of at least `emin`, a tie going to the even
significand: the default rounding of IEEE 754 arithmetic, without the overflow
to infinity. -/
def round_magnitude (p : Nat) (emin : Int) (a : ℚ) : ℚ :=
  let e := max (Int.log 2 a) emin
  let ulp : ℚ := 2 ^ (e - (p : Int) + 1)
  let m := a / ulp
  let n := ⌊m⌋
  let r := if 2 * (m - n) < 1 then n else if 1 < 2 * (m - n) then n + 1
    else if n % 2 = 0 then n else n + 1
  r * ulp

/-- Rounding to nearest, ties to even, of a signed number: the magnitude is
rounded and the sign is kept. -/
def round_nearest_even (p : Nat) (emin : Int) (q : ℚ) : ℚ :=
  if q < 0 then -round_magnitude p emin (-q) else round_magnitude p emin q

/-- Rounding to the `float` of the target (IEEE 754 binary32). -/
def round_float (q : ℚ) : ℚ :=
  round_nearest_even 24 (-126) q

/-- Rounding to the `double` of the target (IEEE 754 binary64). -/
def round_double (q : ℚ) : ℚ :=
  round_nearest_even 53 (-1022) q


/-! ## `draw_line` on 32-bit integers -/

/-- The `while (1)` loop of `draw_line` (lines 105-112) on the 32-bit `int` of
the target: the result of every operation on `int` is reduced into
`-2^31 .. 2^31 - 1` by `wrap_int32`, as the compiled code does.  `none` when
the fuel is used up before the loop breaks. -/
def draw_line_int32_loop (dx dy sx sy x1 y1 : Int) :
    Nat → Int → Int → Int → Option (List GPoint)
  | 0, _, _, _ => none
  | fuel + 1, x0, y0, err =>
    if x0 = x1 ∧ y0 = y1 then
      some [⟨x0, y0⟩]
    else
      let e2 := wrap_int32 (err * 2)
      let err1 := if e2 > wrap_int32 (-dy) then wrap_int32 (err - dy) else err
      let x0n := if e2 > wrap_int32 (-dy) then wrap_int32 (x0 + sx) else x0
      let err2 := if e2 < dx then wrap_int32 (err1 + dx) else err1
      let y0n := if e2 < dx then wrap_int32 (y0 + sy) else y0
      (draw_line_int32_loop dx dy sx sy x1 y1 fuel x0n y0n err2).map
        (fun ps => ⟨x0, y0⟩ :: ps)

/-- `draw_line` of `three_dee.h`, lines 96-113, on 32-bit integers, run with
the given fuel. -/
def draw_line_int32 (fuel : Nat) (x0 y0 x1 y1 : Int) : Option (List GPoint) :=
  let dx := abs_int32 (wrap_int32 (x1 - x0))
  let dy := abs_int32 (wrap_int32 (y1 - y0))
  let sx : Int := if x0 < x1 then 1 else -1
  let sy : Int := if y0 < y1 then 1 else -1
  let err := wrap_int32 (dx - dy)
  draw_line_int32_loop dx dy sx sy x1 y1 fuel x0 y0 err

/-- The pixels handed to `graphics_draw_pixel` in the first `n` iterations of
the loop of `draw_line` on 32-bit integers, whether or not the loop breaks
later. -/
def draw_line_int32_plotted_loop (dx dy sx sy x1 y1 : Int) :
    Nat → Int → Int → Int → List GPoint
  | 0, _, _, _ => []
  | n + 1, x0, y0, err =>
    if x0 = x1 ∧ y0 = y1 then
      [⟨x0, y0⟩]
    else
      let e2 := wrap_int32 (err * 2)
      let err1 := if e2 > wrap_int32 (-dy) then wrap_int32 (err - dy) else err
      let x0n := if e2 > wrap_int32 (-dy) then wrap_int32 (x0 + sx) else x0
      let err2 := if e2 < dx then wrap_int32 (err1 + dx) else err1
      let y0n := if e2 < dx then wrap_int32 (y0 + sy) else y0
      ⟨x0, y0⟩ :: draw_line_int32_plotted_loop dx dy sx sy x1 y1 n x0n y0n err2

/-- The pixels plotted by the first `n` iterations of `draw_line` on 32-bit
integers. -/
def draw_line_int32_plotted (n : Nat) (x0 y0 x1 y1 : Int) : List GPoint :=
  let dx := abs_int32 (wrap_int32 (x1 - x0))
  let dy := abs_int32 (wrap_int32 (y1 - y0))
  let sx : Int := if x0 < x1 then 1 else -1
  let sy : Int := if y0 < y1 then 1 else -1
  let err := wrap_int32 (dx - dy)
  draw_line_int32_plotted_loop dx dy sx sy x1 y1 n x0 y0 err

/-- The values of a 32-bit `int`. -/
def in_int32 (z : Int) : Prop :=
  -2147483648 ≤ z ∧ z ≤ 2147483647


/-! ## `fix_mesh_rotation` in machine arithmetic -/

/-- One correction `r += PI_2` on a `float` (lines 393, 398, 403): the sum is
made in `double` and stored in the `float`. -/
def fix_rotation_add_step (rd rf : ℚ → ℚ) (r : ℚ) : ℚ :=
  rf (rd (r + rd PI_2))

/-- One correction `r -= PI_2` on a `float` (lines 395, 400, 405). -/
def fix_rotation_sub_step (rd rf : ℚ → ℚ) (r : ℚ) : ℚ :=
  rf (rd (r - rd PI_2))

/-- The loop `while (r < -PI_1) r += PI_2;` of `fix_mesh_rotation` in machine
arithmetic; `none` when the fuel is used up before the loop ends. -/
def fix_rotation_add_rounded (rd rf : ℚ → ℚ) : Nat → ℚ → Option ℚ
  | 0, _ => none
  | fuel + 1, r =>
    if r < -rd PI_1 then fix_rotation_add_rounded rd rf fuel (fix_rotation_add_step rd rf r)
    else some r

/-- The loop `while (r > -PI_1) r -= PI_2;` of `fix_mesh_rotation` in machine
arithmetic; `none` when the fuel is used up before the loop ends. -/
def fix_rotation_sub_rounded (rd rf : ℚ → ℚ) : Nat → ℚ → Option ℚ
  | 0, _ => none
  | fuel + 1, r =>
    if r > -rd PI_1 then fix_rotation_sub_rounded rd rf fuel (fix_rotation_sub_step rd rf r)
    else some r

/-- `fix_mesh_rotation` (lines 391-406) in machine arithmetic, each loop run
with the given fuel. -/
def fix_mesh_rotation_rounded (rd rf : ℚ → ℚ) (fuel : Nat) (mesh : Mesh) : Option Mesh :=
  (fix_rotation_add_rounded rd rf fuel mesh.rotation.x).bind fun x =>
  (fix_rotation_sub_rounded rd rf fuel x).bind fun x =>
  (fix_rotation_add_rounded rd rf fuel mesh.rotation.y).bind fun y =>
  (fix_rotation_sub_rounded rd rf fuel y).bind fun y =>
  (fix_rotation_add_rounded rd rf fuel mesh.rotation.z).bind fun z =>
  (fix_rotation_sub_rounded rd rf fuel z).bind fun z =>
  some { mesh with rotation := ⟨x, y, z⟩ }

/-- The two loops `while (r < -PI_1) r += PI_2; while (r > -PI_1) r -= PI_2;`
in machine arithmetic, started at `r`, make exactly `n` corrections of the
first kind followed by `m` of the second and end at `r'`: each loop condition
holds before each of its corrections and fails after the last one. -/
def fix_rotation_rounded_corrections (rd rf : ℚ → ℚ) (r r' : ℚ) (n m : Nat) : Prop :=
  (∀ k : Nat, k < n → (fix_rotation_add_step rd rf)^[k] r < -rd PI_1) ∧
  ¬ ((fix_rotation_add_step rd rf)^[n] r < -rd PI_1) ∧
  (∀ k : Nat, k < m →
    (fix_rotation_sub_step rd rf)^[k] ((fix_rotation_add_step rd rf)^[n] r) > -rd PI_1) ∧
  ¬ ((fix_rotation_sub_step rd rf)^[m] ((fix_rotation_add_step rd rf)^[n] r) > -rd PI_1) ∧
  r' = (fix_rotation_sub_step rd rf)^[m] ((fix_rotation_add_step rd rf)^[n] r)


/-- The range reduction at the start of `sin_fast` (lines 41-44) in machine
arithmetic: the value of the `float` `x` after the two `if` statements, as in
`sin_fast_rounded`. -/
def sin_fast_reduce_rounded (rd rf : ℚ → ℚ) (x : ℚ) : ℚ :=
  let x := if x < -rd PI_1 then rf (rd (x + rd PI_2)) else x
  let x := if x > rd PI_1 then rf (rd (x - rd PI_2)) else x
  x


/-- The number of loop iterations of `draw_line` before the break. -/
def line_steps (x0 y0 x1 y1 : Int) : Nat :=
  (max (abs (x1 - x0)) (abs (y1 - y0))).toNat

/-! # Theorems -/

/-! ## Line drawing: termination and shape of the pixel sequence -/

/-- More fuel does not change a finished run of the loop. -/
theorem draw_line_loop_fuel_mono (dx dy sx sy x1 y1 : Int) (fuel : Nat) :
    ∀ (x0 y0 err : Int) (ps : List GPoint) (extra : Nat),
      draw_line_loop dx dy sx sy x1 y1 fuel x0 y0 err = some ps →
      draw_line_loop dx dy sx sy x1 y1 (fuel + extra) x0 y0 err = some ps := by
  induction fuel with
  | zero => intro x0 y0 err ps extra h; simp [draw_line_loop] at h
  | succ f ih =>
    intro x0 y0 err ps extra h
    have hf : f + 1 + extra = (f + extra) + 1 := by omega
    rw [hf]
    unfold draw_line_loop at h ⊢
    by_cases hb : x0 = x1 ∧ y0 = y1
    · rw [if_pos hb] at h ⊢; exact h
    · rw [if_neg hb] at h ⊢
      simp only [Option.map_eq_some'] at h ⊢
      obtain ⟨qs, hq, rfl⟩ := h
      exact ⟨qs, ih _ _ _ qs extra hq, rfl⟩

/-- Lines whose major axis is x: with `n` steps left in x and the error term
inside its band, the loop stops after exactly `n` further iterations, moving
one step in x each time. -/
theorem draw_line_loop_xmajor (dx dy sx sy x1 y1 : Int) (hdx : 0 < dx) (hdy : 0 ≤ dy)
    (hle : dy ≤ dx) (hsx : sx = 1 ∨ sx = -1) :
    ∀ (n : Nat) (x y err ry : Int),
      x1 = x + sx * n → y1 = y + sy * ry → 0 ≤ ry →
      err = dx - dy + n * dy - ry * dx → -dy < 2 * err → (dx = dy → err = 0) →
      ∃ ps, draw_line_loop dx dy sx sy x1 y1 (n + 1) x y err = some ps ∧
        ps.length = n + 1 ∧ ps.head? = some ⟨x, y⟩ ∧ ps.getLast? = some ⟨x1, y1⟩ ∧
        ps.map GPoint.x = (List.range (n + 1)).map (fun (k : Nat) => x + sx * (k : Int)) := by
  intro n
  induction n with
  | zero =>
    intro x y err ry hx hy hry herr hband _
    have hry0 : ry = 0 := by
      by_contra hne
      have h1 : 1 ≤ ry := by omega
      have h2 : 0 ≤ dx * (ry - 1) := mul_nonneg hdx.le (by omega)
      simp only [Nat.cast_zero, zero_mul, add_zero] at herr
      nlinarith
    subst hry0
    simp only [Nat.cast_zero, mul_zero, add_zero] at hx hy
    subst hx; subst hy
    refine ⟨[⟨x1, y1⟩], ?_, rfl, rfl, rfl, ?_⟩
    · simp [draw_line_loop]
    · simp [List.range_succ]
  | succ n ih =>
    intro x y err ry hx hy hry herr hband hdiag
    have hne : ¬ (x = x1 ∧ y = y1) := by
      rintro ⟨h, _⟩
      rcases hsx with h1 | h1 <;> subst h1 <;> push_cast at hx <;> omega
    have hxstep : err * 2 > -dy := by omega
    push_cast at hx herr
    unfold draw_line_loop
    rw [if_neg hne]
    simp only [if_pos hxstep]
    by_cases hystep : err * 2 < dx
    · simp only [if_pos hystep]
      have hry1 : 1 ≤ ry := by
        by_contra hne
        have h0 : ry = 0 := by omega
        subst h0
        have : 0 ≤ dy * (n : Int) := mul_nonneg hdy (Int.ofNat_nonneg n)
        nlinarith
      obtain ⟨ps, hps, hlen, _, hlast, hmap⟩ :=
        ih (x + sx) (y + sy) (err - dy + dx) (ry - 1) (by rw [hx]; ring) (by rw [hy]; ring)
          (by omega) (by rw [herr]; ring) (by omega) (by intro h; have := hdiag h; omega)
      refine ⟨⟨x, y⟩ :: ps, by rw [hps]; rfl, by simp [hlen], rfl, ?_, ?_⟩
      · cases ps with
        | nil => simp at hlen
        | cons p qs => simpa using hlast
      · rw [List.map_cons, hmap, List.range_succ_eq_map (n + 1), List.map_cons, List.map_map]
        simp only [Nat.cast_zero, mul_zero, add_zero, List.cons.injEq, true_and]
        apply List.map_congr_left
        intro k _
        simp only [Function.comp_apply, Nat.succ_eq_add_one]
        push_cast
        ring
    · simp only [if_neg hystep]
      have hne2 : dx ≠ dy := by
        intro h
        have := hdiag h
        omega
      obtain ⟨ps, hps, hlen, _, hlast, hmap⟩ :=
        ih (x + sx) y (err - dy) ry (by rw [hx]; ring) hy hry (by rw [herr]; ring)
          (by omega) (by intro h; exact absurd h hne2)
      refine ⟨⟨x, y⟩ :: ps, by rw [hps]; rfl, by simp [hlen], rfl, ?_, ?_⟩
      · cases ps with
        | nil => simp at hlen
        | cons p qs => simpa using hlast
      · rw [List.map_cons, hmap, List.range_succ_eq_map (n + 1), List.map_cons, List.map_map]
        simp only [Nat.cast_zero, mul_zero, add_zero, List.cons.injEq, true_and]
        apply List.map_congr_left
        intro k _
        simp only [Function.comp_apply, Nat.succ_eq_add_one]
        push_cast
        ring

/-- Lines whose major axis is y: with `n` steps left in y and the error term
inside its band, the loop stops after exactly `n` further iterations, moving
one step in y each time. -/
theorem draw_line_loop_ymajor (dx dy sx sy x1 y1 : Int) (hdx : 0 ≤ dx)
    (hlt : dx < dy) (hsy : sy = 1 ∨ sy = -1) :
    ∀ (n : Nat) (x y err rx : Int),
      y1 = y + sy * n → x1 = x + sx * rx → 0 ≤ rx →
      err = dx - dy + rx * dy - n * dx → 2 * err < dx →
      ∃ ps, draw_line_loop dx dy sx sy x1 y1 (n + 1) x y err = some ps ∧
        ps.length = n + 1 ∧ ps.head? = some ⟨x, y⟩ ∧ ps.getLast? = some ⟨x1, y1⟩ ∧
        ps.map GPoint.y = (List.range (n + 1)).map (fun (k : Nat) => y + sy * (k : Int)) := by
  intro n
  induction n with
  | zero =>
    intro x y err rx hy hx hrx herr hband
    have hrx0 : rx = 0 := by
      by_contra hne
      have h1 : 1 ≤ rx := by omega
      have h2 : 0 ≤ dy * (rx - 1) := mul_nonneg (by omega) (by omega)
      simp only [Nat.cast_zero, zero_mul, sub_zero] at herr
      nlinarith
    subst hrx0
    simp only [Nat.cast_zero, mul_zero, add_zero] at hx hy
    subst hx; subst hy
    refine ⟨[⟨x1, y1⟩], ?_, rfl, rfl, rfl, ?_⟩
    · simp [draw_line_loop]
    · simp [List.range_succ]
  | succ n ih =>
    intro x y err rx hy hx hrx herr hband
    have hne : ¬ (x = x1 ∧ y = y1) := by
      rintro ⟨_, h⟩
      rcases hsy with h1 | h1 <;> subst h1 <;> push_cast at hy <;> omega
    have hystep : err * 2 < dx := by omega
    push_cast at hy herr
    unfold draw_line_loop
    rw [if_neg hne]
    simp only [if_pos hystep]
    by_cases hxstep : err * 2 > -dy
    · simp only [if_pos hxstep]
      have hrx1 : 1 ≤ rx := by
        by_contra hne
        have h0 : rx = 0 := by omega
        subst h0
        have : 0 ≤ dx * (n : Int) := mul_nonneg hdx (Int.ofNat_nonneg n)
        nlinarith
      obtain ⟨ps, hps, hlen, _, hlast, hmap⟩ :=
        ih (x + sx) (y + sy) (err - dy + dx) (rx - 1) (by rw [hy]; ring) (by rw [hx]; ring)
          (by omega) (by rw [herr]; ring) (by omega)
      refine ⟨⟨x, y⟩ :: ps, by rw [hps]; rfl, by simp [hlen], rfl, ?_, ?_⟩
      · cases ps with
        | nil => simp at hlen
        | cons p qs => simpa using hlast
      · rw [List.map_cons, hmap, List.range_succ_eq_map (n + 1), List.map_cons, List.map_map]
        simp only [Nat.cast_zero, mul_zero, add_zero, List.cons.injEq, true_and]
        apply List.map_congr_left
        intro k _
        simp only [Function.comp_apply, Nat.succ_eq_add_one]
        push_cast
        ring
    · simp only [if_neg hxstep]
      obtain ⟨ps, hps, hlen, _, hlast, hmap⟩ :=
        ih x (y + sy) (err + dx) rx (by rw [hy]; ring) hx hrx (by rw [herr]; ring)
          (by omega)
      refine ⟨⟨x, y⟩ :: ps, by rw [hps]; rfl, by simp [hlen], rfl, ?_, ?_⟩
      · cases ps with
        | nil => simp at hlen
        | cons p qs => simpa using hlast
      · rw [List.map_cons, hmap, List.range_succ_eq_map (n + 1), List.map_cons, List.map_map]
        simp only [Nat.cast_zero, mul_zero, add_zero, List.cons.injEq, true_and]
        apply List.map_congr_left
        intro k _
        simp only [Function.comp_apply, Nat.succ_eq_add_one]
        push_cast
        ring

/-- A pixel sequence whose coordinates along one axis advance by a fixed
nonzero step has no repeated pixel. -/
theorem nodup_of_map_steps {α : Type} (f : α → Int) (ps : List α) (a s : Int) (n : Nat)
    (hs : s = 1 ∨ s = -1)
    (h : ps.map f = (List.range n).map (fun (k : Nat) => a + s * (k : Int))) : ps.Nodup := by
  apply List.Nodup.of_map f
  rw [h]
  apply List.Nodup.map _ (List.nodup_range n)
  intro i j hij
  simp only at hij
  rcases hs with h1 | h1 <;> subst h1 <;> omega

/-- Shape of a `draw_line` run: with `line_steps + 1` units of fuel (or more)
the loop breaks, and the pixels plotted are `line_steps + 1` pairwise distinct
positions from `(x0,y0)` to `(x1,y1)`. -/
theorem draw_line_run (x0 y0 x1 y1 : Int) :
    ∃ ps, (∀ extra : Nat, draw_line (line_steps x0 y0 x1 y1 + 1 + extra) x0 y0 x1 y1 = some ps) ∧
      ps.length = line_steps x0 y0 x1 y1 + 1 ∧
      ps.head? = some ⟨x0, y0⟩ ∧ ps.getLast? = some ⟨x1, y1⟩ ∧ ps.Nodup := by
  have hsx : (if x0 < x1 then (1 : Int) else -1) = 1 ∨ (if x0 < x1 then (1 : Int) else -1) = -1 := by
    split <;> simp
  have hsy : (if y0 < y1 then (1 : Int) else -1) = 1 ∨ (if y0 < y1 then (1 : Int) else -1) = -1 := by
    split <;> simp
  have hx1 : x1 = x0 + (if x0 < x1 then (1 : Int) else -1) * abs (x1 - x0) := by
    unfold abs; split <;> split <;> omega
  have hy1 : y1 = y0 + (if y0 < y1 then (1 : Int) else -1) * abs (y1 - y0) := by
    unfold abs; split <;> split <;> omega
  have hdx0 : 0 ≤ abs (x1 - x0) := by unfold abs; split <;> omega
  have hdy0 : 0 ≤ abs (y1 - y0) := by unfold abs; split <;> omega
  suffices h : ∃ ps, draw_line (line_steps x0 y0 x1 y1 + 1) x0 y0 x1 y1 = some ps ∧
      ps.length = line_steps x0 y0 x1 y1 + 1 ∧
      ps.head? = some ⟨x0, y0⟩ ∧ ps.getLast? = some ⟨x1, y1⟩ ∧ ps.Nodup by
    obtain ⟨ps, hps, hrest⟩ := h
    exact ⟨ps, fun extra => draw_line_loop_fuel_mono _ _ _ _ _ _ _ _ _ _ ps extra hps, hrest⟩
  unfold draw_line line_steps
  generalize hdx : abs (x1 - x0) = dx at *
  generalize hdy : abs (y1 - y0) = dy at *
  generalize hsxe : (if x0 < x1 then (1 : Int) else -1) = sx at *
  generalize hsye : (if y0 < y1 then (1 : Int) else -1) = sy at *
  simp only []
  by_cases hle : dy ≤ dx
  · rw [max_eq_left hle]
    by_cases hpos : 0 < dx
    · obtain ⟨ps, hps, hlen, hhead, hlast, hmap⟩ :=
        draw_line_loop_xmajor dx dy sx sy x1 y1 hpos hdy0 hle hsx dx.toNat x0 y0 (dx - dy) dy
          (by rw [Int.toNat_of_nonneg hdx0]; exact hx1) hy1 hdy0
          (by rw [Int.toNat_of_nonneg hdx0]; ring) (by omega) (by intro h; omega)
      exact ⟨ps, hps, hlen, hhead, hlast,
        nodup_of_map_steps GPoint.x ps x0 sx (dx.toNat + 1) hsx hmap⟩
    · have hdx00 : dx = 0 := by omega
      have hdy00 : dy = 0 := by omega
      subst hdx00; subst hdy00
      simp only [mul_zero, add_zero] at hx1 hy1
      subst hx1; subst hy1
      exact ⟨[⟨x1, y1⟩], by simp [draw_line_loop], rfl, rfl, rfl, by simp⟩
  · have hlt : dx < dy := by omega
    rw [max_eq_right hlt.le]
    obtain ⟨ps, hps, hlen, hhead, hlast, hmap⟩ :=
      draw_line_loop_ymajor dx dy sx sy x1 y1 hdx0 hlt hsy dy.toNat x0 y0 (dx - dy) dx
        (by rw [Int.toNat_of_nonneg hdy0]; exact hy1) hx1 hdx0
        (by rw [Int.toNat_of_nonneg hdy0]; ring) (by omega)
    exact ⟨ps, hps, hlen, hhead, hlast,
      nodup_of_map_steps GPoint.y ps y0 sy (dy.toNat + 1) hsy hmap⟩

/-- The source's `abs` is the absolute value on unbounded integers. -/
theorem abs_eq_abs (i : Int) : abs i = |i| := by
  unfold abs
  split
  · rw [abs_of_neg (by assumption)]
  · rw [abs_of_nonneg (by omega)]

/-- C3: for all integers `x0 y0 x1 y1`, `draw_line` terminates (with
`max(|x1-x0|,|y1-y0|) + 1` units of fuel, or any larger amount, the loop
reaches its `break` and yields the same pixel sequence), the first pixel it
plots is `(x0,y0)` and the last pixel it plots is `(x1,y1)`. -/
theorem draw_line_terminates_first_last (x0 y0 x1 y1 : Int) :
    ∃ ps : List GPoint,
      (∀ extra : Nat,
        draw_line ((max |x1 - x0| |y1 - y0|).toNat + 1 + extra) x0 y0 x1 y1 = some ps) ∧
      ps.head? = some ⟨x0, y0⟩ ∧ ps.getLast? = some ⟨x1, y1⟩ := by
  obtain ⟨ps, hrun, _, hhead, hlast, _⟩ := draw_line_run x0 y0 x1 y1
  simp only [line_steps, abs_eq_abs] at hrun
  exact ⟨ps, hrun, hhead, hlast⟩

/-- Pixel count on unbounded integers: for all `x0 y0 x1 y1`, `draw_line`
plots exactly `max(|x1-x0|,|y1-y0|) + 1` pixels and no pixel twice;
`(0,0)->(5,0)` plots exactly the six pixels `(0,0),...,(5,0)`, `(0,0)->(3,3)`
exactly the four diagonal pixels, and a line with equal end points exactly one
pixel. -/
theorem draw_line_pixel_count (x0 y0 x1 y1 : Int) :
    (∃ ps : List GPoint,
      (∀ extra : Nat,
        draw_line ((max |x1 - x0| |y1 - y0|).toNat + 1 + extra) x0 y0 x1 y1 = some ps) ∧
      ps.length = (max |x1 - x0| |y1 - y0|).toNat + 1 ∧ ps.Nodup) ∧
    (∀ extra : Nat, draw_line (6 + extra) 0 0 5 0 =
      some [⟨0, 0⟩, ⟨1, 0⟩, ⟨2, 0⟩, ⟨3, 0⟩, ⟨4, 0⟩, ⟨5, 0⟩]) ∧
    (∀ extra : Nat, draw_line (4 + extra) 0 0 3 3 =
      some [⟨0, 0⟩, ⟨1, 1⟩, ⟨2, 2⟩, ⟨3, 3⟩]) ∧
    (∀ extra : Nat, draw_line (1 + extra) x0 y0 x0 y0 = some [⟨x0, y0⟩]) := by
  refine ⟨?_, ?_, ?_, ?_⟩
  · obtain ⟨ps, hrun, hlen, _, _, hnodup⟩ := draw_line_run x0 y0 x1 y1
    simp only [line_steps, abs_eq_abs] at hrun hlen
    exact ⟨ps, hrun, hlen, hnodup⟩
  · intro extra
    exact draw_line_loop_fuel_mono _ _ _ _ _ _ 6 _ _ _ _ extra (by decide)
  · intro extra
    exact draw_line_loop_fuel_mono _ _ _ _ _ _ 4 _ _ _ _ extra (by decide)
  · intro extra
    apply draw_line_loop_fuel_mono _ _ _ _ _ _ 1 _ _ _ _ extra
    simp [draw_line_loop]


/-! ## Matrix multiplication in memory -/

/-- With an output distinct from both operands, `matrix_multiply_to_ref`
stores the matrix product in `*c`. -/
theorem matrix_multiply_to_ref_distinct {P : Type} [DecidableEq P] (a b c : P) (σ : Mem P)
    (hca : c ≠ a) (hcb : c ≠ b) :
    matrix_multiply_to_ref a b c σ c = matrix_product (σ a) (σ b) := by
  have hac : a ≠ c := fun h => hca h.symm
  have hbc : b ≠ c := fun h => hcb h.symm
  simp [matrix_multiply_to_ref, matrix_product, Function.update_same,
    Function.update_noteq hac, Function.update_noteq hbc]

/-- With the left operand as output, `matrix_multiply_to_ref` stores
`matrix_multiply_in_place` in `*a`. -/
theorem matrix_multiply_to_ref_aliased {P : Type} [DecidableEq P] (a b : P) (σ : Mem P)
    (hba : b ≠ a) :
    matrix_multiply_to_ref a b a σ a = matrix_multiply_in_place (σ a) (σ b) := by
  simp [matrix_multiply_to_ref, matrix_multiply_in_place, Function.update_same,
    Function.update_noteq hba]

/-- The call `matrix_multiply_to_ref (a, b, c)` writes to `*c` only. -/
theorem matrix_multiply_to_ref_frame {P : Type} [DecidableEq P] (a b c p : P) (σ : Mem P)
    (hp : p ≠ c) : matrix_multiply_to_ref a b c σ p = σ p := by
  simp [matrix_multiply_to_ref, Function.update_noteq hp]

/-! ## The transform matrix of `draw_mesh` -/

/-- With the five matrices of `three_dee.c`, `draw_mesh_matrices` leaves
`draw_mesh_transform` in the transform matrix. -/
theorem draw_mesh_matrices_transform (mesh : Mesh) (σ : Mem MatrixPtr) :
    draw_mesh_matrices MatrixPtr.viewMatrix MatrixPtr.projectionMatrix MatrixPtr.worldMatrix
      MatrixPtr.translateMatrix MatrixPtr.transformMatrix mesh σ MatrixPtr.transformMatrix
      = draw_mesh_transform mesh (σ MatrixPtr.viewMatrix) (σ MatrixPtr.projectionMatrix) := by
  simp only [draw_mesh_matrices, draw_mesh_transform]
  have e1 : ∀ (b : MatrixPtr) (τ : Mem MatrixPtr), b ≠ MatrixPtr.transformMatrix →
      matrix_multiply_to_ref MatrixPtr.transformMatrix b MatrixPtr.transformMatrix τ
        MatrixPtr.transformMatrix
        = matrix_multiply_in_place (τ MatrixPtr.transformMatrix) (τ b) :=
    fun b τ hb => matrix_multiply_to_ref_aliased _ _ τ hb
  rw [e1 _ _ (by decide), e1 _ _ (by decide),
    matrix_multiply_to_ref_frame _ _ _ MatrixPtr.projectionMatrix _ (by decide),
    matrix_multiply_to_ref_frame _ _ _ MatrixPtr.projectionMatrix _ (by decide),
    matrix_multiply_to_ref_frame _ _ _ MatrixPtr.viewMatrix _ (by decide),
    matrix_multiply_to_ref_distinct _ _ _ _ (by decide) (by decide)]
  simp [Function.update]

/-- The rotation matrix has fourth row `(0, 0, 0, 1)`. -/
theorem yaw_pitch_roll_row4 (yaw Pitch roll : ℚ) :
    (yaw_pitch_roll_to_ref yaw Pitch roll).m41 = 0 ∧
    (yaw_pitch_roll_to_ref yaw Pitch roll).m42 = 0 ∧
    (yaw_pitch_roll_to_ref yaw Pitch roll).m43 = 0 ∧
    (yaw_pitch_roll_to_ref yaw Pitch roll).m44 = 1 := by
  simp only [yaw_pitch_roll_to_ref]
  norm_num

/-- Fourth row of the transform matrix of `draw_mesh`: it does not depend on
the rotation. -/
theorem draw_mesh_transform_row4 (mesh : Mesh) (v p : Matrix) :
    let n1 := mesh.position.x * v.m11 + mesh.position.y * v.m21 + mesh.position.z * v.m31 + v.m41
    let n2 := n1 * v.m12 + mesh.position.y * v.m22 + mesh.position.z * v.m32 + v.m42
    let n3 := n1 * v.m13 + n2 * v.m23 + mesh.position.z * v.m33 + v.m43
    let n4 := n1 * v.m14 + n2 * v.m24 + n3 * v.m34 + v.m44
    let k1 := n1 * p.m11 + n2 * p.m21 + n3 * p.m31 + n4 * p.m41
    let k2 := k1 * p.m12 + n2 * p.m22 + n3 * p.m32 + n4 * p.m42
    let k3 := k1 * p.m13 + k2 * p.m23 + n3 * p.m33 + n4 * p.m43
    let k4 := k1 * p.m14 + k2 * p.m24 + k3 * p.m34 + n4 * p.m44
    (draw_mesh_transform mesh v p).m41 = k1 ∧ (draw_mesh_transform mesh v p).m42 = k2 ∧
    (draw_mesh_transform mesh v p).m43 = k3 ∧ (draw_mesh_transform mesh v p).m44 = k4 := by
  obtain ⟨h1, h2, h3, h4⟩ :=
    yaw_pitch_roll_row4 mesh.rotation.x mesh.rotation.y mesh.rotation.z
  simp only [draw_mesh_transform, matrix_multiply_in_place, matrix_product, h1, h2, h3, h4,
    translation_to_ref]
  norm_num

/-- `fix_mesh_rotation` changes the rotation only. -/
theorem fix_mesh_rotation_frame (mesh : Mesh) :
    (fix_mesh_rotation mesh).position = mesh.position ∧
    (fix_mesh_rotation mesh).num_vertices = mesh.num_vertices ∧
    (fix_mesh_rotation mesh).vertices = mesh.vertices ∧
    (fix_mesh_rotation mesh).num_faces = mesh.num_faces ∧
    (fix_mesh_rotation mesh).faces = mesh.faces ∧
    (fix_mesh_rotation mesh).proj = mesh.proj := by
  simp [fix_mesh_rotation]

/-- With the five matrices of `three_dee.c`, `draw_mesh_matrices` leaves the
rotation matrix in the world matrix, the translation matrix in the translate
matrix, and does not change the view and projection matrices. -/
theorem draw_mesh_matrices_frame (mesh : Mesh) (σ : Mem MatrixPtr) :
    draw_mesh_matrices MatrixPtr.viewMatrix MatrixPtr.projectionMatrix MatrixPtr.worldMatrix
      MatrixPtr.translateMatrix MatrixPtr.transformMatrix mesh σ MatrixPtr.worldMatrix
      = yaw_pitch_roll_to_ref mesh.rotation.x mesh.rotation.y mesh.rotation.z ∧
    draw_mesh_matrices MatrixPtr.viewMatrix MatrixPtr.projectionMatrix MatrixPtr.worldMatrix
      MatrixPtr.translateMatrix MatrixPtr.transformMatrix mesh σ MatrixPtr.translateMatrix
      = translation_to_ref mesh.position.x mesh.position.y mesh.position.z ∧
    draw_mesh_matrices MatrixPtr.viewMatrix MatrixPtr.projectionMatrix MatrixPtr.worldMatrix
      MatrixPtr.translateMatrix MatrixPtr.transformMatrix mesh σ MatrixPtr.viewMatrix
      = σ MatrixPtr.viewMatrix ∧
    draw_mesh_matrices MatrixPtr.viewMatrix MatrixPtr.projectionMatrix MatrixPtr.worldMatrix
      MatrixPtr.translateMatrix MatrixPtr.transformMatrix mesh σ MatrixPtr.projectionMatrix
      = σ MatrixPtr.projectionMatrix := by
  simp only [draw_mesh_matrices]
  refine ⟨?_, ?_, ?_, ?_⟩ <;>
    rw [matrix_multiply_to_ref_frame _ _ _ _ _ (by decide),
      matrix_multiply_to_ref_frame _ _ _ _ _ (by decide),
      matrix_multiply_to_ref_frame _ _ _ _ _ (by decide)] <;>
    simp [Function.update]

/-- C1: evaluation of the code at a failing input.  Mesh at `(0,0,1)` with
any rotation and one vertex, identity view matrix, projection matrix of a
square viewport, any content of the three scratch matrices: when `draw_mesh`
returns, the transform matrix has `m44 = 1`, while the matrix product
`((world * translate) * view) * projection` of the four matrices it was
computed from has `m44 = 98/99`. -/
theorem draw_mesh_transform_is_not_product (rot : Vector) (σ : Mem MatrixPtr) (fuel : Nat) :
    ∃ (mesh' : Mesh) (σ' : Mem MatrixPtr),
      draw_mesh fuel ⟨⟨0, 0, 1⟩, rot, 1, [⟨0, 0, 0⟩], 0, [], [⟨0, 0⟩]⟩
        MatrixPtr.viewMatrix MatrixPtr.projectionMatrix 144 144
        MatrixPtr.worldMatrix MatrixPtr.translateMatrix MatrixPtr.transformMatrix
        (Function.update (Function.update σ MatrixPtr.viewMatrix identity_matrix)
          MatrixPtr.projectionMatrix (perspective_for_LH_to_ref 0.78 1 0.01 1.0))
        = some (mesh', σ', []) ∧
      σ' MatrixPtr.worldMatrix
        = yaw_pitch_roll_to_ref mesh'.rotation.x mesh'.rotation.y mesh'.rotation.z ∧
      σ' MatrixPtr.translateMatrix
        = translation_to_ref mesh'.position.x mesh'.position.y mesh'.position.z ∧
      σ' MatrixPtr.viewMatrix = identity_matrix ∧
      σ' MatrixPtr.projectionMatrix = perspective_for_LH_to_ref 0.78 1 0.01 1.0 ∧
      (σ' MatrixPtr.transformMatrix).m44 = 1 ∧
      (matrix_product
        (matrix_product
          (matrix_product (σ' MatrixPtr.worldMatrix) (σ' MatrixPtr.translateMatrix))
          (σ' MatrixPtr.viewMatrix))
        (σ' MatrixPtr.projectionMatrix)).m44 = 98 / 99 := by
  obtain ⟨fpos, -, fvs, -, -, fproj⟩ :=
    fix_mesh_rotation_frame ⟨⟨0, 0, 1⟩, rot, 1, [⟨0, 0, 0⟩], 0, [], [⟨0, 0⟩]⟩
  have hr1 : List.range 1 = [0] := rfl
  simp only [draw_mesh, hr1, List.foldlM_cons, List.foldlM_nil, List.range_zero,
    draw_mesh_vertex, fvs, fproj]
  simp only [List.getElem?_cons_zero, List.length_singleton, Nat.lt_one_iff, if_true,
    Option.bind_eq_bind, Option.some_bind, pure, List.set_cons_zero, bind]
  obtain ⟨f1, f2, f3, f4⟩ := draw_mesh_matrices_frame
    (fix_mesh_rotation ⟨⟨0, 0, 1⟩, rot, 1, [⟨0, 0, 0⟩], 0, [], [⟨0, 0⟩]⟩)
    (Function.update (Function.update σ MatrixPtr.viewMatrix identity_matrix)
      MatrixPtr.projectionMatrix (perspective_for_LH_to_ref 0.78 1 0.01 1.0))
  rw [Function.update_noteq (by decide), Function.update_same] at f3
  rw [Function.update_same] at f4
  obtain ⟨h1, h2, h3, h4⟩ := yaw_pitch_roll_row4
    (fix_mesh_rotation ⟨⟨0, 0, 1⟩, rot, 1, [⟨0, 0, 0⟩], 0, [], [⟨0, 0⟩]⟩).rotation.x
    (fix_mesh_rotation ⟨⟨0, 0, 1⟩, rot, 1, [⟨0, 0, 0⟩], 0, [], [⟨0, 0⟩]⟩).rotation.y
    (fix_mesh_rotation ⟨⟨0, 0, 1⟩, rot, 1, [⟨0, 0, 0⟩], 0, [], [⟨0, 0⟩]⟩).rotation.z
  refine ⟨_, _, rfl, f1, f2, f3, f4, ?_, ?_⟩
  · obtain ⟨-, -, -, e4⟩ := draw_mesh_transform_row4
      (fix_mesh_rotation ⟨⟨0, 0, 1⟩, rot, 1, [⟨0, 0, 0⟩], 0, [], [⟨0, 0⟩]⟩)
      identity_matrix (perspective_for_LH_to_ref 0.78 1 0.01 1.0)
    rw [fpos] at e4
    rw [draw_mesh_matrices_transform, Function.update_same,
      Function.update_noteq (by decide), Function.update_same, e4]
    simp only [identity_matrix, perspective_for_LH_to_ref]
    norm_num
  · rw [f1, f2, f3, f4, fpos]
    simp only [matrix_product, h1, h2, h3, h4, translation_to_ref, identity_matrix,
      perspective_for_LH_to_ref]
    norm_num

/-! ## The origin vertex of a mesh at the camera target -/

/-- `normalize` scales by a positive factor when `sqrt_fast` is positive on
positive arguments and the vector is not the null vector. -/
theorem normalize_scales (sqrt_fast : ℚ → ℚ) (hpos : ∀ q : ℚ, 0 < q → 0 < sqrt_fast q)
    (v : Vector) (hv : 0 < v.x * v.x + v.y * v.y + v.z * v.z) :
    ∃ k : ℚ, 0 < k ∧ normalize sqrt_fast v = ⟨v.x * k, v.y * k, v.z * k⟩ := by
  refine ⟨1.0 / length sqrt_fast v, ?_, rfl⟩
  have := hpos _ hv
  simp only [length]
  positivity

/-- The view matrix of a camera at the origin looking at `(1,1,0)`. -/
theorem look_at_diagonal (sqrt_fast : ℚ → ℚ) (hpos : ∀ q : ℚ, 0 < q → 0 < sqrt_fast q) :
    ∃ a b c : ℚ, 0 < a ∧ 0 < b ∧ 0 < c ∧
      look_at_LH_to_ref sqrt_fast ⟨0, 0, 0⟩ ⟨1, 1, 0⟩ up_vector =
        ⟨0, -(a * a * b * c), a, 0,
         0, a * a * b * c, a, 0,
         -(a * b), 0, 0, 0,
         0, 0, 0, 1⟩ := by
  obtain ⟨a, ha, hz⟩ := normalize_scales sqrt_fast hpos
    (substract_to_ref ⟨1, 1, 0⟩ ⟨0, 0, 0⟩) (by norm_num [substract_to_ref])
  have hz2 : normalize sqrt_fast (substract_to_ref ⟨1, 1, 0⟩ ⟨0, 0, 0⟩) = ⟨a, a, 0⟩ := by
    rw [hz]; norm_num [substract_to_ref]
  have hx0 : cross_to_ref up_vector ⟨a, a, 0⟩ = ⟨0, 0, -a⟩ := by
    norm_num [cross_to_ref, up_vector]
  obtain ⟨b, hb, hx⟩ := normalize_scales sqrt_fast hpos ⟨0, 0, -a⟩
    (by simp only []; nlinarith)
  have hx2 : normalize sqrt_fast ⟨0, 0, -a⟩ = ⟨0, 0, -(a * b)⟩ := by
    rw [hx]; norm_num
  have hy0 : cross_to_ref ⟨a, a, 0⟩ ⟨0, 0, -(a * b)⟩ = ⟨-(a * a * b), a * a * b, 0⟩ := by
    simp only [cross_to_ref, Vector.mk.injEq]
    refine ⟨by ring, by ring, by ring⟩
  obtain ⟨c, hc, hy⟩ := normalize_scales sqrt_fast hpos ⟨-(a * a * b), a * a * b, 0⟩
    (by simp only []; have : 0 < a * a * b := by positivity
        nlinarith)
  have hy2 : normalize sqrt_fast ⟨-(a * a * b), a * a * b, 0⟩
      = ⟨-(a * a * b * c), a * a * b * c, 0⟩ := by
    rw [hy]; norm_num
  refine ⟨a, b, c, ha, hb, hc, ?_⟩
  simp only [look_at_LH_to_ref, hz2, hx0, hx2, hy0, hy2, dot_product]
  norm_num

/-- `transform_coords` at the object-space origin reads the fourth row. -/
theorem transform_coords_origin (m : Matrix) :
    transform_coords ⟨0, 0, 0⟩ m = ⟨m.m41 / m.m44, m.m42 / m.m44⟩ := by
  simp [transform_coords]

/-- C2: evaluation of the code at a failing input.  Camera at the origin
looking at `(1,1,0)`, mesh positioned at that target with any rotation and a
single vertex at its origin, viewport `144 x 168`, matrices built by
`calc_pre_drawing`, `sqrt_fast` any function positive on positive arguments:
`draw_mesh` projects the vertex to `x = 72 = w/2`, and whenever the
homogeneous `w` (entry `m44` of the transform matrix) is nonzero, to
`y ≠ 84 = h/2`. -/
theorem draw_mesh_origin_off_centre (sqrt_fast : ℚ → ℚ)
    (hpos : ∀ q : ℚ, 0 < q → 0 < sqrt_fast q) (rot : Vector) (σ : Mem MatrixPtr) (fuel : Nat) :
    ∃ (mesh' : Mesh) (σ' : Mem MatrixPtr) (p : Vector2),
      draw_mesh fuel ⟨⟨1, 1, 0⟩, rot, 1, [⟨0, 0, 0⟩], 0, [], [⟨0, 0⟩]⟩
        MatrixPtr.viewMatrix MatrixPtr.projectionMatrix 144 168
        MatrixPtr.worldMatrix MatrixPtr.translateMatrix MatrixPtr.transformMatrix
        (Function.update
          (Function.update σ MatrixPtr.viewMatrix
            (calc_pre_drawing sqrt_fast ⟨⟨0, 0, 0⟩, ⟨1, 1, 0⟩⟩ 144 168).1)
          MatrixPtr.projectionMatrix
          (calc_pre_drawing sqrt_fast ⟨⟨0, 0, 0⟩, ⟨1, 1, 0⟩⟩ 144 168).2)
        = some (mesh', σ', []) ∧
      mesh'.proj = [p] ∧ p.x = 72 ∧
      ((σ' MatrixPtr.transformMatrix).m44 ≠ 0 → p.y ≠ 84) := by
  obtain ⟨a, b, c, ha, hb, hc, hview⟩ := look_at_diagonal sqrt_fast hpos
  obtain ⟨fpos, -, fvs, -, -, fproj⟩ :=
    fix_mesh_rotation_frame ⟨⟨1, 1, 0⟩, rot, 1, [⟨0, 0, 0⟩], 0, [], [⟨0, 0⟩]⟩
  have hr1 : List.range 1 = [0] := rfl
  simp only [draw_mesh, hr1, List.foldlM_cons, List.foldlM_nil, List.range_zero,
    draw_mesh_vertex, fvs, fproj]
  simp only [List.getElem?_cons_zero, List.length_singleton, Nat.lt_one_iff, if_true,
    Option.bind_eq_bind, Option.some_bind, pure, List.set_cons_zero, bind]
  obtain ⟨e1, e2, -, -⟩ := draw_mesh_transform_row4
    (fix_mesh_rotation ⟨⟨1, 1, 0⟩, rot, 1, [⟨0, 0, 0⟩], 0, [], [⟨0, 0⟩]⟩)
    (calc_pre_drawing sqrt_fast ⟨⟨0, 0, 0⟩, ⟨1, 1, 0⟩⟩ 144 168).1
    (calc_pre_drawing sqrt_fast ⟨⟨0, 0, 0⟩, ⟨1, 1, 0⟩⟩ 144 168).2
  rw [fpos] at e1 e2
  have h41 : (draw_mesh_transform
      (fix_mesh_rotation ⟨⟨1, 1, 0⟩, rot, 1, [⟨0, 0, 0⟩], 0, [], [⟨0, 0⟩]⟩)
      (calc_pre_drawing sqrt_fast ⟨⟨0, 0, 0⟩, ⟨1, 1, 0⟩⟩ 144 168).1
      (calc_pre_drawing sqrt_fast ⟨⟨0, 0, 0⟩, ⟨1, 1, 0⟩⟩ 144 168).2).m41 = 0 := by
    rw [e1]
    simp only [calc_pre_drawing, hview, perspective_for_LH_to_ref]
    norm_num
  have h42 : (draw_mesh_transform
      (fix_mesh_rotation ⟨⟨1, 1, 0⟩, rot, 1, [⟨0, 0, 0⟩], 0, [], [⟨0, 0⟩]⟩)
      (calc_pre_drawing sqrt_fast ⟨⟨0, 0, 0⟩, ⟨1, 1, 0⟩⟩ 144 168).1
      (calc_pre_drawing sqrt_fast ⟨⟨0, 0, 0⟩, ⟨1, 1, 0⟩⟩ 144 168).2).m42
        = 2.56 * (a * a * b * c) := by
    rw [e2]
    simp only [calc_pre_drawing, hview, perspective_for_LH_to_ref]
    norm_num
    ring
  have habc : a * a * b * c ≠ 0 := by positivity
  refine ⟨_, _, _, rfl, rfl, ?_, ?_⟩
  · simp only [draw_mesh_matrices_transform, Function.update_same,
      Function.update_noteq (show MatrixPtr.viewMatrix ≠ MatrixPtr.projectionMatrix by decide),
      transform_coords_origin, h41]
    norm_num
  · simp only [draw_mesh_matrices_transform, Function.update_same,
      Function.update_noteq (show MatrixPtr.viewMatrix ≠ MatrixPtr.projectionMatrix by decide),
      transform_coords_origin, h42]
    generalize (draw_mesh_transform _ _ _).m44 = wh
    intro hw heq
    clear e1 e2 h41 h42 fpos fvs fproj hview
    have h0 : 2.56 * (a * a * b * c) / wh = 0 := by
      push_cast at heq
      norm_num at heq ⊢
      rcases heq with h | h
      · exact Or.inl h
      · exact Or.inr h
    rcases div_eq_zero_iff.mp h0 with h | h
    · exact habc ((mul_eq_zero.mp h).resolve_left (by norm_num))
    · exact hw h

/-- The matrix product the three multiplications of `draw_mesh` stand for
does send the origin vertex of a mesh positioned at the camera target to the
centre of normalised device coordinates, for every camera, rotation,
viewport and `sqrt_fast`: the deviation of `draw_mesh` at such a mesh comes
from `matrix_multiply_in_place` alone. -/
theorem matrix_product_origin_centre (sqrt_fast : ℚ → ℚ) (cam : Camera) (rot : Vector)
    (w h : Int) :
    transform_coords ⟨0, 0, 0⟩
      (matrix_product
        (matrix_product
          (matrix_product (yaw_pitch_roll_to_ref rot.x rot.y rot.z)
            (translation_to_ref cam.target.x cam.target.y cam.target.z))
          (calc_pre_drawing sqrt_fast cam w h).1)
        (calc_pre_drawing sqrt_fast cam w h).2) = ⟨0, 0⟩ := by
  obtain ⟨h1, h2, h3, h4⟩ := yaw_pitch_roll_row4 rot.x rot.y rot.z
  rw [transform_coords_origin]
  have e1 : (matrix_product
        (matrix_product
          (matrix_product (yaw_pitch_roll_to_ref rot.x rot.y rot.z)
            (translation_to_ref cam.target.x cam.target.y cam.target.z))
          (calc_pre_drawing sqrt_fast cam w h).1)
        (calc_pre_drawing sqrt_fast cam w h).2).m41 = 0 := by
    simp only [matrix_product, h1, h2, h3, h4, translation_to_ref, calc_pre_drawing,
      perspective_for_LH_to_ref, look_at_LH_to_ref, normalize, length, cross_to_ref,
      substract_to_ref, dot_product, up_vector]
    ring
  have e2 : (matrix_product
        (matrix_product
          (matrix_product (yaw_pitch_roll_to_ref rot.x rot.y rot.z)
            (translation_to_ref cam.target.x cam.target.y cam.target.z))
          (calc_pre_drawing sqrt_fast cam w h).1)
        (calc_pre_drawing sqrt_fast cam w h).2).m42 = 0 := by
    simp only [matrix_product, h1, h2, h3, h4, translation_to_ref, calc_pre_drawing,
      perspective_for_LH_to_ref, look_at_LH_to_ref, normalize, length, cross_to_ref,
      substract_to_ref, dot_product, up_vector]
    ring
  rw [e1, e2]
  simp

/-- Witness of `draw_mesh_origin_off_centre`: `sqrt_fast` constantly `1`,
rotation zero, scratch matrices holding the identity. -/
theorem draw_mesh_origin_off_centre_witness :
    (∀ q : ℚ, 0 < q → 0 < (fun _ : ℚ => (1 : ℚ)) q) ∧
    ∃ (mesh' : Mesh) (σ' : Mem MatrixPtr) (p : Vector2),
      draw_mesh 0 ⟨⟨1, 1, 0⟩, ⟨0, 0, 0⟩, 1, [⟨0, 0, 0⟩], 0, [], [⟨0, 0⟩]⟩
        MatrixPtr.viewMatrix MatrixPtr.projectionMatrix 144 168
        MatrixPtr.worldMatrix MatrixPtr.translateMatrix MatrixPtr.transformMatrix
        (Function.update
          (Function.update (fun _ => identity_matrix) MatrixPtr.viewMatrix
            (calc_pre_drawing (fun _ : ℚ => (1 : ℚ)) ⟨⟨0, 0, 0⟩, ⟨1, 1, 0⟩⟩ 144 168).1)
          MatrixPtr.projectionMatrix
          (calc_pre_drawing (fun _ : ℚ => (1 : ℚ)) ⟨⟨0, 0, 0⟩, ⟨1, 1, 0⟩⟩ 144 168).2)
        = some (mesh', σ', []) ∧
      mesh'.proj = [p] ∧ p.x = 72 ∧
      ((σ' MatrixPtr.transformMatrix).m44 ≠ 0 → p.y ≠ 84) :=
  ⟨fun _ _ => one_pos,
   draw_mesh_origin_off_centre (fun _ => 1) (fun _ _ => one_pos) ⟨0, 0, 0⟩
     (fun _ => identity_matrix) 0⟩

/-! ## Rotation normalisation -/

/-- The second loop of each pair in `fix_mesh_rotation` stops at or below
`-PI_1`. -/
theorem fix_rotation_sub_le (r : ℚ) : fix_rotation_sub r ≤ -PI_1 := by
  induction r using fix_rotation_sub.induct with
  | case1 r h ih => rw [fix_rotation_sub, if_pos h]; exact ih
  | case2 r h => rw [fix_rotation_sub, if_neg h]; exact not_lt.mp h

/-- C5: evaluation of the code at failing inputs.  After
`fix_mesh_rotation` every rotation component is at or below `-PI_1`; a mesh
with `rotation.x = 0.1` ends with `rotation.x = 0.1 - PI_2`, which is below
`-PI_1`, and a mesh with `rotation.x = 10 * PI_1 + 0.1` ends with
`rotation.x = 10 * PI_1 + 0.1 - 6 * PI_2`, about `0.1 - 2π`, not about `0.1`. -/
theorem fix_mesh_rotation_below_range :
    (∀ mesh : Mesh,
      (fix_mesh_rotation mesh).rotation.x ≤ -PI_1 ∧
      (fix_mesh_rotation mesh).rotation.y ≤ -PI_1 ∧
      (fix_mesh_rotation mesh).rotation.z ≤ -PI_1) ∧
    (fix_mesh_rotation ⟨⟨0, 0, 0⟩, ⟨0.1, 0, 0⟩, 0, [], 0, [], []⟩).rotation.x = 0.1 - PI_2 ∧
    (0.1 : ℚ) - PI_2 < -PI_1 ∧
    (fix_mesh_rotation ⟨⟨0, 0, 0⟩, ⟨10 * PI_1 + 0.1, 0, 0⟩, 0, [], 0, [], []⟩).rotation.x
      = 10 * PI_1 + 0.1 - 6 * PI_2 ∧
    (10 * PI_1 + 0.1 - 6 * PI_2 : ℚ) < -6 := by
  refine ⟨fun mesh => ⟨fix_rotation_sub_le _, fix_rotation_sub_le _, fix_rotation_sub_le _⟩,
    ?_, by norm_num [PI_1, PI_2], ?_, by norm_num [PI_1, PI_2]⟩
  · simp only [fix_mesh_rotation]
    rw [fix_rotation_add, if_neg (by norm_num [PI_1]),
      fix_rotation_sub, if_pos (by norm_num [PI_1]),
      fix_rotation_sub, if_neg (by norm_num [PI_1, PI_2])]
  · simp only [fix_mesh_rotation]
    rw [fix_rotation_add, if_neg (by norm_num [PI_1]),
      fix_rotation_sub, if_pos (by norm_num [PI_1]),
      fix_rotation_sub, if_pos (by norm_num [PI_1, PI_2]),
      fix_rotation_sub, if_pos (by norm_num [PI_1, PI_2]),
      fix_rotation_sub, if_pos (by norm_num [PI_1, PI_2]),
      fix_rotation_sub, if_pos (by norm_num [PI_1, PI_2]),
      fix_rotation_sub, if_pos (by norm_num [PI_1, PI_2]),
      fix_rotation_sub, if_neg (by norm_num [PI_1, PI_2])]
    ring

/-! ## Identity law -/

/-- C6: for every matrix `m`, `matrix_multiply_to_ref (identity_matrix, m, c)`
and `matrix_multiply_to_ref (m, identity_matrix, c)`, with `c` distinct from
both operands, leave `*c` equal to `m` in all sixteen entries. -/
theorem matrix_multiply_to_ref_identity {P : Type} [DecidableEq P] (a b c : P) (σ : Mem P)
    (hca : c ≠ a) (hcb : c ≠ b) :
    (σ a = identity_matrix → matrix_multiply_to_ref a b c σ c = σ b) ∧
    (σ b = identity_matrix → matrix_multiply_to_ref a b c σ c = σ a) := by
  rw [matrix_multiply_to_ref_distinct a b c σ hca hcb]
  constructor
  · intro h
    rw [h]
    simp only [matrix_product, identity_matrix]
    norm_num
  · intro h
    rw [h]
    simp only [matrix_product, identity_matrix]
    norm_num

/-- Witness of `matrix_multiply_to_ref_identity` on the matrices of
`three_dee.c`: the view matrix holds the identity, the projection matrix a
matrix with sixteen different entries, the output is the transform matrix. -/
theorem matrix_multiply_to_ref_identity_witness :
    matrix_multiply_to_ref MatrixPtr.viewMatrix MatrixPtr.projectionMatrix
      MatrixPtr.transformMatrix
      (Function.update (fun _ => identity_matrix) MatrixPtr.projectionMatrix
        ⟨1, 2, 3, 4, 5, 6, 7, 8, 9, 10, 11, 12, 13, 14, 15, 16⟩)
      MatrixPtr.transformMatrix
      = ⟨1, 2, 3, 4, 5, 6, 7, 8, 9, 10, 11, 12, 13, 14, 15, 16⟩ :=
  (matrix_multiply_to_ref_identity MatrixPtr.viewMatrix MatrixPtr.projectionMatrix
    MatrixPtr.transformMatrix
    (Function.update (fun _ => identity_matrix) MatrixPtr.projectionMatrix
      ⟨1, 2, 3, 4, 5, 6, 7, 8, 9, 10, 11, 12, 13, 14, 15, 16⟩)
    (by decide) (by decide)).1 rfl

/-! ## The cube factory -/

/-- C8: for every side length `s`, `make_basic_cube` sets `num_vertices = 8`
(and stores eight vertices), sets position and rotation to `(0,0,0)`, every
coordinate of every vertex is `s/2` or `-s/2`, so every vertex has squared
distance `3 * (s/2)^2` from the origin (`3` for `s = 2.0`); for `s ≠ 0` the
eight vertices are pairwise distinct, and every corner `(±s/2, ±s/2, ±s/2)`
is among them. -/
theorem make_basic_cube_vertices (mesh : Mesh) (s : ℚ) (buf : Fin 8 → Vector2) :
    (make_basic_cube mesh s buf).num_vertices = 8 ∧
    (make_basic_cube mesh s buf).vertices.length = 8 ∧
    (make_basic_cube mesh s buf).position = ⟨0, 0, 0⟩ ∧
    (make_basic_cube mesh s buf).rotation = ⟨0, 0, 0⟩ ∧
    (∀ v ∈ (make_basic_cube mesh s buf).vertices,
      (v.x = s / 2 ∨ v.x = -(s / 2)) ∧ (v.y = s / 2 ∨ v.y = -(s / 2)) ∧
      (v.z = s / 2 ∨ v.z = -(s / 2))) ∧
    (∀ v ∈ (make_basic_cube mesh s buf).vertices,
      v.x * v.x + v.y * v.y + v.z * v.z = 3 * (s / 2) ^ 2) ∧
    (∀ v ∈ (make_basic_cube mesh 2.0 buf).vertices,
      v.x * v.x + v.y * v.y + v.z * v.z = 3) ∧
    (s ≠ 0 → (make_basic_cube mesh s buf).vertices.Nodup) ∧
    (∀ v : Vector,
      (v.x = s / 2 ∨ v.x = -(s / 2)) → (v.y = s / 2 ∨ v.y = -(s / 2)) →
      (v.z = s / 2 ∨ v.z = -(s / 2)) → v ∈ (make_basic_cube mesh s buf).vertices) := by
  have hnum : (0.5 : ℚ) * s = s / 2 := by norm_num; ring
  refine ⟨rfl, rfl, ?_, ?_, ?_, ?_, ?_, ?_, ?_⟩
  · norm_num [make_basic_cube, null_vector]
  · norm_num [make_basic_cube, null_vector]
  · intro v hv
    simp only [make_basic_cube, hnum, List.mem_cons, List.mem_singleton, List.not_mem_nil,
      or_false] at hv
    rcases hv with h | h | h | h | h | h | h | h <;> subst h <;> simp
  · intro v hv
    simp only [make_basic_cube, hnum, List.mem_cons, List.mem_singleton, List.not_mem_nil,
      or_false] at hv
    rcases hv with h | h | h | h | h | h | h | h <;> subst h <;> ring
  · intro v hv
    simp only [make_basic_cube, List.mem_cons, List.mem_singleton, List.not_mem_nil,
      or_false] at hv
    rcases hv with h | h | h | h | h | h | h | h <;> subst h <;> norm_num
  · intro hs
    have hn : s / 2 ≠ 0 := by positivity
    have h1 : ¬ (-(s / 2) = s / 2) := by
      intro h; apply hn; linarith
    have h2 : ¬ (s / 2 = -(s / 2)) := by
      intro h; apply hn; linarith
    simp [make_basic_cube, hnum, h1, h2]
  · intro v hx hy hz
    obtain ⟨x, y, z⟩ := v
    simp only at hx hy hz
    simp only [make_basic_cube, hnum, List.mem_cons, List.mem_singleton, Vector.mk.injEq]
    rcases hx with h | h <;> rcases hy with h' | h' <;> rcases hz with h'' | h'' <;>
      subst h <;> subst h' <;> subst h'' <;> simp

/-- Witness of `make_basic_cube_vertices` at side length `2` (a nonzero
side): the eight vertices are pairwise distinct. -/
theorem make_basic_cube_vertices_witness :
    (make_basic_cube ⟨⟨0, 0, 0⟩, ⟨0, 0, 0⟩, 0, [], 0, [], []⟩ 2 (fun _ => ⟨0, 0⟩)).vertices.Nodup :=
  (make_basic_cube_vertices ⟨⟨0, 0, 0⟩, ⟨0, 0, 0⟩, 0, [], 0, [], []⟩ 2
    (fun _ => ⟨0, 0⟩)).2.2.2.2.2.2.2.1 (by norm_num)

/-- C9: for every side length, `make_basic_cube` produces `num_faces = 12`
faces (twelve triangles are stored), and every face `(a,b,c)` has `a`, `b`,
`c` below `num_vertices = 8` and pairwise distinct. -/
theorem make_basic_cube_faces (mesh : Mesh) (s : ℚ) (buf : Fin 8 → Vector2) :
    (make_basic_cube mesh s buf).num_faces = 12 ∧
    (make_basic_cube mesh s buf).faces.length = 12 ∧
    (make_basic_cube mesh s buf).num_vertices = 8 ∧
    ∀ f ∈ (make_basic_cube mesh s buf).faces,
      f.a < (make_basic_cube mesh s buf).num_vertices ∧
      f.b < (make_basic_cube mesh s buf).num_vertices ∧
      f.c < (make_basic_cube mesh s buf).num_vertices ∧
      f.a ≠ f.b ∧ f.a ≠ f.c ∧ f.b ≠ f.c := by
  refine ⟨rfl, rfl, rfl, ?_⟩
  intro f hf
  simp only [make_basic_cube, List.mem_cons, List.mem_singleton, List.not_mem_nil,
    or_false] at hf
  rcases hf with h | h | h | h | h | h | h | h | h | h | h | h <;> subst h <;>
    simp [make_basic_cube]

/-- The faces of the cube on the side `axis = c`, for `c = ± s/2`, in the
order in which `make_basic_cube` stores them. -/
theorem make_basic_cube_side_faces (mesh : Mesh) (s : ℚ) (buf : Fin 8 → Vector2) (hs : s ≠ 0) :
    (make_basic_cube mesh s buf).faces.filter
        (triangle_on_plane (make_basic_cube mesh s buf) 0 (s / 2)) = [⟨1, 3, 6⟩, ⟨1, 5, 6⟩] ∧
    (make_basic_cube mesh s buf).faces.filter
        (triangle_on_plane (make_basic_cube mesh s buf) 0 (-(s / 2))) = [⟨0, 2, 7⟩, ⟨0, 4, 7⟩] ∧
    (make_basic_cube mesh s buf).faces.filter
        (triangle_on_plane (make_basic_cube mesh s buf) 1 (s / 2)) = [⟨0, 1, 4⟩, ⟨1, 4, 5⟩] ∧
    (make_basic_cube mesh s buf).faces.filter
        (triangle_on_plane (make_basic_cube mesh s buf) 1 (-(s / 2))) = [⟨2, 3, 7⟩, ⟨3, 6, 7⟩] ∧
    (make_basic_cube mesh s buf).faces.filter
        (triangle_on_plane (make_basic_cube mesh s buf) 2 (s / 2)) = [⟨0, 1, 2⟩, ⟨1, 2, 3⟩] ∧
    (make_basic_cube mesh s buf).faces.filter
        (triangle_on_plane (make_basic_cube mesh s buf) 2 (-(s / 2))) = [⟨4, 5, 6⟩, ⟨4, 6, 7⟩] := by
  have hnum : (0.5 : ℚ) * s = s / 2 := by norm_num; ring
  have hn : s / 2 ≠ 0 := by positivity
  have h1 : ¬ (-(s / 2) = s / 2) := by
    intro h; apply hn; linarith
  have h2 : ¬ (s / 2 = -(s / 2)) := by
    intro h; apply hn; linarith
  refine ⟨?_, ?_, ?_, ?_, ?_, ?_⟩ <;>
    simp [make_basic_cube, hnum, triangle_on_plane, vertex_on_plane, Vector.coord,
      List.filter, h1, h2]

/-- C10: for every nonzero side length `s`, the twelve triangles of
`make_basic_cube` cover the six sides of the cube, two triangles per side:
the three vertices of every triangle lie on one of the six planes
`x = ±s/2`, `y = ±s/2`, `z = ±s/2`; each of the six planes contains exactly
two of the triangles; the vertices on that plane are exactly the vertices of
those two triangles, and there are four of them; the two triangles share
exactly two vertices, which are the end points of a diagonal of the side. -/
theorem make_basic_cube_covers_sides (mesh : Mesh) (s : ℚ) (buf : Fin 8 → Vector2)
    (hs : s ≠ 0) :
    (∀ t ∈ (make_basic_cube mesh s buf).faces, ∃ axis : Fin 3, ∃ c : ℚ,
      (c = s / 2 ∨ c = -(s / 2)) ∧
      triangle_on_plane (make_basic_cube mesh s buf) axis c t = true) ∧
    (∀ axis : Fin 3, ∀ c : ℚ, (c = s / 2 ∨ c = -(s / 2)) →
      ∃ (t1 t2 : Triangle) (i j : Nat),
        (make_basic_cube mesh s buf).faces.filter
          (triangle_on_plane (make_basic_cube mesh s buf) axis c) = [t1, t2] ∧
        (∀ k : Nat, vertex_on_plane (make_basic_cube mesh s buf) axis c k = true ↔
          (k ∈ t1.indices ∨ k ∈ t2.indices)) ∧
        ((List.range (make_basic_cube mesh s buf).num_vertices).filter
          (vertex_on_plane (make_basic_cube mesh s buf) axis c)).length = 4 ∧
        t1.indices.filter (fun k => decide (k ∈ t2.indices)) = [i, j] ∧ i ≠ j ∧
        diagonal_on_side (make_basic_cube mesh s buf) axis i j) := by
  have hnum : (0.5 : ℚ) * s = s / 2 := by norm_num; ring
  have hn : s / 2 ≠ 0 := by positivity
  have h1 : ¬ (-(s / 2) = s / 2) := by
    intro h; apply hn; linarith
  have h2 : ¬ (s / 2 = -(s / 2)) := by
    intro h; apply hn; linarith
  have hf := make_basic_cube_side_faces mesh s buf hs
  constructor
  · intro t ht
    simp only [make_basic_cube, List.mem_cons, List.mem_singleton, List.not_mem_nil,
      or_false] at ht
    rcases ht with h | h | h | h | h | h | h | h | h | h | h | h <;> subst h
    · exact ⟨2, s / 2, Or.inl rfl, by simp [make_basic_cube, hnum, triangle_on_plane, vertex_on_plane, Vector.coord]⟩
    · exact ⟨2, s / 2, Or.inl rfl, by simp [make_basic_cube, hnum, triangle_on_plane, vertex_on_plane, Vector.coord]⟩
    · exact ⟨0, s / 2, Or.inl rfl, by simp [make_basic_cube, hnum, triangle_on_plane, vertex_on_plane, Vector.coord]⟩
    · exact ⟨0, s / 2, Or.inl rfl, by simp [make_basic_cube, hnum, triangle_on_plane, vertex_on_plane, Vector.coord]⟩
    · exact ⟨1, s / 2, Or.inl rfl, by simp [make_basic_cube, hnum, triangle_on_plane, vertex_on_plane, Vector.coord]⟩
    · exact ⟨1, s / 2, Or.inl rfl, by simp [make_basic_cube, hnum, triangle_on_plane, vertex_on_plane, Vector.coord]⟩
    · exact ⟨1, -(s / 2), Or.inr rfl, by simp [make_basic_cube, hnum, triangle_on_plane, vertex_on_plane, Vector.coord]⟩
    · exact ⟨1, -(s / 2), Or.inr rfl, by simp [make_basic_cube, hnum, triangle_on_plane, vertex_on_plane, Vector.coord]⟩
    · exact ⟨0, -(s / 2), Or.inr rfl, by simp [make_basic_cube, hnum, triangle_on_plane, vertex_on_plane, Vector.coord]⟩
    · exact ⟨0, -(s / 2), Or.inr rfl, by simp [make_basic_cube, hnum, triangle_on_plane, vertex_on_plane, Vector.coord]⟩
    · exact ⟨2, -(s / 2), Or.inr rfl, by simp [make_basic_cube, hnum, triangle_on_plane, vertex_on_plane, Vector.coord]⟩
    · exact ⟨2, -(s / 2), Or.inr rfl, by simp [make_basic_cube, hnum, triangle_on_plane, vertex_on_plane, Vector.coord]⟩
  · intro axis c hc
    fin_cases axis <;> rcases hc with rfl | rfl
    · refine ⟨_, _, 1, 6, hf.1, ?_, ?_, ?_, by decide, ?_⟩
      · intro k
        rcases k with _ | _ | _ | _ | _ | _ | _ | _ | k <;>
          simp [make_basic_cube, hnum, vertex_on_plane, Vector.coord, Triangle.indices, h1, h2]
      · simp [make_basic_cube, hnum, vertex_on_plane, Vector.coord, List.range_succ,
          List.filter, h1, h2]
      · simp [Triangle.indices, List.filter]
      · refine ⟨_, _, rfl, rfl, ?_⟩
        intro ax hax
        fin_cases ax <;> simp [make_basic_cube, hnum, Vector.coord, h1, h2] at hax ⊢
    · refine ⟨_, _, 0, 7, hf.2.1, ?_, ?_, ?_, by decide, ?_⟩
      · intro k
        rcases k with _ | _ | _ | _ | _ | _ | _ | _ | k <;>
          simp [make_basic_cube, hnum, vertex_on_plane, Vector.coord, Triangle.indices, h1, h2]
      · simp [make_basic_cube, hnum, vertex_on_plane, Vector.coord, List.range_succ,
          List.filter, h1, h2]
      · simp [Triangle.indices, List.filter]
      · refine ⟨_, _, rfl, rfl, ?_⟩
        intro ax hax
        fin_cases ax <;> simp [make_basic_cube, hnum, Vector.coord, h1, h2] at hax ⊢
    · refine ⟨_, _, 1, 4, hf.2.2.1, ?_, ?_, ?_, by decide, ?_⟩
      · intro k
        rcases k with _ | _ | _ | _ | _ | _ | _ | _ | k <;>
          simp [make_basic_cube, hnum, vertex_on_plane, Vector.coord, Triangle.indices, h1, h2]
      · simp [make_basic_cube, hnum, vertex_on_plane, Vector.coord, List.range_succ,
          List.filter, h1, h2]
      · simp [Triangle.indices, List.filter]
      · refine ⟨_, _, rfl, rfl, ?_⟩
        intro ax hax
        fin_cases ax <;> simp [make_basic_cube, hnum, Vector.coord, h1, h2] at hax ⊢
    · refine ⟨_, _, 3, 7, hf.2.2.2.1, ?_, ?_, ?_, by decide, ?_⟩
      · intro k
        rcases k with _ | _ | _ | _ | _ | _ | _ | _ | k <;>
          simp [make_basic_cube, hnum, vertex_on_plane, Vector.coord, Triangle.indices, h1, h2]
      · simp [make_basic_cube, hnum, vertex_on_plane, Vector.coord, List.range_succ,
          List.filter, h1, h2]
      · simp [Triangle.indices, List.filter]
      · refine ⟨_, _, rfl, rfl, ?_⟩
        intro ax hax
        fin_cases ax <;> simp [make_basic_cube, hnum, Vector.coord, h1, h2] at hax ⊢
    · refine ⟨_, _, 1, 2, hf.2.2.2.2.1, ?_, ?_, ?_, by decide, ?_⟩
      · intro k
        rcases k with _ | _ | _ | _ | _ | _ | _ | _ | k <;>
          simp [make_basic_cube, hnum, vertex_on_plane, Vector.coord, Triangle.indices, h1, h2]
      · simp [make_basic_cube, hnum, vertex_on_plane, Vector.coord, List.range_succ,
          List.filter, h1, h2]
      · simp [Triangle.indices, List.filter]
      · refine ⟨_, _, rfl, rfl, ?_⟩
        intro ax hax
        fin_cases ax <;> simp [make_basic_cube, hnum, Vector.coord, h1, h2] at hax ⊢
    · refine ⟨_, _, 4, 6, hf.2.2.2.2.2, ?_, ?_, ?_, by decide, ?_⟩
      · intro k
        rcases k with _ | _ | _ | _ | _ | _ | _ | _ | k <;>
          simp [make_basic_cube, hnum, vertex_on_plane, Vector.coord, Triangle.indices, h1, h2]
      · simp [make_basic_cube, hnum, vertex_on_plane, Vector.coord, List.range_succ,
          List.filter, h1, h2]
      · simp [Triangle.indices, List.filter]
      · refine ⟨_, _, rfl, rfl, ?_⟩
        intro ax hax
        fin_cases ax <;> simp [make_basic_cube, hnum, Vector.coord, h1, h2] at hax ⊢

/-- Witness of `make_basic_cube_covers_sides` at side length `2`: the side
`z = 1` holds exactly the two triangles `(0,1,2)` and `(1,2,3)`. -/
theorem make_basic_cube_covers_sides_witness :
    ∃ (t1 t2 : Triangle) (i j : Nat),
      (make_basic_cube ⟨⟨0, 0, 0⟩, ⟨0, 0, 0⟩, 0, [], 0, [], []⟩ 2 (fun _ => ⟨0, 0⟩)).faces.filter
        (triangle_on_plane
          (make_basic_cube ⟨⟨0, 0, 0⟩, ⟨0, 0, 0⟩, 0, [], 0, [], []⟩ 2 (fun _ => ⟨0, 0⟩)) 2 (2 / 2))
        = [t1, t2] ∧
      (∀ k : Nat, vertex_on_plane
          (make_basic_cube ⟨⟨0, 0, 0⟩, ⟨0, 0, 0⟩, 0, [], 0, [], []⟩ 2 (fun _ => ⟨0, 0⟩)) 2 (2 / 2) k
          = true ↔ (k ∈ t1.indices ∨ k ∈ t2.indices)) ∧
      ((List.range
          (make_basic_cube ⟨⟨0, 0, 0⟩, ⟨0, 0, 0⟩, 0, [], 0, [], []⟩ 2 (fun _ => ⟨0, 0⟩)).num_vertices).filter
        (vertex_on_plane
          (make_basic_cube ⟨⟨0, 0, 0⟩, ⟨0, 0, 0⟩, 0, [], 0, [], []⟩ 2 (fun _ => ⟨0, 0⟩)) 2 (2 / 2))).length
        = 4 ∧
      t1.indices.filter (fun k => decide (k ∈ t2.indices)) = [i, j] ∧ i ≠ j ∧
      diagonal_on_side
        (make_basic_cube ⟨⟨0, 0, 0⟩, ⟨0, 0, 0⟩, 0, [], 0, [], []⟩ 2 (fun _ => ⟨0, 0⟩)) 2 i j :=
  (make_basic_cube_covers_sides ⟨⟨0, 0, 0⟩, ⟨0, 0, 0⟩, 0, [], 0, [], []⟩ 2 (fun _ => ⟨0, 0⟩)
    (by norm_num)).2 2 (2 / 2) (Or.inl rfl)

/-! ## `sin_fast^2 + cos_fast^2` on `[-PI_1, PI_1]` -/

/-- Both branches of `x < 0` and both branches of `sin < 0` in `sin_fast`
are `sin_core` of the range-reduced angle. -/
theorem sin_fast_eq_sin_core (x : ℚ) :
    sin_fast x =
      sin_core (if (if x < -PI_1 then x + PI_2 else x) > PI_1
        then (if x < -PI_1 then x + PI_2 else x) - PI_2
        else (if x < -PI_1 then x + PI_2 else x)) := by
  simp only [sin_fast]
  generalize (if (if x < -PI_1 then x + PI_2 else x) > PI_1
        then (if x < -PI_1 then x + PI_2 else x) - PI_2
        else (if x < -PI_1 then x + PI_2 else x)) = y
  simp only [sin_core]
  by_cases hy : y < 0
  · rw [if_pos hy, abs_of_neg hy]
    have e : 1.2732395 * y + 0.40528473 * y * y = y * (1.2732395 - 0.40528473 * -y) := by ring
    rw [e]
    generalize y * (1.2732395 - 0.40528473 * -y) = s
    by_cases hs : s < 0
    · rw [if_pos hs, abs_of_neg hs]; ring
    · rw [if_neg hs, abs_of_nonneg (not_lt.mp hs)]; ring
  · rw [if_neg hy, abs_of_nonneg (not_lt.mp hy)]
    have e : 1.2732395 * y - 0.40528473 * y * y = y * (1.2732395 - 0.40528473 * y) := by ring
    rw [e]
    generalize y * (1.2732395 - 0.40528473 * y) = s
    by_cases hs : s < 0
    · rw [if_pos hs, abs_of_neg hs]; ring
    · rw [if_neg hs, abs_of_nonneg (not_lt.mp hs)]; ring

/-- Products of members lie in the product enclosure. -/
theorem Ival.mem_mul {x y : ℚ} {I J : Ival} (hx : I.mem x) (hy : J.mem y) :
    (I.mul J).mem (x * y) := by
  obtain ⟨hx1, hx2⟩ := hx
  obtain ⟨hy1, hy2⟩ := hy
  simp only [Ival.mem, Ival.mul, min_le_iff, le_max_iff]
  constructor
  · rcases le_total 0 y with h | h
    · rcases le_total 0 I.lo with h' | h'
      · left; left
        calc I.lo * J.lo ≤ I.lo * y := mul_le_mul_of_nonneg_left hy1 h'
          _ ≤ x * y := mul_le_mul_of_nonneg_right hx1 h
      · left; right
        calc I.lo * J.hi ≤ I.lo * y := mul_le_mul_of_nonpos_left hy2 h'
          _ ≤ x * y := mul_le_mul_of_nonneg_right hx1 h
    · rcases le_total 0 I.hi with h' | h'
      · right; left
        calc I.hi * J.lo ≤ I.hi * y := mul_le_mul_of_nonneg_left hy1 h'
          _ ≤ x * y := mul_le_mul_of_nonpos_right hx2 h
      · right; right
        calc I.hi * J.hi ≤ I.hi * y := mul_le_mul_of_nonpos_left hy2 h'
          _ ≤ x * y := mul_le_mul_of_nonpos_right hx2 h
  · rcases le_total 0 y with h | h
    · rcases le_total 0 I.hi with h' | h'
      · right; right
        calc x * y ≤ I.hi * y := mul_le_mul_of_nonneg_right hx2 h
          _ ≤ I.hi * J.hi := mul_le_mul_of_nonneg_left hy2 h'
      · right; left
        calc x * y ≤ I.hi * y := mul_le_mul_of_nonneg_right hx2 h
          _ ≤ I.hi * J.lo := mul_le_mul_of_nonpos_left hy1 h'
    · rcases le_total 0 I.lo with h' | h'
      · left; right
        calc x * y ≤ I.lo * y := mul_le_mul_of_nonpos_right hx1 h
          _ ≤ I.lo * J.hi := mul_le_mul_of_nonneg_left hy2 h'
      · left; left
        calc x * y ≤ I.lo * y := mul_le_mul_of_nonpos_right hx1 h
          _ ≤ I.lo * J.lo := mul_le_mul_of_nonpos_left hy1 h'

/-- Absolute values of members lie in the absolute-value enclosure. -/
theorem Ival.mem_abs {x : ℚ} {I : Ival} (hx : I.mem x) : I.abs.mem |x| := by
  obtain ⟨hx1, hx2⟩ := hx
  unfold Ival.abs
  split_ifs with h1 h2
  · rw [abs_of_nonneg (le_trans h1 hx1)]; exact ⟨hx1, hx2⟩
  · rw [abs_of_nonpos (le_trans hx2 h2)]
    exact ⟨neg_le_neg hx2, neg_le_neg hx1⟩
  · refine ⟨abs_nonneg x, ?_⟩
    simp only [le_max_iff]
    rcases le_total 0 x with h | h
    · right; rw [abs_of_nonneg h]; exact hx2
    · left; rw [abs_of_nonpos h]; exact neg_le_neg hx1

/-- Members of either interval lie in the hull. -/
theorem Ival.mem_hull {x : ℚ} {I J : Ival} (hx : I.mem x ∨ J.mem x) : (I.hull J).mem x := by
  simp only [Ival.mem, Ival.hull, min_le_iff, le_max_iff]
  rcases hx with h | h
  · exact ⟨Or.inl h.1, Or.inl h.2⟩
  · exact ⟨Or.inr h.1, Or.inr h.2⟩

/-- The enclosure `sin_core_ival` is sound. -/
theorem sin_core_mem {y : ℚ} {I : Ival} (hy : I.mem y) : (sin_core_ival I).mem (sin_core y) := by
  have ha := Ival.mem_abs hy
  have hp : (I.mul ⟨1.2732395 - 0.40528473 * I.abs.hi, 1.2732395 - 0.40528473 * I.abs.lo⟩).mem
      (y * (1.2732395 - 0.40528473 * |y|)) := by
    apply Ival.mem_mul hy
    obtain ⟨h1, h2⟩ := ha
    constructor <;> simp only <;> linarith
  have hq := Ival.mem_abs hp
  simp only [sin_core, sin_core_ival]
  apply Ival.mem_mul hp
  obtain ⟨h1, h2⟩ := hq
  constructor <;> simp only <;> linarith

/-- The enclosure `sin_fast_ival` is sound on intervals at or above `-PI_1`. -/
theorem sin_fast_mem {x : ℚ} {I : Ival} (hlo : -PI_1 ≤ I.lo) (hx : I.mem x) :
    (sin_fast_ival I).mem (sin_fast x) := by
  obtain ⟨hx1, hx2⟩ := hx
  have hnot : ¬ x < -PI_1 := not_lt.mpr (le_trans hlo hx1)
  rw [sin_fast_eq_sin_core, if_neg hnot]
  unfold sin_fast_ival
  by_cases hx3 : x > PI_1
  · rw [if_pos hx3]
    have hin : (⟨PI_1 - PI_2, I.hi - PI_2⟩ : Ival).mem (x - PI_2) :=
      ⟨by simp only; linarith, by simp only; linarith⟩
    split_ifs with h1 h2
    · exact absurd (lt_of_lt_of_le hx3 (le_trans hx2 h1)) (lt_irrefl _)
    · exact sin_core_mem ⟨by simp only; linarith, by simp only; linarith⟩
    · exact Ival.mem_hull (Or.inr (sin_core_mem hin))
  · rw [if_neg hx3]
    have hx4 : x ≤ PI_1 := not_lt.mp hx3
    split_ifs with h1 h2
    · exact sin_core_mem ⟨hx1, hx2⟩
    · exact absurd (lt_of_lt_of_le h2 (le_trans hx1 hx4)) (lt_irrefl _)
    · exact Ival.mem_hull (Or.inl (sin_core_mem ⟨hx1, hx4⟩))

/-- A cell that passes `pythagoras_check` satisfies the bound. -/
theorem pythagoras_check_sound {t : ℚ} {I : Ival} (hc : pythagoras_check I = true)
    (ht : I.mem t) : |sin_fast t ^ 2 + cos_fast t ^ 2 - 1| ≤ 0.06 := by
  simp only [pythagoras_check, decide_eq_true_eq] at hc
  obtain ⟨hlo, h1, h2⟩ := hc
  have hs := sin_fast_mem hlo ht
  have hc' : (sin_fast_ival ⟨I.lo + 1.57079632, I.hi + 1.57079632⟩).mem (cos_fast t) := by
    apply sin_fast_mem
    · simp only; linarith
    · exact ⟨by simp only; linarith [ht.1], by simp only; linarith [ht.2]⟩
  obtain ⟨a1, a2⟩ := Ival.mem_mul hs hs
  obtain ⟨b1, b2⟩ := Ival.mem_mul hc' hc'
  rw [abs_le]
  constructor
  · nlinarith
  · nlinarith

/-- Every cell of the grid of 252 cells passes the check. -/
theorem pythagoras_check_all_cells : pythagoras_check_all 252 = true := by
  decide!

/-- The grid of 252 cells covers `[-PI_1, PI_1]`. -/
theorem pythagoras_cell_cover (t : ℚ) (h1 : -PI_1 ≤ t) (h2 : t ≤ PI_1) :
    ∃ i : Nat, i < 252 ∧ (pythagoras_cell i).mem t := by
  have h0 : 0 ≤ (t + PI_1) * 40 := by nlinarith
  have hf1 : (⌊(t + PI_1) * 40⌋ : ℚ) ≤ (t + PI_1) * 40 := Int.floor_le _
  have hf2 : (t + PI_1) * 40 < ⌊(t + PI_1) * 40⌋ + 1 := Int.lt_floor_add_one _
  have hf0 : 0 ≤ ⌊(t + PI_1) * 40⌋ := Int.floor_nonneg.mpr h0
  have hcast : ((⌊(t + PI_1) * 40⌋.toNat : ℕ) : ℚ) = (⌊(t + PI_1) * 40⌋ : ℚ) := by
    have := Int.toNat_of_nonneg hf0
    exact_mod_cast congrArg (fun z : ℤ => (z : ℚ)) this
  refine ⟨⌊(t + PI_1) * 40⌋.toNat, ?_, ?_, ?_⟩
  · have hlt : (⌊(t + PI_1) * 40⌋ : ℚ) < 252 := by
      have : (t + PI_1) * 40 < 252 := by
        have : PI_1 < 3.15 := by norm_num [PI_1]
        nlinarith
      linarith
    have : ⌊(t + PI_1) * 40⌋ < 252 := by exact_mod_cast hlt
    omega
  · simp only [pythagoras_cell, hcast]; linarith
  · simp only [pythagoras_cell, hcast]; linarith

/-- C7: for every angle `t` with `-PI_1 ≤ t ≤ PI_1`,
`|sin_fast(t)^2 + cos_fast(t)^2 - 1| ≤ 0.06`, with the functions of the code
evaluated in exact arithmetic. -/
theorem sin_cos_fast_pythagoras (t : ℚ) (h1 : -PI_1 ≤ t) (h2 : t ≤ PI_1) :
    |sin_fast t ^ 2 + cos_fast t ^ 2 - 1| ≤ 0.06 := by
  obtain ⟨i, hi, hmem⟩ := pythagoras_cell_cover t h1 h2
  have hall := pythagoras_check_all_cells
  simp only [pythagoras_check_all, List.all_eq_true, List.mem_range] at hall
  exact pythagoras_check_sound (hall i hi) hmem

/-- Witness of `sin_cos_fast_pythagoras` at the angle `1`. -/
theorem sin_cos_fast_pythagoras_witness :
    |sin_fast 1 ^ 2 + cos_fast 1 ^ 2 - 1| ≤ 0.06 :=
  sin_cos_fast_pythagoras 1 (by norm_num [PI_1]) (by norm_num [PI_1])

/-! ## Range reduction of `sin_fast` -/

/-- The result of `sin_fast` is `sin_core` of the range-reduced angle. -/
theorem sin_fast_eq_sin_core_reduce (x : ℚ) : sin_fast x = sin_core (sin_fast_reduce x) :=
  sin_fast_eq_sin_core x

/-- The range reduction in exact arithmetic on a rational that is not a
`float`, `x = -3.141592655`, between `-PI_1 - PI_2` and `PI_1 + PI_2`: the
first `if` adds `PI_2`, the sum `3.141592655` exceeds `PI_1`, the second `if`
subtracts `PI_2` again, and the reduced angle is `x` itself, which is below
`-PI_1`.  No `float` lies where this happens, see `float_above_PI_1`. -/
theorem sin_fast_reduce_outside_range :
    -PI_1 - PI_2 ≤ (-3.141592655 : ℚ) ∧ (-3.141592655 : ℚ) ≤ PI_1 + PI_2 ∧
    sin_fast_reduce (-3.141592655) = -3.141592655 ∧
    ¬ (-PI_1 ≤ sin_fast_reduce (-3.141592655) ∧ sin_fast_reduce (-3.141592655) ≤ PI_1) := by
  have h : sin_fast_reduce (-3.141592655) = -3.141592655 := by
    simp only [sin_fast_reduce, PI_1, PI_2]
    norm_num
  refine ⟨by norm_num [PI_1, PI_2], by norm_num [PI_1, PI_2], h, ?_⟩
  rw [h]
  norm_num [PI_1]

/-- The range reduction in exact arithmetic on all rationals: for every `x`
with `-PI_1 - PI_2 ≤ x ≤ PI_1 + PI_2` the range reduction of `sin_fast` yields
`x`, `x + PI_2` or `x - PI_2`, an angle
in `[PI_1 - PI_2, PI_1]`; the angle lies in `[-PI_1, PI_1]` when `x` is
outside the two open intervals `(PI_1 - PI_2, -PI_1)` and
`(PI_1, PI_2 - PI_1)`; and `x` in `[-PI_1, PI_1]` is left unchanged. -/
theorem sin_fast_reduce_range (x : ℚ) (h1 : -PI_1 - PI_2 ≤ x) (h2 : x ≤ PI_1 + PI_2) :
    (sin_fast_reduce x = x ∨ sin_fast_reduce x = x + PI_2 ∨ sin_fast_reduce x = x - PI_2) ∧
    (PI_1 - PI_2 ≤ sin_fast_reduce x ∧ sin_fast_reduce x ≤ PI_1) ∧
    (¬ (PI_1 - PI_2 < x ∧ x < -PI_1) → ¬ (PI_1 < x ∧ x < PI_2 - PI_1) →
      -PI_1 ≤ sin_fast_reduce x ∧ sin_fast_reduce x ≤ PI_1) ∧
    (-PI_1 ≤ x → x ≤ PI_1 → sin_fast_reduce x = x) := by
  have hc : PI_1 - PI_2 < -PI_1 := by norm_num [PI_1, PI_2]
  have hp : (0 : ℚ) < PI_1 := by norm_num [PI_1]
  have hq : (0 : ℚ) < PI_2 := by norm_num [PI_2]
  simp only [sin_fast_reduce]
  by_cases ha : x < -PI_1
  · rw [if_pos ha]
    by_cases hb : x + PI_2 > PI_1
    · rw [if_pos hb]
      refine ⟨Or.inl (by ring), ⟨by linarith, by linarith⟩, ?_, ?_⟩
      · intro hs _
        exact absurd ⟨by linarith, ha⟩ hs
      · intro h3; linarith
    · rw [if_neg hb]
      refine ⟨Or.inr (Or.inl rfl), ⟨by linarith, by linarith⟩, ?_, ?_⟩
      · intro _ _
        exact ⟨by linarith, by linarith⟩
      · intro h3; linarith
  · rw [if_neg ha]
    by_cases hb : x > PI_1
    · rw [if_pos hb]
      refine ⟨Or.inr (Or.inr rfl), ⟨by linarith, by linarith⟩, ?_, ?_⟩
      · intro _ hs
        have : ¬ x < PI_2 - PI_1 := fun h => hs ⟨hb, h⟩
        exact ⟨by linarith, by linarith⟩
      · intro _ h4; linarith
    · rw [if_neg hb]
      refine ⟨Or.inl rfl, ⟨by linarith, by linarith⟩, ?_, ?_⟩
      · intro _ _
        exact ⟨by linarith, by linarith⟩
      · intro _ _; rfl

/-- Witness of `sin_fast_reduce_range` at `x = 4`: one subtraction of `PI_2`. -/
theorem sin_fast_reduce_range_witness :
    (sin_fast_reduce 4 = 4 ∨ sin_fast_reduce 4 = 4 + PI_2 ∨ sin_fast_reduce 4 = 4 - PI_2) ∧
    (PI_1 - PI_2 ≤ sin_fast_reduce 4 ∧ sin_fast_reduce 4 ≤ PI_1) ∧
    (¬ (PI_1 - PI_2 < (4 : ℚ) ∧ (4 : ℚ) < -PI_1) → ¬ (PI_1 < (4 : ℚ) ∧ (4 : ℚ) < PI_2 - PI_1) →
      -PI_1 ≤ sin_fast_reduce 4 ∧ sin_fast_reduce 4 ≤ PI_1) ∧
    (-PI_1 ≤ (4 : ℚ) → (4 : ℚ) ≤ PI_1 → sin_fast_reduce 4 = 4) :=
  sin_fast_reduce_range 4 (by norm_num [PI_1, PI_2]) (by norm_num [PI_1, PI_2])

/-! ## `abs` on a 32-bit `int` -/

/-- C13, as stated, fails at `i = -2^31` (`INT_MIN`): the negation wraps
around to `-2^31`, so `abs` returns `-2147483648`, which is negative and is
not the absolute value `2147483648`. -/
theorem abs_int32_min :
    abs_int32 (-2147483648) = -2147483648 ∧ abs_int32 (-2147483648) < 0 ∧
    abs_int32 (-2147483648) ≠ |(-2147483648 : Int)| := by
  decide

/-- C13, amended: for every 32-bit `int` other than `-2^31`, `abs` returns
the exact absolute value, a non-negative `int`. -/
theorem abs_int32_exact (i : Int) (h1 : -2147483648 < i) (h2 : i ≤ 2147483647) :
    abs_int32 i = |i| ∧ 0 ≤ abs_int32 i := by
  unfold abs_int32 wrap_int32
  by_cases h : i < 0
  · rw [if_pos h, abs_of_neg h]
    constructor <;> omega
  · rw [if_neg h, abs_of_nonneg (by omega)]
    constructor <;> omega

/-- Witness of `abs_int32_exact` at `i = -2147483647`. -/
theorem abs_int32_exact_witness :
    abs_int32 (-2147483647) = |(-2147483647 : Int)| ∧ 0 ≤ abs_int32 (-2147483647) :=
  abs_int32_exact (-2147483647) (by decide) (by decide)

/-! ## The projection matrix -/

/-- C15: `perspective_for_LH_to_ref` ignores its `fov` argument: for all
`fov1`, `fov2`, `aspect`, `znear`, `zfar` the two matrices are equal, with
`m11 = 2.56/aspect`, `m22 = 2.56`, `m33 = -zfar/(znear - zfar)`, `m34 = 1`,
`m44 = znear*zfar/(znear - zfar)` and every other entry `0`. -/
theorem perspective_ignores_fov (fov1 fov2 aspect znear zfar : ℚ) :
    perspective_for_LH_to_ref fov1 aspect znear zfar
      = perspective_for_LH_to_ref fov2 aspect znear zfar ∧
    perspective_for_LH_to_ref fov1 aspect znear zfar =
      ⟨2.56 / aspect, 0, 0, 0,
       0, 2.56, 0, 0,
       0, 0, -zfar / (znear - zfar), 1,
       0, 0, 0, znear * zfar / (znear - zfar)⟩ := by
  constructor
  · rfl
  · simp only [perspective_for_LH_to_ref]
    norm_num

/-! ## The vertex loop of `draw_mesh` -/

/-- One iteration of the vertex loop of `draw_mesh` is one iteration of the
hoisted loop with the transform matrix `draw_mesh_transform`, and leaves
`draw_mesh_matrices` in memory. -/
theorem draw_mesh_vertex_eq_hoisted (w h : Int) (i : Nat) (mesh : Mesh) (σ : Mem MatrixPtr) :
    draw_mesh_vertex MatrixPtr.viewMatrix MatrixPtr.projectionMatrix w h MatrixPtr.worldMatrix
        MatrixPtr.translateMatrix MatrixPtr.transformMatrix i (mesh, σ)
      = (draw_mesh_vertex_hoisted
          (draw_mesh_transform mesh (σ MatrixPtr.viewMatrix) (σ MatrixPtr.projectionMatrix))
          w h i mesh).map
        (fun m => (m, draw_mesh_matrices MatrixPtr.viewMatrix MatrixPtr.projectionMatrix
          MatrixPtr.worldMatrix MatrixPtr.translateMatrix MatrixPtr.transformMatrix mesh σ)) := by
  simp only [draw_mesh_vertex, draw_mesh_vertex_hoisted, draw_mesh_matrices_transform,
    draw_mesh_project]
  cases mesh.vertices[i]? with
  | none => rfl
  | some v =>
    simp only []
    split <;> rfl

/-- An iteration of the hoisted vertex loop changes `proj` only, and keeps
its length. -/
theorem draw_mesh_vertex_hoisted_frame (T : Matrix) (w h : Int) (i : Nat) (mesh mesh' : Mesh)
    (hm : draw_mesh_vertex_hoisted T w h i mesh = some mesh') :
    mesh'.position = mesh.position ∧ mesh'.rotation = mesh.rotation ∧
    mesh'.num_vertices = mesh.num_vertices ∧ mesh'.vertices = mesh.vertices ∧
    mesh'.num_faces = mesh.num_faces ∧ mesh'.faces = mesh.faces ∧
    mesh'.proj.length = mesh.proj.length := by
  unfold draw_mesh_vertex_hoisted at hm
  cases hv : mesh.vertices[i]? with
  | none => rw [hv] at hm; simp at hm
  | some v =>
    rw [hv] at hm
    simp only [] at hm
    split at hm
    · injection hm with hm
      subst hm
      simp
    · simp at hm

/-- The transform matrix depends on the mesh through its position and
rotation only. -/
theorem draw_mesh_transform_congr (m m' : Mesh) (v p : Matrix)
    (hpos : m'.position = m.position) (hrot : m'.rotation = m.rotation) :
    draw_mesh_transform m' v p = draw_mesh_transform m v p := by
  simp only [draw_mesh_transform, hpos, hrot]

/-- The vertex loop of `draw_mesh` over any list of indices yields the mesh
of the hoisted loop run with the transform matrix `draw_mesh_transform`. -/
theorem draw_mesh_vertex_loop_eq_hoisted (w h : Int) (l : List Nat) :
    ∀ (mesh : Mesh) (σ : Mem MatrixPtr),
      (l.foldlM (fun s i => draw_mesh_vertex MatrixPtr.viewMatrix MatrixPtr.projectionMatrix
          w h MatrixPtr.worldMatrix MatrixPtr.translateMatrix MatrixPtr.transformMatrix i s)
          (mesh, σ)).map Prod.fst
        = l.foldlM (fun m i => draw_mesh_vertex_hoisted
            (draw_mesh_transform mesh (σ MatrixPtr.viewMatrix) (σ MatrixPtr.projectionMatrix))
            w h i m) mesh := by
  induction l with
  | nil => intro mesh σ; rfl
  | cons i l ih =>
    intro mesh σ
    rw [List.foldlM_cons, List.foldlM_cons, draw_mesh_vertex_eq_hoisted]
    cases hm : draw_mesh_vertex_hoisted
        (draw_mesh_transform mesh (σ MatrixPtr.viewMatrix) (σ MatrixPtr.projectionMatrix))
        w h i mesh with
    | none => rfl
    | some m1 =>
      obtain ⟨hpos, hrot, -⟩ := draw_mesh_vertex_hoisted_frame _ w h i mesh m1 hm
      obtain ⟨-, -, f3, f4⟩ := draw_mesh_matrices_frame mesh σ
      have := ih m1 (draw_mesh_matrices MatrixPtr.viewMatrix MatrixPtr.projectionMatrix
          MatrixPtr.worldMatrix MatrixPtr.translateMatrix MatrixPtr.transformMatrix mesh σ)
      rw [f3, f4, draw_mesh_transform_congr mesh m1 _ _ hpos hrot] at this
      simpa using this

/-- The hoisted vertex loop over any list of indices changes `proj` only,
and keeps its length. -/
theorem draw_mesh_hoisted_loop_frame (T : Matrix) (w h : Int) (l : List Nat) :
    ∀ (mesh mesh' : Mesh),
      l.foldlM (fun m i => draw_mesh_vertex_hoisted T w h i m) mesh = some mesh' →
      mesh'.position = mesh.position ∧ mesh'.rotation = mesh.rotation ∧
      mesh'.num_vertices = mesh.num_vertices ∧ mesh'.vertices = mesh.vertices ∧
      mesh'.num_faces = mesh.num_faces ∧ mesh'.faces = mesh.faces ∧
      mesh'.proj.length = mesh.proj.length := by
  induction l with
  | nil =>
    intro mesh mesh' hm
    simp only [List.foldlM_nil, pure, Option.some.injEq] at hm
    subst hm
    simp
  | cons i l ih =>
    intro mesh mesh' hm
    rw [List.foldlM_cons] at hm
    cases h1 : draw_mesh_vertex_hoisted T w h i mesh with
    | none => rw [h1] at hm; simp at hm
    | some m1 =>
      rw [h1] at hm
      obtain ⟨a1, a2, a3, a4, a5, a6, a7⟩ := draw_mesh_vertex_hoisted_frame T w h i mesh m1 h1
      obtain ⟨b1, b2, b3, b4, b5, b6, b7⟩ := ih m1 mesh' (by simpa using hm)
      exact ⟨b1.trans a1, b2.trans a2, b3.trans a3, b4.trans a4, b5.trans a5, b6.trans a6,
        b7.trans a7⟩

/-- Running lines 434-444 again, for a mesh with the same position and
rotation, leaves the five matrices as they are. -/
theorem draw_mesh_matrices_idem (m m' : Mesh) (σ : Mem MatrixPtr)
    (hpos : m'.position = m.position) (hrot : m'.rotation = m.rotation) :
    draw_mesh_matrices MatrixPtr.viewMatrix MatrixPtr.projectionMatrix MatrixPtr.worldMatrix
        MatrixPtr.translateMatrix MatrixPtr.transformMatrix m'
        (draw_mesh_matrices MatrixPtr.viewMatrix MatrixPtr.projectionMatrix
          MatrixPtr.worldMatrix MatrixPtr.translateMatrix MatrixPtr.transformMatrix m σ)
      = draw_mesh_matrices MatrixPtr.viewMatrix MatrixPtr.projectionMatrix
          MatrixPtr.worldMatrix MatrixPtr.translateMatrix MatrixPtr.transformMatrix m σ := by
  obtain ⟨f1, f2, f3, f4⟩ := draw_mesh_matrices_frame m σ
  obtain ⟨g1, g2, g3, g4⟩ := draw_mesh_matrices_frame m'
    (draw_mesh_matrices MatrixPtr.viewMatrix MatrixPtr.projectionMatrix
      MatrixPtr.worldMatrix MatrixPtr.translateMatrix MatrixPtr.transformMatrix m σ)
  funext p
  cases p with
  | viewMatrix => exact g3
  | projectionMatrix => exact g4
  | transformMatrix =>
    rw [draw_mesh_matrices_transform, draw_mesh_matrices_transform, f3, f4,
      draw_mesh_transform_congr m m' _ _ hpos hrot]
  | worldMatrix => rw [g1, f1, hrot]
  | translateMatrix => rw [g2, f2, hpos]

/-- After at least one iteration of the vertex loop of `draw_mesh` the five
matrices hold what the first iteration left in them. -/
theorem draw_mesh_vertex_loop_memory (w h : Int) (l : List Nat) :
    ∀ (i : Nat) (mesh : Mesh) (σ : Mem MatrixPtr) (s : Mesh × Mem MatrixPtr),
      (i :: l).foldlM (fun s i => draw_mesh_vertex MatrixPtr.viewMatrix
          MatrixPtr.projectionMatrix w h MatrixPtr.worldMatrix MatrixPtr.translateMatrix
          MatrixPtr.transformMatrix i s) (mesh, σ) = some s →
      s.2 = draw_mesh_matrices MatrixPtr.viewMatrix MatrixPtr.projectionMatrix
          MatrixPtr.worldMatrix MatrixPtr.translateMatrix MatrixPtr.transformMatrix mesh σ := by
  induction l with
  | nil =>
    intro i mesh σ s hs
    rw [List.foldlM_cons, draw_mesh_vertex_eq_hoisted] at hs
    cases hm : draw_mesh_vertex_hoisted
        (draw_mesh_transform mesh (σ MatrixPtr.viewMatrix) (σ MatrixPtr.projectionMatrix))
        w h i mesh with
    | none => rw [hm] at hs; simp at hs
    | some m1 =>
      rw [hm] at hs
      simp only [Option.map_some', List.foldlM_nil, Option.bind_eq_bind, Option.some_bind,
        pure, Option.some.injEq] at hs
      rw [← hs]
  | cons j l ih =>
    intro i mesh σ s hs
    rw [List.foldlM_cons, draw_mesh_vertex_eq_hoisted] at hs
    cases hm : draw_mesh_vertex_hoisted
        (draw_mesh_transform mesh (σ MatrixPtr.viewMatrix) (σ MatrixPtr.projectionMatrix))
        w h i mesh with
    | none => rw [hm] at hs; simp at hs
    | some m1 =>
      rw [hm] at hs
      simp only [Option.map_some', Option.bind_eq_bind, Option.some_bind] at hs
      obtain ⟨hpos, hrot, -⟩ := draw_mesh_vertex_hoisted_frame _ w h i mesh m1 hm
      rw [ih j m1 _ s hs, draw_mesh_matrices_idem mesh m1 σ hpos hrot]

/-- C16: hoisting the transform out of the vertex loop of `draw_mesh` does
not change the observable output.  For every mesh, viewport, fuel and
content of the five matrices, `draw_mesh` and the variant that computes the
world, translate and transform matrices once before the loop return the same
mesh (in particular the same `proj` buffer) and the same plotted pixel
sequence, or both fail; and after each iteration `i < num_vertices` of the
loop of `draw_mesh` the transform matrix holds the same value
`draw_mesh_transform`. -/
theorem draw_mesh_hoisting (fuel : Nat) (mesh : Mesh) (w h : Int) (σ : Mem MatrixPtr) :
    (draw_mesh fuel mesh MatrixPtr.viewMatrix MatrixPtr.projectionMatrix w h
        MatrixPtr.worldMatrix MatrixPtr.translateMatrix MatrixPtr.transformMatrix σ).map
        (fun r => (r.1, r.2.2))
      = (draw_mesh_hoisted fuel mesh MatrixPtr.viewMatrix MatrixPtr.projectionMatrix w h
        MatrixPtr.worldMatrix MatrixPtr.translateMatrix MatrixPtr.transformMatrix σ).map
        (fun r => (r.1, r.2.2)) ∧
    ∀ (i : Nat) (s : Mesh × Mem MatrixPtr), i < mesh.num_vertices →
      (List.range (i + 1)).foldlM (fun s i => draw_mesh_vertex MatrixPtr.viewMatrix
          MatrixPtr.projectionMatrix w h MatrixPtr.worldMatrix MatrixPtr.translateMatrix
          MatrixPtr.transformMatrix i s) (fix_mesh_rotation mesh, σ) = some s →
      s.2 MatrixPtr.transformMatrix
        = draw_mesh_transform (fix_mesh_rotation mesh) (σ MatrixPtr.viewMatrix)
            (σ MatrixPtr.projectionMatrix) := by
  constructor
  · have hB := draw_mesh_vertex_loop_eq_hoisted w h (List.range mesh.num_vertices)
      (fix_mesh_rotation mesh) σ
    simp only [draw_mesh, draw_mesh_hoisted, draw_mesh_matrices_transform]
    cases hv : (List.range mesh.num_vertices).foldlM (fun s i => draw_mesh_vertex
        MatrixPtr.viewMatrix MatrixPtr.projectionMatrix w h MatrixPtr.worldMatrix
        MatrixPtr.translateMatrix MatrixPtr.transformMatrix i s)
        (fix_mesh_rotation mesh, σ) with
    | none =>
      rw [hv] at hB
      simp only [Option.map_none'] at hB
      rw [← hB]
      rfl
    | some s =>
      rw [hv] at hB
      simp only [Option.map_some'] at hB
      rw [← hB]
      simp only [Option.bind_eq_bind, Option.some_bind, bind]
      cases (List.range mesh.num_faces).foldlM
        (fun pixels i => draw_mesh_face fuel s.1 i pixels) [] <;> rfl
  · intro i s _ hs
    rw [List.range_succ_eq_map] at hs
    rw [draw_mesh_vertex_loop_memory w h _ 0 _ σ s hs, draw_mesh_matrices_transform]

/-- The hoisted vertex loop over the first `k` indices, when both buffers
hold at least `k` entries: the first `k` entries of `proj` are overwritten
with the projected vertices, the others are kept. -/
theorem draw_mesh_hoisted_loop_closed (T : Matrix) (w h : Int) (mesh : Mesh) :
    ∀ k : Nat, k ≤ mesh.vertices.length → k ≤ mesh.proj.length →
      (List.range k).foldlM (fun m i => draw_mesh_vertex_hoisted T w h i m) mesh
        = some { mesh with
            proj := (mesh.vertices.take k).map (draw_mesh_project T w h) ++ mesh.proj.drop k } := by
  intro k
  induction k with
  | zero =>
    intro _ _
    simp [pure]
  | succ k ih =>
    intro hv hp
    have hv' : k < mesh.vertices.length := by omega
    have hp' : k < mesh.proj.length := by omega
    rw [List.range_succ, List.foldlM_append, ih (by omega) (by omega)]
    simp only [Option.bind_eq_bind, Option.some_bind, List.foldlM_cons, List.foldlM_nil,
      draw_mesh_vertex_hoisted, List.getElem?_eq_getElem hv']
    have hlen : ((mesh.vertices.take k).map (draw_mesh_project T w h)).length = k := by
      simp [List.length_take]; omega
    have hlt : k < ((mesh.vertices.take k).map (draw_mesh_project T w h)
        ++ mesh.proj.drop k).length := by
      rw [List.length_append, hlen, List.length_drop]; omega
    rw [if_pos hlt, List.set_append_right k _ (by rw [hlen]), hlen, Nat.sub_self,
      List.drop_eq_getElem_cons hp', List.set_cons_zero, List.take_succ,
      List.getElem?_eq_getElem hv']
    simp only [pure, Option.toList, List.map_append, List.map_cons, List.map_nil,
      List.append_assoc, List.singleton_append, Option.some_bind]

/-- On a mesh whose vertex and projection buffers hold `num_vertices`
entries, `draw_mesh` overwrites the whole projection buffer with the
projected vertices and then runs the face loop on it. -/
theorem draw_mesh_well_formed (fuel : Nat) (mesh : Mesh) (w h : Int) (σ : Mem MatrixPtr)
    (hv : mesh.vertices.length = mesh.num_vertices)
    (hp : mesh.proj.length = mesh.num_vertices) :
    ∃ σ' : Mem MatrixPtr,
      draw_mesh fuel mesh MatrixPtr.viewMatrix MatrixPtr.projectionMatrix w h
        MatrixPtr.worldMatrix MatrixPtr.translateMatrix MatrixPtr.transformMatrix σ
      = ((List.range mesh.num_faces).foldlM
          (fun pixels i => draw_mesh_face fuel
            { fix_mesh_rotation mesh with
              proj := mesh.vertices.map (draw_mesh_project
                (draw_mesh_transform (fix_mesh_rotation mesh)
                  (σ MatrixPtr.viewMatrix) (σ MatrixPtr.projectionMatrix)) w h) }
            i pixels) []).map
          (fun pixels =>
            ({ fix_mesh_rotation mesh with
              proj := mesh.vertices.map (draw_mesh_project
                (draw_mesh_transform (fix_mesh_rotation mesh)
                  (σ MatrixPtr.viewMatrix) (σ MatrixPtr.projectionMatrix)) w h) },
             σ', pixels)) := by
  obtain ⟨-, -, fvs, -, -, fproj⟩ := fix_mesh_rotation_frame mesh
  have hB := draw_mesh_vertex_loop_eq_hoisted w h (List.range mesh.num_vertices)
    (fix_mesh_rotation mesh) σ
  have hC := draw_mesh_hoisted_loop_closed
    (draw_mesh_transform (fix_mesh_rotation mesh)
      (σ MatrixPtr.viewMatrix) (σ MatrixPtr.projectionMatrix)) w h (fix_mesh_rotation mesh)
    mesh.num_vertices (by rw [fvs, hv]) (by rw [fproj, hp])
  have ht : List.take mesh.num_vertices (fix_mesh_rotation mesh).vertices = mesh.vertices := by
    rw [fvs]; exact List.take_of_length_le (by omega)
  have hd : List.drop mesh.num_vertices (fix_mesh_rotation mesh).proj = [] := by
    rw [fproj]; exact List.drop_of_length_le (by omega)
  rw [hC, ht, hd, List.append_nil] at hB
  cases hs : (List.range mesh.num_vertices).foldlM (fun s i => draw_mesh_vertex
      MatrixPtr.viewMatrix MatrixPtr.projectionMatrix w h MatrixPtr.worldMatrix
      MatrixPtr.translateMatrix MatrixPtr.transformMatrix i s)
      (fix_mesh_rotation mesh, σ) with
  | none => rw [hs] at hB; simp at hB
  | some s =>
    rw [hs] at hB
    simp only [Option.map_some', Option.some.injEq] at hB
    refine ⟨s.2, ?_⟩
    simp only [draw_mesh, hs, Option.bind_eq_bind, Option.some_bind, bind, hB]
    cases (List.range mesh.num_faces).foldlM
      (fun pixels i => draw_mesh_face fuel
        { fix_mesh_rotation mesh with
          proj := mesh.vertices.map (draw_mesh_project
            (draw_mesh_transform (fix_mesh_rotation mesh)
              (σ MatrixPtr.viewMatrix) (σ MatrixPtr.projectionMatrix)) w h) }
        i pixels) [] <;> rfl

/-- The vertex loop of `draw_mesh` on a mesh whose vertex and projection
buffers hold `num_vertices` entries: it succeeds and overwrites the whole
projection buffer. -/
theorem draw_mesh_vertex_loop_well_formed (mesh : Mesh) (w h : Int) (σ : Mem MatrixPtr)
    (hv : mesh.vertices.length = mesh.num_vertices)
    (hp : mesh.proj.length = mesh.num_vertices) :
    ∃ s : Mesh × Mem MatrixPtr,
      (List.range mesh.num_vertices).foldlM (fun s i => draw_mesh_vertex
        MatrixPtr.viewMatrix MatrixPtr.projectionMatrix w h MatrixPtr.worldMatrix
        MatrixPtr.translateMatrix MatrixPtr.transformMatrix i s)
        (fix_mesh_rotation mesh, σ) = some s ∧
      s.1 = { fix_mesh_rotation mesh with
        proj := mesh.vertices.map (draw_mesh_project
          (draw_mesh_transform (fix_mesh_rotation mesh)
            (σ MatrixPtr.viewMatrix) (σ MatrixPtr.projectionMatrix)) w h) } := by
  obtain ⟨-, -, fvs, -, -, fproj⟩ := fix_mesh_rotation_frame mesh
  have hB := draw_mesh_vertex_loop_eq_hoisted w h (List.range mesh.num_vertices)
    (fix_mesh_rotation mesh) σ
  have hC := draw_mesh_hoisted_loop_closed
    (draw_mesh_transform (fix_mesh_rotation mesh)
      (σ MatrixPtr.viewMatrix) (σ MatrixPtr.projectionMatrix)) w h (fix_mesh_rotation mesh)
    mesh.num_vertices (by rw [fvs, hv]) (by rw [fproj, hp])
  have ht : List.take mesh.num_vertices (fix_mesh_rotation mesh).vertices = mesh.vertices := by
    rw [fvs]; exact List.take_of_length_le (by omega)
  have hd : List.drop mesh.num_vertices (fix_mesh_rotation mesh).proj = [] := by
    rw [fproj]; exact List.drop_of_length_le (by omega)
  rw [hC, ht, hd, List.append_nil] at hB
  cases hs : (List.range mesh.num_vertices).foldlM (fun s i => draw_mesh_vertex
      MatrixPtr.viewMatrix MatrixPtr.projectionMatrix w h MatrixPtr.worldMatrix
      MatrixPtr.translateMatrix MatrixPtr.transformMatrix i s)
      (fix_mesh_rotation mesh, σ) with
  | none => rw [hs] at hB; simp at hB
  | some s =>
    rw [hs] at hB
    simp only [Option.map_some', Option.some.injEq] at hB
    exact ⟨s, rfl, hB⟩

/-- The first loop of each pair in `fix_mesh_rotation` makes finitely many
corrections: `n` additions of `PI_2`, the loop condition holding before each
of them and failing after the last. -/
theorem fix_rotation_add_steps (r : ℚ) :
    ∃ n : Nat, fix_rotation_add r = r + n * PI_2 ∧
      (∀ k : Nat, k < n → r + k * PI_2 < -PI_1) ∧ ¬ (r + n * PI_2 < -PI_1) := by
  induction r using fix_rotation_add.induct with
  | case1 r h ih =>
    obtain ⟨n, h1, h2, h3⟩ := ih
    refine ⟨n + 1, ?_, ?_, ?_⟩
    · rw [fix_rotation_add, if_pos h, h1]; push_cast; ring
    · intro k hk
      cases k with
      | zero => simpa using h
      | succ j =>
        have := h2 j (by omega)
        push_cast
        linarith
    · push_cast
      intro hc
      apply h3
      linarith
  | case2 r h =>
    refine ⟨0, ?_, ?_, ?_⟩
    · rw [fix_rotation_add, if_neg h]; simp
    · intro k hk; omega
    · simpa using h

/-- The second loop of each pair in `fix_mesh_rotation` makes finitely many
corrections: `n` subtractions of `PI_2`, the loop condition holding before
each of them and failing after the last. -/
theorem fix_rotation_sub_steps (r : ℚ) :
    ∃ n : Nat, fix_rotation_sub r = r - n * PI_2 ∧
      (∀ k : Nat, k < n → r - k * PI_2 > -PI_1) ∧ ¬ (r - n * PI_2 > -PI_1) := by
  induction r using fix_rotation_sub.induct with
  | case1 r h ih =>
    obtain ⟨n, h1, h2, h3⟩ := ih
    refine ⟨n + 1, ?_, ?_, ?_⟩
    · rw [fix_rotation_sub, if_pos h, h1]; push_cast; ring
    · intro k hk
      cases k with
      | zero => simpa using h
      | succ j =>
        have := h2 j (by omega)
        push_cast
        linarith
    · push_cast
      intro hc
      apply h3
      linarith
  | case2 r h =>
    refine ⟨0, ?_, ?_, ?_⟩
    · rw [fix_rotation_sub, if_neg h]; simp
    · intro k hk; omega
    · simpa using h

/-- The vertex loop and the face loop keep position and rotation: the mesh
returned by `draw_mesh` has the position it was given and the rotation left
by `fix_mesh_rotation`. -/
theorem draw_mesh_returns_fixed_rotation (fuel : Nat) (mesh : Mesh) (w h : Int)
    (σ : Mem MatrixPtr) (mesh' : Mesh) (σ' : Mem MatrixPtr) (pixels : List GPoint)
    (hr : draw_mesh fuel mesh MatrixPtr.viewMatrix MatrixPtr.projectionMatrix w h
      MatrixPtr.worldMatrix MatrixPtr.translateMatrix MatrixPtr.transformMatrix σ
      = some (mesh', σ', pixels)) :
    mesh'.position = mesh.position ∧ mesh'.rotation = (fix_mesh_rotation mesh).rotation := by
  obtain ⟨fpos, -⟩ := fix_mesh_rotation_frame mesh
  have hB := draw_mesh_vertex_loop_eq_hoisted w h (List.range mesh.num_vertices)
    (fix_mesh_rotation mesh) σ
  simp only [draw_mesh] at hr
  cases hs : (List.range mesh.num_vertices).foldlM (fun s i => draw_mesh_vertex
      MatrixPtr.viewMatrix MatrixPtr.projectionMatrix w h MatrixPtr.worldMatrix
      MatrixPtr.translateMatrix MatrixPtr.transformMatrix i s)
      (fix_mesh_rotation mesh, σ) with
  | none => rw [hs] at hr; simp at hr
  | some s =>
    rw [hs] at hr hB
    simp only [Option.bind_eq_bind, Option.some_bind, bind] at hr
    cases hf : (List.range mesh.num_faces).foldlM
        (fun pixels i => draw_mesh_face fuel s.1 i pixels) [] with
    | none => rw [hf] at hr; simp at hr
    | some px =>
      rw [hf] at hr
      simp only [Option.some_bind, pure, Option.some.injEq, Prod.mk.injEq] at hr
      obtain ⟨hm, -, -⟩ := hr
      subst hm
      obtain ⟨a1, a2, -⟩ := draw_mesh_hoisted_loop_frame _ w h _ _ s.1 hB.symm
      exact ⟨a1.trans fpos, a2⟩

/-- Position and rotation after `draw_mesh` with the corrections of
`fix_mesh_rotation` read in exact arithmetic: `mesh.position` equals its value
before the call, and each component of `mesh.rotation` equals its value before
the call plus an integer multiple of `PI_2`.  The corrections of the code are
rounded; `draw_mesh_rounded` has them. -/
theorem draw_mesh_position_rotation (fuel : Nat) (mesh : Mesh) (w h : Int)
    (σ : Mem MatrixPtr) (mesh' : Mesh) (σ' : Mem MatrixPtr) (pixels : List GPoint)
    (hr : draw_mesh fuel mesh MatrixPtr.viewMatrix MatrixPtr.projectionMatrix w h
      MatrixPtr.worldMatrix MatrixPtr.translateMatrix MatrixPtr.transformMatrix σ
      = some (mesh', σ', pixels)) :
    mesh'.position = mesh.position ∧
    ∃ kx ky kz : Int,
      mesh'.rotation.x = mesh.rotation.x + kx * PI_2 ∧
      mesh'.rotation.y = mesh.rotation.y + ky * PI_2 ∧
      mesh'.rotation.z = mesh.rotation.z + kz * PI_2 := by
  obtain ⟨hpos, hrot⟩ := draw_mesh_returns_fixed_rotation fuel mesh w h σ mesh' σ' pixels hr
  refine ⟨hpos, ?_⟩
  obtain ⟨nx, ax, -⟩ := fix_rotation_add_steps mesh.rotation.x
  obtain ⟨mx, sx, -⟩ := fix_rotation_sub_steps (fix_rotation_add mesh.rotation.x)
  obtain ⟨ny, ay, -⟩ := fix_rotation_add_steps mesh.rotation.y
  obtain ⟨my, sy, -⟩ := fix_rotation_sub_steps (fix_rotation_add mesh.rotation.y)
  obtain ⟨nz, az, -⟩ := fix_rotation_add_steps mesh.rotation.z
  obtain ⟨mz, sz, -⟩ := fix_rotation_sub_steps (fix_rotation_add mesh.rotation.z)
  refine ⟨nx - mx, ny - my, nz - mz, ?_, ?_, ?_⟩
  · rw [hrot]; simp only [fix_mesh_rotation]; rw [sx, ax]; push_cast; ring
  · rw [hrot]; simp only [fix_mesh_rotation]; rw [sy, ay]; push_cast; ring
  · rw [hrot]; simp only [fix_mesh_rotation]; rw [sz, az]; push_cast; ring

/-- Witness of `draw_mesh_position_rotation`: a mesh at `(1,2,3)` with
rotation `(4,0,0)`, one vertex and no face. -/
theorem draw_mesh_position_rotation_witness :
    ∃ (mesh' : Mesh) (σ' : Mem MatrixPtr) (pixels : List GPoint),
      draw_mesh 0 ⟨⟨1, 2, 3⟩, ⟨4, 0, 0⟩, 1, [⟨0, 0, 0⟩], 0, [], [⟨0, 0⟩]⟩
        MatrixPtr.viewMatrix MatrixPtr.projectionMatrix 144 168
        MatrixPtr.worldMatrix MatrixPtr.translateMatrix MatrixPtr.transformMatrix
        (fun _ => identity_matrix) = some (mesh', σ', pixels) ∧
      mesh'.position = ⟨1, 2, 3⟩ ∧
      ∃ kx ky kz : Int,
        mesh'.rotation.x = 4 + kx * PI_2 ∧
        mesh'.rotation.y = 0 + ky * PI_2 ∧
        mesh'.rotation.z = 0 + kz * PI_2 := by
  obtain ⟨τ, hτ⟩ := draw_mesh_well_formed 0
    ⟨⟨1, 2, 3⟩, ⟨4, 0, 0⟩, 1, [⟨0, 0, 0⟩], 0, [], [⟨0, 0⟩]⟩ 144 168
    (fun _ => identity_matrix) rfl rfl
  exact ⟨_, τ, [], hτ,
    draw_mesh_position_rotation 0 ⟨⟨1, 2, 3⟩, ⟨4, 0, 0⟩, 1, [⟨0, 0, 0⟩], 0, [], [⟨0, 0⟩]⟩
      144 168 (fun _ => identity_matrix) _ τ [] hτ⟩

/-- In an Archimedean ordered field, the loop `while (r < c) r += d` with
`d > 0` makes finitely many corrections. -/
theorem loop_add_terminates {K : Type} [LinearOrderedField K] [Archimedean K]
    (c d : K) (hd : 0 < d) (r : K) :
    ∃ n : Nat, (∀ k : Nat, k < n → r + k * d < c) ∧ ¬ (r + n * d < c) := by
  classical
  have hex : ∃ n : Nat, ¬ (r + n * d < c) := by
    obtain ⟨N, hN⟩ := Archimedean.arch (c - r) hd
    refine ⟨N, ?_⟩
    rw [nsmul_eq_mul] at hN
    intro hlt
    linarith
  refine ⟨Nat.find hex, ?_, Nat.find_spec hex⟩
  intro k hk
  exact not_not.mp (Nat.find_min hex hk)

/-- Termination of `fix_mesh_rotation` with the corrections read in exact
arithmetic: for every mesh there is a finite number of corrections by `PI_2`
on each of the x, y and z components, `n` additions and then `m`
subtractions, each loop condition holding before each of its corrections and
failing after the last.  The same holds for the two loops run on any real
number.  The corrections of the code are rounded;
`fix_mesh_rotation_rounded` has them. -/
theorem fix_mesh_rotation_terminates :
    (∀ mesh : Mesh, ∃ nx mx ny my nz mz : Nat,
      fix_rotation_corrections mesh.rotation.x (fix_mesh_rotation mesh).rotation.x nx mx ∧
      fix_rotation_corrections mesh.rotation.y (fix_mesh_rotation mesh).rotation.y ny my ∧
      fix_rotation_corrections mesh.rotation.z (fix_mesh_rotation mesh).rotation.z nz mz) ∧
    (∀ r : ℝ, ∃ n m : Nat,
      (∀ k : Nat, k < n → r + k * (PI_2 : ℝ) < -(PI_1 : ℝ)) ∧
      ¬ (r + n * (PI_2 : ℝ) < -(PI_1 : ℝ)) ∧
      (∀ k : Nat, k < m → r + n * (PI_2 : ℝ) - k * (PI_2 : ℝ) > -(PI_1 : ℝ)) ∧
      ¬ (r + n * (PI_2 : ℝ) - m * (PI_2 : ℝ) > -(PI_1 : ℝ))) := by
  have hq : ∀ r : ℚ, ∃ n m : Nat,
      fix_rotation_corrections r (fix_rotation_sub (fix_rotation_add r)) n m := by
    intro r
    obtain ⟨n, a1, a2, a3⟩ := fix_rotation_add_steps r
    obtain ⟨m, s1, s2, s3⟩ := fix_rotation_sub_steps (fix_rotation_add r)
    have s1' : fix_rotation_sub (fix_rotation_add r) = r + n * PI_2 - m * PI_2 := by
      rw [s1, a1]
    rw [a1] at s2 s3
    exact ⟨n, m, a2, a3, s2, s3, s1'⟩
  constructor
  · intro mesh
    obtain ⟨nx, mx, hx⟩ := hq mesh.rotation.x
    obtain ⟨ny, my, hy⟩ := hq mesh.rotation.y
    obtain ⟨nz, mz, hz⟩ := hq mesh.rotation.z
    exact ⟨nx, mx, ny, my, nz, mz, hx, hy, hz⟩
  · intro r
    have hd : (0 : ℝ) < (PI_2 : ℝ) := by
      have : (0 : ℚ) < PI_2 := by norm_num [PI_2]
      exact_mod_cast this
    obtain ⟨n, h1, h2⟩ := loop_add_terminates (-(PI_1 : ℝ)) (PI_2 : ℝ) hd r
    obtain ⟨m, h3, h4⟩ := loop_add_terminates (PI_1 : ℝ) (PI_2 : ℝ) hd
      (-(r + n * (PI_2 : ℝ)))
    refine ⟨n, m, h1, h2, ?_, ?_⟩
    · intro k hk
      have := h3 k hk
      linarith
    · intro hc
      apply h4
      linarith

/-! ## Line drawing: bounding box and connectivity -/

/-- Path shape of a finished run of the loop of `draw_line`.  With `rx` steps
left in x and `ry` steps left in y and the error term tied to them, every
pixel plotted lies between the current position and the end point, and
consecutive pixels are one `line_step` apart. -/
theorem draw_line_loop_path (dx dy sx sy x1 y1 : Int) (hdx : 0 ≤ dx) (hdy : 0 ≤ dy)
    (hsx : sx = 1 ∨ sx = -1) (hsy : sy = 1 ∨ sy = -1) (fuel : Nat) :
    ∀ (x y err rx ry : Int) (ps : List GPoint),
      x1 = x + sx * rx → y1 = y + sy * ry → 0 ≤ rx → rx ≤ dx → 0 ≤ ry → ry ≤ dy →
      err = dx - dy + rx * dy - ry * dx →
      draw_line_loop dx dy sx sy x1 y1 fuel x y err = some ps →
      (∀ p ∈ ps, ∃ i j : Int, 0 ≤ i ∧ i ≤ rx ∧ 0 ≤ j ∧ j ≤ ry ∧
        p.x = x1 - sx * i ∧ p.y = y1 - sy * j) ∧
      List.Chain' (line_step sx sy) ps ∧ ps.head? = some ⟨x, y⟩ := by
  induction fuel with
  | zero => intro x y err rx ry ps _ _ _ _ _ _ _ h; simp [draw_line_loop] at h
  | succ f ih =>
    intro x y err rx ry ps hx hy hrx0 hrx hry0 hry herr hrun
    unfold draw_line_loop at hrun
    by_cases hb : x = x1 ∧ y = y1
    · rw [if_pos hb] at hrun
      injection hrun with hrun
      subst hrun
      obtain ⟨hbx, hby⟩ := hb
      refine ⟨?_, List.chain'_singleton _, rfl⟩
      intro p hp
      simp only [List.mem_singleton] at hp
      subst hp
      exact ⟨0, 0, le_refl 0, hrx0, le_refl 0, hry0, by simp [hbx], by simp [hby]⟩
    · rw [if_neg hb] at hrun
      simp only [Option.map_eq_some'] at hrun
      obtain ⟨qs, hq, rfl⟩ := hrun
      -- a step in x needs a step left in x, likewise in y
      have hstepx : err * 2 > -dy → 1 ≤ rx := by
        intro hc
        by_contra hne
        have h0 : rx = 0 := by omega
        subst h0
        have hxe : x = x1 := by rw [hx]; ring
        have hry1 : 1 ≤ ry := by
          by_contra hne2
          have h00 : ry = 0 := by omega
          subst h00
          exact hb ⟨hxe, by rw [hy]; ring⟩
        have : 0 ≤ dx * (ry - 1) := mul_nonneg hdx (by omega)
        nlinarith
      have hstepy : err * 2 < dx → 1 ≤ ry := by
        intro hc
        by_contra hne
        have h0 : ry = 0 := by omega
        subst h0
        have hye : y = y1 := by rw [hy]; ring
        have hrx1 : 1 ≤ rx := by
          by_contra hne2
          have h00 : rx = 0 := by omega
          subst h00
          exact hb ⟨by rw [hx]; ring, hye⟩
        have : 0 ≤ dy * (rx - 1) := mul_nonneg hdy (by omega)
        nlinarith
      have hsome : err * 2 > -dy ∨ err * 2 < dx := by
        by_contra hn
        push_neg at hn
        obtain ⟨hn1, hn2⟩ := hn
        have hdx0 : dx = 0 := by omega
        have hdy0 : dy = 0 := by omega
        have h1 : rx = 0 := by omega
        have h2 : ry = 0 := by omega
        subst h1; subst h2
        exact hb ⟨by rw [hx]; ring, by rw [hy]; ring⟩
      have hsx0 : sx ≠ 0 := by rcases hsx with h | h <;> omega
      have hsy0 : sy ≠ 0 := by rcases hsy with h | h <;> omega
      by_cases c1 : err * 2 > -dy <;> by_cases c2 : err * 2 < dx
      · simp only [if_pos c1, if_pos c2] at hq
        obtain ⟨hmem, hchain, hhead⟩ := ih (x + sx) (y + sy) (err - dy + dx) (rx - 1) (ry - 1) qs
          (by rw [hx]; ring) (by rw [hy]; ring) (by have := hstepx c1; omega) (by omega)
          (by have := hstepy c2; omega) (by omega) (by rw [herr]; ring) hq
        refine ⟨?_, ?_, rfl⟩
        · intro p hp
          rcases List.mem_cons.mp hp with h | h
          · subst h
            exact ⟨rx, ry, hrx0, le_refl _, hry0, le_refl _, by simp only; rw [hx]; ring,
              by simp only; rw [hy]; ring⟩
          · obtain ⟨i, j, h1, h2, h3, h4, h5, h6⟩ := hmem p h
            exact ⟨i, j, h1, by omega, h3, by omega, h5, h6⟩
        · rw [List.chain'_cons']
          refine ⟨?_, hchain⟩
          intro q hqh
          rw [hhead] at hqh
          simp only [Option.mem_def, Option.some.injEq] at hqh
          subst hqh
          exact ⟨Or.inr rfl, Or.inr rfl, by simp only; omega⟩
      · simp only [if_pos c1, if_neg c2] at hq
        obtain ⟨hmem, hchain, hhead⟩ := ih (x + sx) y (err - dy) (rx - 1) ry qs
          (by rw [hx]; ring) hy (by have := hstepx c1; omega) (by omega)
          hry0 hry (by rw [herr]; ring) hq
        refine ⟨?_, ?_, rfl⟩
        · intro p hp
          rcases List.mem_cons.mp hp with h | h
          · subst h
            exact ⟨rx, ry, hrx0, le_refl _, hry0, le_refl _, by simp only; rw [hx]; ring,
              by simp only; rw [hy]; ring⟩
          · obtain ⟨i, j, h1, h2, h3, h4, h5, h6⟩ := hmem p h
            exact ⟨i, j, h1, by omega, h3, h4, h5, h6⟩
        · rw [List.chain'_cons']
          refine ⟨?_, hchain⟩
          intro q hqh
          rw [hhead] at hqh
          simp only [Option.mem_def, Option.some.injEq] at hqh
          subst hqh
          exact ⟨Or.inr rfl, Or.inl rfl, by simp only; omega⟩
      · simp only [if_neg c1, if_pos c2] at hq
        obtain ⟨hmem, hchain, hhead⟩ := ih x (y + sy) (err + dx) rx (ry - 1) qs
          hx (by rw [hy]; ring) hrx0 hrx (by have := hstepy c2; omega) (by omega)
          (by rw [herr]; ring) hq
        refine ⟨?_, ?_, rfl⟩
        · intro p hp
          rcases List.mem_cons.mp hp with h | h
          · subst h
            exact ⟨rx, ry, hrx0, le_refl _, hry0, le_refl _, by simp only; rw [hx]; ring,
              by simp only; rw [hy]; ring⟩
          · obtain ⟨i, j, h1, h2, h3, h4, h5, h6⟩ := hmem p h
            exact ⟨i, j, h1, h2, h3, by omega, h5, h6⟩
        · rw [List.chain'_cons']
          refine ⟨?_, hchain⟩
          intro q hqh
          rw [hhead] at hqh
          simp only [Option.mem_def, Option.some.injEq] at hqh
          subst hqh
          exact ⟨Or.inl rfl, Or.inr rfl, by simp only; omega⟩
      · exact absurd hsome (by push_neg; exact ⟨by omega, by omega⟩)

/-- Bounding box and connectedness on unbounded integers: `draw_line` never
leaves the bounding box of its end points and never jumps.  For all
`x0 y0 x1 y1` the pixel sequence plotted (with
`max(|x1-x0|,|y1-y0|) + 1` units of fuel or more) has every pixel `(x,y)` with
`min(x0,x1) ≤ x ≤ max(x0,x1)` and `min(y0,y1) ≤ y ≤ max(y0,y1)`, and each
pixel after the first differs from the one before by `0` or `sx` in x and by
`0` or `sy` in y, not both `0`. -/
theorem draw_line_box_connected (x0 y0 x1 y1 : Int) :
    ∃ ps : List GPoint,
      (∀ extra : Nat,
        draw_line ((max |x1 - x0| |y1 - y0|).toNat + 1 + extra) x0 y0 x1 y1 = some ps) ∧
      (∀ p ∈ ps, min x0 x1 ≤ p.x ∧ p.x ≤ max x0 x1 ∧ min y0 y1 ≤ p.y ∧ p.y ≤ max y0 y1) ∧
      List.Chain' (line_step (if x0 < x1 then 1 else -1) (if y0 < y1 then 1 else -1)) ps := by
  obtain ⟨ps, hrun, -⟩ := draw_line_run x0 y0 x1 y1
  have hsx : (if x0 < x1 then (1 : Int) else -1) = 1 ∨ (if x0 < x1 then (1 : Int) else -1) = -1 := by
    split <;> simp
  have hsy : (if y0 < y1 then (1 : Int) else -1) = 1 ∨ (if y0 < y1 then (1 : Int) else -1) = -1 := by
    split <;> simp
  have hx1 : x1 = x0 + (if x0 < x1 then (1 : Int) else -1) * abs (x1 - x0) := by
    unfold abs; split <;> split <;> omega
  have hy1 : y1 = y0 + (if y0 < y1 then (1 : Int) else -1) * abs (y1 - y0) := by
    unfold abs; split <;> split <;> omega
  have hdx0 : 0 ≤ abs (x1 - x0) := by unfold abs; split <;> omega
  have hdy0 : 0 ≤ abs (y1 - y0) := by unfold abs; split <;> omega
  have h0 := hrun 0
  obtain ⟨hmem, hchain, -⟩ := draw_line_loop_path (abs (x1 - x0)) (abs (y1 - y0))
    (if x0 < x1 then 1 else -1) (if y0 < y1 then 1 else -1) x1 y1 hdx0 hdy0 hsx hsy
    (line_steps x0 y0 x1 y1 + 1 + 0) x0 y0 (abs (x1 - x0) - abs (y1 - y0))
    (abs (x1 - x0)) (abs (y1 - y0)) ps hx1 hy1 hdx0 (le_refl _) hdy0 (le_refl _)
    (by ring) h0
  simp only [line_steps, abs_eq_abs] at hrun
  refine ⟨ps, hrun, ?_, hchain⟩
  intro p hp
  obtain ⟨i, j, hi0, hi, hj0, hj, hpx, hpy⟩ := hmem p hp
  rw [hpx, hpy]
  unfold abs at hi hj
  refine ⟨?_, ?_, ?_, ?_⟩
  · split at hi <;> split <;> simp only [min_def] <;> split <;> omega
  · split at hi <;> split <;> simp only [max_def] <;> split <;> omega
  · split at hj <;> split <;> simp only [min_def] <;> split <;> omega
  · split at hj <;> split <;> simp only [max_def] <;> split <;> omega

/-! ## The view matrix and the line of sight -/

/-- C20: the view matrix puts the line of sight on the view axis.  For every
`eye`, `target` and `up` for which the three lengths normalised in
`look_at_LH_to_ref` are nonzero, with `sqrt_fast` any function, and every
`t`, `transform_coords` applied to the point `eye + t * (target - eye)` with
the matrix built by `look_at_LH_to_ref` yields `(0, 0)`; in particular the
eye and the target map to `(0, 0)`. -/
theorem look_at_line_of_sight (sqrt_fast : ℚ → ℚ) (eye target up : Vector) (t : ℚ)
    (_hz : length sqrt_fast (substract_to_ref target eye) ≠ 0)
    (_hx : length sqrt_fast
      (cross_to_ref up (normalize sqrt_fast (substract_to_ref target eye))) ≠ 0)
    (_hy : length sqrt_fast
      (cross_to_ref (normalize sqrt_fast (substract_to_ref target eye))
        (normalize sqrt_fast
          (cross_to_ref up (normalize sqrt_fast (substract_to_ref target eye))))) ≠ 0) :
    transform_coords
      ⟨eye.x + t * (target.x - eye.x), eye.y + t * (target.y - eye.y),
        eye.z + t * (target.z - eye.z)⟩
      (look_at_LH_to_ref sqrt_fast eye target up) = ⟨0, 0⟩ ∧
    transform_coords eye (look_at_LH_to_ref sqrt_fast eye target up) = ⟨0, 0⟩ ∧
    transform_coords target (look_at_LH_to_ref sqrt_fast eye target up) = ⟨0, 0⟩ := by
  have key : ∀ s : ℚ, transform_coords
      ⟨eye.x + s * (target.x - eye.x), eye.y + s * (target.y - eye.y),
        eye.z + s * (target.z - eye.z)⟩
      (look_at_LH_to_ref sqrt_fast eye target up) = ⟨0, 0⟩ := by
    intro s
    simp only [transform_coords, look_at_LH_to_ref, normalize, length, cross_to_ref,
      substract_to_ref, dot_product, Vector2.mk.injEq]
    constructor
    · rw [div_eq_zero_iff]; left; ring
    · rw [div_eq_zero_iff]; left; ring
  refine ⟨key t, ?_, ?_⟩
  · have h0 := key 0
    simp only [zero_mul, add_zero] at h0
    exact h0
  · have h1 := key 1
    have e : (⟨eye.x + 1 * (target.x - eye.x), eye.y + 1 * (target.y - eye.y),
        eye.z + 1 * (target.z - eye.z)⟩ : Vector) = target := by
      cases target
      simp
    rw [e] at h1
    exact h1

/-- Witness of `look_at_line_of_sight`: the camera of `three_dee.c` at
`(0,0,15)` looking at the origin, `sqrt_fast` constantly `1`, `t = 1/2`. -/
theorem look_at_line_of_sight_witness :
    transform_coords
      ⟨0 + 1 / 2 * (0 - 0), 0 + 1 / 2 * (0 - 0), 15 + 1 / 2 * (0 - 15)⟩
      (look_at_LH_to_ref (fun _ => 1) ⟨0, 0, 15⟩ ⟨0, 0, 0⟩ up_vector) = ⟨0, 0⟩ ∧
    transform_coords ⟨0, 0, 15⟩
      (look_at_LH_to_ref (fun _ => 1) ⟨0, 0, 15⟩ ⟨0, 0, 0⟩ up_vector) = ⟨0, 0⟩ ∧
    transform_coords ⟨0, 0, 0⟩
      (look_at_LH_to_ref (fun _ => 1) ⟨0, 0, 15⟩ ⟨0, 0, 0⟩ up_vector) = ⟨0, 0⟩ :=
  look_at_line_of_sight (fun _ => 1) ⟨0, 0, 15⟩ ⟨0, 0, 0⟩ up_vector (1 / 2)
    (by simp [length]) (by simp [length]) (by simp [length])

/-! ## End points passed to `draw_line` -/

/-- The conversion to `uint8_t` is the truncation toward zero when the
truncated value lies in `0..255`, and is undefined otherwise. -/
theorem float_to_uint8_eq (q : ℚ) :
    float_to_uint8 q =
      if 0 ≤ truncate_toward_zero q ∧ truncate_toward_zero q ≤ 255
      then some (truncate_toward_zero q) else none := rfl

/-- The face loop body draws the three lines between the end points of
`draw_mesh_face_endpoints`. -/
theorem draw_mesh_face_eq (fuel : Nat) (mesh : Mesh) (i : Nat) (pixels : List GPoint) :
    draw_mesh_face fuel mesh i pixels =
      (draw_mesh_face_endpoints mesh i >>= fun e =>
        draw_line fuel e.1 e.2.1 e.2.2.1 e.2.2.2.1 >>= fun ab =>
          draw_line fuel e.1 e.2.1 e.2.2.2.2.1 e.2.2.2.2.2 >>= fun ac =>
            draw_line fuel e.2.2.1 e.2.2.2.1 e.2.2.2.2.1 e.2.2.2.2.2 >>= fun bc =>
              pure (pixels ++ ab ++ ac ++ bc)) := by
  simp only [draw_mesh_face, draw_mesh_face_endpoints, bind_assoc, pure_bind]

/-- C14, as stated, fails for `offscreen_mesh` (position `(2,0,0)`, three
vertices at its origin, face `(0,1,2)`) with identity view and projection
matrices and the viewport `144 x 168`: the vertex loop stores `(360, 84)` in
`proj[0]`, `proj[1]`, `proj[2]`; the truncation of `360` is `360`, which no
`uint8_t` holds, so no call of `draw_line` receives it: the conversion is
undefined and `draw_mesh` has no defined result. -/
theorem draw_mesh_endpoint_outside_uint8 :
    (∃ s : Mesh × Mem MatrixPtr,
      (List.range 3).foldlM (fun s i => draw_mesh_vertex
        MatrixPtr.viewMatrix MatrixPtr.projectionMatrix 144 168 MatrixPtr.worldMatrix
        MatrixPtr.translateMatrix MatrixPtr.transformMatrix i s)
        (fix_mesh_rotation offscreen_mesh, fun _ => identity_matrix) = some s ∧
      s.1.faces = [⟨0, 1, 2⟩] ∧
      s.1.proj = [⟨360, 84⟩, ⟨360, 84⟩, ⟨360, 84⟩] ∧
      draw_mesh_face_endpoints s.1 0 = none) ∧
    truncate_toward_zero 360 = 360 ∧
    ∀ fuel : Nat,
      draw_mesh fuel offscreen_mesh
        MatrixPtr.viewMatrix MatrixPtr.projectionMatrix 144 168
        MatrixPtr.worldMatrix MatrixPtr.translateMatrix MatrixPtr.transformMatrix
        (fun _ => identity_matrix) = none := by
  have ht : truncate_toward_zero 360 = 360 := by
    simp only [truncate_toward_zero]
    norm_num [Int.floor_eq_iff]
  have hu : float_to_uint8 360 = none := by
    rw [float_to_uint8_eq, ht]
    decide
  obtain ⟨fpos, -, -, -, ffaces, -⟩ := fix_mesh_rotation_frame offscreen_mesh
  obtain ⟨e1, e2, -, e4⟩ := draw_mesh_transform_row4
    (fix_mesh_rotation offscreen_mesh) identity_matrix identity_matrix
  have h41 : (draw_mesh_transform (fix_mesh_rotation offscreen_mesh)
      identity_matrix identity_matrix).m41 = 2 := by
    rw [e1, fpos]; norm_num [identity_matrix, offscreen_mesh]
  have h42 : (draw_mesh_transform (fix_mesh_rotation offscreen_mesh)
      identity_matrix identity_matrix).m42 = 0 := by
    rw [e2, fpos]; norm_num [identity_matrix, offscreen_mesh]
  have h44 : (draw_mesh_transform (fix_mesh_rotation offscreen_mesh)
      identity_matrix identity_matrix).m44 = 1 := by
    rw [e4, fpos]; norm_num [identity_matrix, offscreen_mesh]
  have hproj : draw_mesh_project
      (draw_mesh_transform (fix_mesh_rotation offscreen_mesh)
        identity_matrix identity_matrix) 144 168 ⟨0, 0, 0⟩ = ⟨360, 84⟩ := by
    simp only [draw_mesh_project, transform_coords_origin, h41, h42, h44]
    norm_num
  have hends : ∀ m : Mesh, m.faces = [⟨0, 1, 2⟩] →
      m.proj = [⟨360, 84⟩, ⟨360, 84⟩, ⟨360, 84⟩] → draw_mesh_face_endpoints m 0 = none := by
    intro m hf hp
    simp [draw_mesh_face_endpoints, hf, hp, hu]
  have hmap : offscreen_mesh.vertices.map (draw_mesh_project
      (draw_mesh_transform (fix_mesh_rotation offscreen_mesh)
        identity_matrix identity_matrix) 144 168)
      = [⟨360, 84⟩, ⟨360, 84⟩, ⟨360, 84⟩] := by
    simp only [offscreen_mesh, List.map_cons, List.map_nil]
    rw [show fix_mesh_rotation
        { position := ⟨2, 0, 0⟩, rotation := ⟨0, 0, 0⟩, num_vertices := 3,
          vertices := [⟨0, 0, 0⟩, ⟨0, 0, 0⟩, ⟨0, 0, 0⟩], num_faces := 1,
          faces := [⟨0, 1, 2⟩], proj := [⟨0, 0⟩, ⟨0, 0⟩, ⟨0, 0⟩] }
        = fix_mesh_rotation offscreen_mesh from rfl, hproj]
  refine ⟨?_, ht, ?_⟩
  · obtain ⟨s, hs, hs1⟩ := draw_mesh_vertex_loop_well_formed
      offscreen_mesh 144 168 (fun _ => identity_matrix) rfl rfl
    have hf : s.1.faces = [⟨0, 1, 2⟩] := by rw [hs1]; exact ffaces
    have hp : s.1.proj = [⟨360, 84⟩, ⟨360, 84⟩, ⟨360, 84⟩] := by
      rw [hs1]; exact hmap
    exact ⟨s, hs, hf, hp, hends s.1 hf hp⟩
  · intro fuel
    obtain ⟨τ, hτ⟩ := draw_mesh_well_formed fuel
      offscreen_mesh 144 168 (fun _ => identity_matrix) rfl rfl
    rw [hτ]
    have hr1 : List.range offscreen_mesh.num_faces = [0] := rfl
    have he := hends
      { fix_mesh_rotation offscreen_mesh with
        proj := offscreen_mesh.vertices.map (draw_mesh_project
          (draw_mesh_transform (fix_mesh_rotation offscreen_mesh)
            identity_matrix identity_matrix) 144 168) } ffaces hmap
    simp only [hr1, List.foldlM_cons, List.foldlM_nil, draw_mesh_face_eq]
    rw [he]
    rfl

/-- The truncation of `q` lies in the range `0..255` of `uint8_t` exactly
when `-1 < q < 256`. -/
theorem truncate_in_uint8_iff (q : ℚ) :
    (0 ≤ truncate_toward_zero q ∧ truncate_toward_zero q ≤ 255) ↔ (-1 < q ∧ q < 256) := by
  unfold truncate_toward_zero
  by_cases hq : q < 0
  · rw [if_pos hq]
    have h0 : 0 ≤ ⌊-q⌋ := Int.floor_nonneg.mpr (by linarith)
    constructor
    · rintro ⟨h1, -⟩
      have h2 : ⌊-q⌋ < 1 := by omega
      have h3 : -q < 1 := by
        have := Int.floor_lt.mp h2
        simpa using this
      exact ⟨by linarith, by linarith⟩
    · rintro ⟨h1, -⟩
      have h2 : ⌊-q⌋ < 1 := Int.floor_lt.mpr (by push_cast; linarith)
      exact ⟨by omega, by omega⟩
  · rw [if_neg hq]
    have h0 : 0 ≤ ⌊q⌋ := Int.floor_nonneg.mpr (not_lt.mp hq)
    constructor
    · rintro ⟨-, h1⟩
      have h2 : ⌊q⌋ < 256 := by omega
      have h3 : q < 256 := by
        have := Int.floor_lt.mp h2
        simpa using this
      exact ⟨by linarith [not_lt.mp hq], h3⟩
    · rintro ⟨-, h1⟩
      have h2 : ⌊q⌋ < 256 := Int.floor_lt.mpr (by push_cast; linarith)
      exact ⟨h0, by omega⟩

/-- C14, amended: for every mesh and face `(a,b,c)` with `proj[a]`, `proj[b]`,
`proj[c]` in the buffer, when the six projected coordinates truncate into
`0..255` (each lies strictly between `-1` and `256`), the end points that
`draw_mesh` passes to `draw_line` are these coordinates truncated toward
zero, and the three lines a-b, a-c, b-c are drawn between them; when one of
them does not, the conversion to `uint8_t` is undefined and no line is drawn
with the truncated value. -/
theorem draw_mesh_face_endpoints_truncated (mesh : Mesh) (i : Nat) (face : Triangle)
    (pa pb pc : Vector2)
    (hf : mesh.faces[i]? = some face) (ha : mesh.proj[face.a]? = some pa)
    (hb : mesh.proj[face.b]? = some pb) (hc : mesh.proj[face.c]? = some pc) :
    ((∀ q ∈ [pa.x, pa.y, pb.x, pb.y, pc.x, pc.y], -1 < q ∧ q < 256) →
      draw_mesh_face_endpoints mesh i =
        some (truncate_toward_zero pa.x, truncate_toward_zero pa.y,
          truncate_toward_zero pb.x, truncate_toward_zero pb.y,
          truncate_toward_zero pc.x, truncate_toward_zero pc.y) ∧
      ∀ (fuel : Nat) (pixels : List GPoint),
        draw_mesh_face fuel mesh i pixels =
          (draw_line fuel (truncate_toward_zero pa.x) (truncate_toward_zero pa.y)
              (truncate_toward_zero pb.x) (truncate_toward_zero pb.y) >>= fun ab =>
            draw_line fuel (truncate_toward_zero pa.x) (truncate_toward_zero pa.y)
                (truncate_toward_zero pc.x) (truncate_toward_zero pc.y) >>= fun ac =>
              draw_line fuel (truncate_toward_zero pb.x) (truncate_toward_zero pb.y)
                  (truncate_toward_zero pc.x) (truncate_toward_zero pc.y) >>= fun bc =>
                pure (pixels ++ ab ++ ac ++ bc))) ∧
    (¬ (∀ q ∈ [pa.x, pa.y, pb.x, pb.y, pc.x, pc.y], -1 < q ∧ q < 256) →
      draw_mesh_face_endpoints mesh i = none ∧
      ∀ (fuel : Nat) (pixels : List GPoint), draw_mesh_face fuel mesh i pixels = none) := by
  have hu : ∀ q : ℚ, float_to_uint8 q =
      if -1 < q ∧ q < 256 then some (truncate_toward_zero q) else none := by
    intro q
    rw [float_to_uint8_eq]
    by_cases h : -1 < q ∧ q < 256
    · rw [if_pos h, if_pos ((truncate_in_uint8_iff q).mpr h)]
    · rw [if_neg h, if_neg (fun h' => h ((truncate_in_uint8_iff q).mp h'))]
  have hends : draw_mesh_face_endpoints mesh i =
      (float_to_uint8 pa.x >>= fun ax => float_to_uint8 pa.y >>= fun ay =>
        float_to_uint8 pb.x >>= fun bx => float_to_uint8 pb.y >>= fun by_ =>
          float_to_uint8 pc.x >>= fun cx => float_to_uint8 pc.y >>= fun cy =>
            pure (ax, ay, bx, by_, cx, cy)) := by
    have hf' : mesh.faces[i]? = (pure face : Option Triangle) := hf
    have ha' : mesh.proj[face.a]? = (pure pa : Option Vector2) := ha
    have hb' : mesh.proj[face.b]? = (pure pb : Option Vector2) := hb
    have hc' : mesh.proj[face.c]? = (pure pc : Option Vector2) := hc
    simp only [draw_mesh_face_endpoints, hf', pure_bind, ha', hb', hc']
  constructor
  · intro hr
    simp only [List.mem_cons, List.mem_singleton, List.not_mem_nil, or_false,
      forall_eq_or_imp, forall_eq] at hr
    obtain ⟨h1, h2, h3, h4, h5, h6⟩ := hr
    have he : draw_mesh_face_endpoints mesh i =
        some (truncate_toward_zero pa.x, truncate_toward_zero pa.y,
          truncate_toward_zero pb.x, truncate_toward_zero pb.y,
          truncate_toward_zero pc.x, truncate_toward_zero pc.y) := by
      rw [hends, hu, hu, hu, hu, hu, hu, if_pos h1, if_pos h2, if_pos h3, if_pos h4,
        if_pos h5, if_pos h6]
      rfl
    refine ⟨he, ?_⟩
    intro fuel pixels
    rw [draw_mesh_face_eq, he]
    rfl
  · intro hr
    have he : draw_mesh_face_endpoints mesh i = none := by
      rw [hends, hu, hu, hu, hu, hu, hu]
      simp only [List.mem_cons, List.mem_singleton, List.not_mem_nil, or_false,
        forall_eq_or_imp, forall_eq] at hr
      by_cases h1 : -1 < pa.x ∧ pa.x < 256
      · by_cases h2 : -1 < pa.y ∧ pa.y < 256
        · by_cases h3 : -1 < pb.x ∧ pb.x < 256
          · by_cases h4 : -1 < pb.y ∧ pb.y < 256
            · by_cases h5 : -1 < pc.x ∧ pc.x < 256
              · have h6 : ¬ (-1 < pc.y ∧ pc.y < 256) := fun h6 => hr ⟨h1, h2, h3, h4, h5, h6⟩
                rw [if_pos h1, if_pos h2, if_pos h3, if_pos h4, if_pos h5, if_neg h6]
                rfl
              · rw [if_pos h1, if_pos h2, if_pos h3, if_pos h4, if_neg h5]
                rfl
            · rw [if_pos h1, if_pos h2, if_pos h3, if_neg h4]
              rfl
          · rw [if_pos h1, if_pos h2, if_neg h3]
            rfl
        · rw [if_pos h1, if_neg h2]
          rfl
      · rw [if_neg h1]
        rfl
    refine ⟨he, ?_⟩
    intro fuel pixels
    rw [draw_mesh_face_eq, he]
    rfl

/-- Witness of `draw_mesh_face_endpoints_truncated`: the face `(0,1,2)` with
projected vertices `(10.7, 20.2)`, `(30.9, 40)` and `(-0.5, 255.9)` has the
end points `(10, 20)`, `(30, 40)` and `(0, 255)`. -/
theorem draw_mesh_face_endpoints_truncated_witness :
    draw_mesh_face_endpoints
      ⟨⟨0, 0, 0⟩, ⟨0, 0, 0⟩, 3, [⟨0, 0, 0⟩, ⟨1, 0, 0⟩, ⟨0, 1, 0⟩], 1, [⟨0, 1, 2⟩],
        [⟨10.7, 20.2⟩, ⟨30.9, 40⟩, ⟨-0.5, 255.9⟩]⟩ 0 =
      some (truncate_toward_zero 10.7, truncate_toward_zero 20.2,
        truncate_toward_zero 30.9, truncate_toward_zero 40,
        truncate_toward_zero (-0.5), truncate_toward_zero 255.9) ∧
    truncate_toward_zero 10.7 = 10 ∧ truncate_toward_zero (-0.5) = 0 ∧
    truncate_toward_zero 255.9 = 255 :=
  ⟨((draw_mesh_face_endpoints_truncated
      ⟨⟨0, 0, 0⟩, ⟨0, 0, 0⟩, 3, [⟨0, 0, 0⟩, ⟨1, 0, 0⟩, ⟨0, 1, 0⟩], 1, [⟨0, 1, 2⟩],
        [⟨10.7, 20.2⟩, ⟨30.9, 40⟩, ⟨-0.5, 255.9⟩]⟩ 0 ⟨0, 1, 2⟩
      ⟨10.7, 20.2⟩ ⟨30.9, 40⟩ ⟨-0.5, 255.9⟩ rfl rfl rfl rfl).1
      (by
        intro q hq
        simp only [List.mem_cons, List.mem_singleton, List.not_mem_nil, or_false] at hq
        rcases hq with h | h | h | h | h | h <;> subst h <;> norm_num)).1,
    by simp only [truncate_toward_zero]; norm_num [Int.floor_eq_iff],
    by simp only [truncate_toward_zero]; norm_num [Int.floor_eq_iff],
    by simp only [truncate_toward_zero]; norm_num [Int.floor_eq_iff]⟩

/-! ## `sin_fast` is odd -/

/-- The parabola and its correction are odd. -/
theorem sin_core_neg (y : ℚ) : sin_core (-y) = -sin_core y := by
  simp only [sin_core, abs_neg, neg_mul]

/-- The range reduction leaves an angle of `[-PI_1, PI_1]` as it is. -/
theorem sin_fast_reduce_of_mem (x : ℚ) (h1 : -PI_1 ≤ x) (h2 : x ≤ PI_1) :
    sin_fast_reduce x = x := by
  simp only [sin_fast_reduce]
  rw [if_neg (not_lt.mpr h1), if_neg (not_lt.mpr h2)]

/-- With exact operations the code in machine arithmetic is `sin_fast`. -/
theorem sin_fast_rounded_exact (x : ℚ) : sin_fast_rounded id id x = sin_fast x :=
  rfl

/-- A rounding that commutes with negation keeps zero. -/
theorem round_zero_of_odd (r : ℚ → ℚ) (hr : ∀ q, r (-q) = -r q) : r 0 = 0 := by
  have h := hr 0
  rw [neg_zero] at h
  linarith

/-- The correction step of `sin_fast` (lines 49-52 and 56-59) in machine
arithmetic commutes with negation. -/
theorem sin_fast_rounded_correction (rd rf : ℚ → ℚ) (hrd : ∀ q, rd (-q) = -rd q)
    (hrf : ∀ q, rf (-q) = -rf q) (s : ℚ) :
    (if -s < 0 then rf (rd (rd (rd 0.225 * rf (rf (-s * - -s) - -s)) + -s))
      else rf (rd (rd (rd 0.225 * rf (rf (-s * -s) - -s)) + -s))) =
    -(if s < 0 then rf (rd (rd (rd 0.225 * rf (rf (s * -s) - s)) + s))
      else rf (rd (rd (rd 0.225 * rf (rf (s * s) - s)) + s))) := by
  have hrd0 := round_zero_of_odd rd hrd
  have hrf0 := round_zero_of_odd rf hrf
  have hsub : ∀ a b : ℚ, -a - -b = -(a - b) := fun a b => by ring
  have hadd : ∀ a b : ℚ, -a + -b = -(a + b) := fun a b => by ring
  rcases lt_trichotomy s 0 with h | h | h
  · rw [if_neg (by linarith), if_pos h, neg_mul_neg, mul_neg s s, hrf,
      show ∀ a b : ℚ, -a - b = -(a - -b) from fun a b => by ring, hrf, mul_neg, hrd,
      show ∀ a b : ℚ, -a + b = -(a + -b) from fun a b => by ring, hrd, hrf, neg_neg]
  · subst h
    simp only [neg_zero, lt_irrefl, if_false, mul_zero, sub_zero, add_zero, hrf0, hrd0]
  · rw [if_pos (by linarith), if_neg (by linarith), neg_neg, neg_mul]
    rw [hrf, hsub, hrf, mul_neg, hrd, hadd, hrd, hrf]

/-- The code in machine arithmetic returns zero at zero. -/
theorem sin_fast_rounded_zero (rd rf : ℚ → ℚ) (hrd : ∀ q, rd (-q) = -rd q)
    (hrf : ∀ q, rf (-q) = -rf q) (hpi : 0 ≤ rd PI_1) : sin_fast_rounded rd rf 0 = 0 := by
  have hrd0 := round_zero_of_odd rd hrd
  have hrf0 := round_zero_of_odd rf hrf
  have e1 : ¬ ((0 : ℚ) < -rd PI_1) := by linarith
  have e2 : ¬ ((0 : ℚ) > rd PI_1) := by simp only [gt_iff_lt]; linarith
  simp only [sin_fast_rounded, if_neg e1, if_neg e2, lt_irrefl, if_false, mul_zero, sub_zero,
    add_zero, hrd0, hrf0]

/-- The code in machine arithmetic is odd at a positive angle of the range. -/
theorem sin_fast_rounded_neg_of_pos (rd rf : ℚ → ℚ) (hrd : ∀ q, rd (-q) = -rd q)
    (hrf : ∀ q, rf (-q) = -rf q) (x : ℚ) (h0 : 0 < x) (h2 : x ≤ rd PI_1) :
    sin_fast_rounded rd rf (-x) = -sin_fast_rounded rd rf x := by
  have e1 : ¬ (-x < -rd PI_1) := by linarith
  have e2 : ¬ (-x > rd PI_1) := by simp only [gt_iff_lt]; linarith
  have e3 : ¬ (x < -rd PI_1) := by linarith
  have e4 : ¬ (x > rd PI_1) := by simp only [gt_iff_lt]; linarith
  have e5 : -x < 0 := by linarith
  have e6 : ¬ (x < 0) := by linarith
  have hs : rf (rd (rd (rd 1.2732395 * -x) + rd (rd (rd 0.40528473 * -x) * -x))) =
      -rf (rd (rd (rd 1.2732395 * x) - rd (rd (rd 0.40528473 * x) * x))) := by
    simp only [mul_neg, neg_mul, hrd, neg_neg]
    rw [show ∀ a b : ℚ, -a + b = -(a - b) from fun a b => by ring, hrd, hrf]
  simp only [sin_fast_rounded, if_neg e1, if_neg e2, if_neg e3, if_neg e4, if_pos e5, if_neg e6]
  rw [hs]
  exact sin_fast_rounded_correction rd rf hrd hrf _

/-- The code in machine arithmetic is odd on the range of `sin_fast`. -/
theorem sin_fast_rounded_neg (rd rf : ℚ → ℚ) (hrd : ∀ q, rd (-q) = -rd q)
    (hrf : ∀ q, rf (-q) = -rf q) (x : ℚ) (h1 : -rd PI_1 ≤ x) (h2 : x ≤ rd PI_1) :
    sin_fast_rounded rd rf (-x) = -sin_fast_rounded rd rf x := by
  rcases lt_trichotomy x 0 with h | h | h
  · have := sin_fast_rounded_neg_of_pos rd rf hrd hrf (-x) (by linarith) (by linarith)
    rw [neg_neg] at this
    rw [this, neg_neg]
  · subst h
    rw [neg_zero, sin_fast_rounded_zero rd rf hrd hrf (by linarith), neg_zero]
  · exact sin_fast_rounded_neg_of_pos rd rf hrd hrf x h h2

/-! ## Rounding to nearest -/

/-- The binary exponent of a positive rational, from its bracket by powers of two. -/
theorem int_log_two_eq (r : ℚ) (z : ℤ) (h1 : (2 : ℚ) ^ z ≤ r) (h2 : r < (2 : ℚ) ^ (z + 1)) :
    Int.log 2 r = z := by
  have hr : 0 < r := lt_of_lt_of_le (zpow_pos (by norm_num) z) h1
  have a : z ≤ Int.log 2 r := by
    apply (Int.zpow_le_iff_le_log (by norm_num) hr).mp
    rw [Nat.cast_ofNat]
    exact h1
  have b : Int.log 2 r < z + 1 := by
    apply (Int.lt_zpow_iff_log_lt (by norm_num) hr).mp
    rw [Nat.cast_ofNat]
    exact h2
  omega

/-- The rounding of zero is zero. -/
theorem round_magnitude_zero (p : Nat) (emin : Int) : round_magnitude p emin 0 = 0 := by
  simp [round_magnitude]

/-- Rounding to nearest, ties to even, commutes with negation. -/
theorem round_nearest_even_neg (p : Nat) (emin : Int) (q : ℚ) :
    round_nearest_even p emin (-q) = -round_nearest_even p emin q := by
  simp only [round_nearest_even]
  rcases lt_trichotomy q 0 with h | h | h
  · rw [if_neg (by linarith), if_pos h, neg_neg]
  · subst h
    simp only [neg_zero, lt_irrefl, if_false, round_magnitude_zero]
  · rw [if_pos (by linarith), if_neg (by linarith), neg_neg]

/-- The `double` nearest to the decimal `3.14159265`. -/
theorem round_double_PI_1 : round_double PI_1 = 7074237743944945 / 2251799813685248 := by
  have hl : Int.log 2 (3.14159265 : ℚ) = 1 := int_log_two_eq _ _ (by norm_num) (by norm_num)
  simp only [round_double, round_nearest_even, round_magnitude, PI_1]
  rw [if_neg (by norm_num : ¬ _ < (0 : ℚ)), hl]
  norm_num

/-- The `float` nearest to `0.1`, `0x3DCCCCCD`. -/
theorem round_float_tenth : round_float 0.1 = 13421773 / 134217728 := by
  have hl : Int.log 2 (0.1 : ℚ) = -4 := int_log_two_eq _ _ (by norm_num) (by norm_num)
  simp only [round_float, round_nearest_even, round_magnitude]
  rw [if_neg (by norm_num : ¬ _ < (0 : ℚ)), hl]
  norm_num

/-- A tie between two `float`s goes to the even significand. -/
theorem round_float_tie : round_float 16777217 = 16777216 ∧ round_float 16777219 = 16777220 := by
  have hl : Int.log 2 (16777217 : ℚ) = 24 := int_log_two_eq _ _ (by norm_num) (by norm_num)
  have hl2 : Int.log 2 (16777219 : ℚ) = 24 := int_log_two_eq _ _ (by norm_num) (by norm_num)
  simp only [round_float, round_nearest_even, round_magnitude]
  rw [if_neg (show ¬ ((16777217 : ℚ) < 0) by norm_num),
    if_neg (show ¬ ((16777219 : ℚ) < 0) by norm_num), hl, hl2]
  norm_num

/-- Below `2^-126` the `float`s are the multiples of `2^-149`. -/
theorem round_float_subnormal : round_float (3 / 2 ^ 150) = 1 / 2 ^ 148 := by
  have hl : Int.log 2 (3 / 2 ^ 150 : ℚ) = -149 := int_log_two_eq _ _ (by norm_num) (by norm_num)
  simp only [round_float, round_nearest_even, round_magnitude]
  rw [if_neg (by norm_num : ¬ _ < (0 : ℚ)), hl]
  norm_num

/-! ## A run of the code in IEEE 754 arithmetic -/

/-- At `x = 1` the code in IEEE 754 arithmetic returns the `float`
`14129229 / 2^24`, in hexadecimal `0x1.af309ap-1`: the roundings are followed
one operation at a time. -/
theorem sin_fast_rounded_one :
    sin_fast_rounded round_double round_float 1 = 14129229 / 16777216 := by
  have hc1 : round_double (1.2732395 : ℚ) = (5734160937753397 / 4503599627370496 : ℚ) := by
    have hl : Int.log 2 (1.2732395 : ℚ) = 0 :=
      int_log_two_eq _ _ (by norm_num) (by norm_num)
    simp only [round_double, round_nearest_even, round_magnitude]
    rw [if_neg (by norm_num : ¬ _ < (0 : ℚ)), hl]
    norm_num
  have hc2 : round_double (0.40528473 : ℚ) = (228155019875869 / 562949953421312 : ℚ) := by
    have hl : Int.log 2 (0.40528473 : ℚ) = -2 :=
      int_log_two_eq _ _ (by norm_num) (by norm_num)
    simp only [round_double, round_nearest_even, round_magnitude]
    rw [if_neg (by norm_num : ¬ _ < (0 : ℚ)), hl]
    norm_num
  have hc3 : round_double (0.225 : ℚ) = (8106479329266893 / 36028797018963968 : ℚ) := by
    have hl : Int.log 2 (0.225 : ℚ) = -3 :=
      int_log_two_eq _ _ (by norm_num) (by norm_num)
    simp only [round_double, round_nearest_even, round_magnitude]
    rw [if_neg (by norm_num : ¬ _ < (0 : ℚ)), hl]
    norm_num
  have ha : round_double ((5734160937753397 / 4503599627370496 : ℚ) * (1 : ℚ)) =
      (5734160937753397 / 4503599627370496 : ℚ) := by
    have hl : Int.log 2 ((5734160937753397 / 4503599627370496 : ℚ) * (1 : ℚ)) = 0 :=
      int_log_two_eq _ _ (by norm_num) (by norm_num)
    simp only [round_double, round_nearest_even, round_magnitude]
    rw [if_neg (by norm_num : ¬ _ < (0 : ℚ)), hl]
    norm_num
  have hb1 : round_double ((228155019875869 / 562949953421312 : ℚ) * (1 : ℚ)) =
      (228155019875869 / 562949953421312 : ℚ) := by
    have hl : Int.log 2 ((228155019875869 / 562949953421312 : ℚ) * (1 : ℚ)) = -2 :=
      int_log_two_eq _ _ (by norm_num) (by norm_num)
    simp only [round_double, round_nearest_even, round_magnitude]
    rw [if_neg (by norm_num : ¬ _ < (0 : ℚ)), hl]
    norm_num
  have hb : round_double ((228155019875869 / 562949953421312 : ℚ) * (1 : ℚ)) =
      (228155019875869 / 562949953421312 : ℚ) := by
    have hl : Int.log 2 ((228155019875869 / 562949953421312 : ℚ) * (1 : ℚ)) = -2 :=
      int_log_two_eq _ _ (by norm_num) (by norm_num)
    simp only [round_double, round_nearest_even, round_magnitude]
    rw [if_neg (by norm_num : ¬ _ < (0 : ℚ)), hl]
    norm_num
  have hd : round_double ((5734160937753397 / 4503599627370496 : ℚ) -
      (228155019875869 / 562949953421312 : ℚ)) =
      (3908920778746445 / 4503599627370496 : ℚ) := by
    have hl : Int.log 2 ((5734160937753397 / 4503599627370496 : ℚ) -
      (228155019875869 / 562949953421312 : ℚ)) =
      -1 :=
      int_log_two_eq _ _ (by norm_num) (by norm_num)
    simp only [round_double, round_nearest_even, round_magnitude]
    rw [if_neg (by norm_num : ¬ _ < (0 : ℚ)), hl]
    norm_num
  have hs : round_float (3908920778746445 / 4503599627370496 : ℚ) =
      (14561865 / 16777216 : ℚ) := by
    have hl : Int.log 2 (3908920778746445 / 4503599627370496 : ℚ) = -1 :=
      int_log_two_eq _ _ (by norm_num) (by norm_num)
    simp only [round_float, round_nearest_even, round_magnitude]
    rw [if_neg (by norm_num : ¬ _ < (0 : ℚ)), hl]
    norm_num
  have ht1 : round_float ((14561865 / 16777216 : ℚ) * (14561865 / 16777216 : ℚ)) =
      (197485 / 262144 : ℚ) := by
    have hl : Int.log 2 ((14561865 / 16777216 : ℚ) * (14561865 / 16777216 : ℚ)) = -1 :=
      int_log_two_eq _ _ (by norm_num) (by norm_num)
    simp only [round_float, round_nearest_even, round_magnitude]
    rw [if_neg (by norm_num : ¬ _ < (0 : ℚ)), hl]
    norm_num
  have ht2 : round_float ((197485 / 262144 : ℚ) - (14561865 / 16777216 : ℚ)) =
      (-1922825 / 16777216 : ℚ) := by
    have hl : Int.log 2 (-((197485 / 262144 : ℚ) - (14561865 / 16777216 : ℚ)) : ℚ) = -4 :=
      int_log_two_eq _ _ (by norm_num) (by norm_num)
    simp only [round_float, round_nearest_even, round_magnitude]
    rw [if_pos (by norm_num : _ < (0 : ℚ)), hl]
    norm_num
  have hu : round_double ((8106479329266893 / 36028797018963968 : ℚ) *
      (-1922825 / 16777216 : ℚ)) =
      (-3461085 / 134217728 : ℚ) := by
    have hl : Int.log 2 (-((8106479329266893 / 36028797018963968 : ℚ) *
      (-1922825 / 16777216 : ℚ)) : ℚ) =
      -6 :=
      int_log_two_eq _ _ (by norm_num) (by norm_num)
    simp only [round_double, round_nearest_even, round_magnitude]
    rw [if_pos (by norm_num : _ < (0 : ℚ)), hl]
    norm_num
  have hv : round_double ((-3461085 / 134217728 : ℚ) + (14561865 / 16777216 : ℚ)) =
      (113033835 / 134217728 : ℚ) := by
    have hl : Int.log 2 ((-3461085 / 134217728 : ℚ) + (14561865 / 16777216 : ℚ)) = -1 :=
      int_log_two_eq _ _ (by norm_num) (by norm_num)
    simp only [round_double, round_nearest_even, round_magnitude]
    rw [if_neg (by norm_num : ¬ _ < (0 : ℚ)), hl]
    norm_num
  have hw : round_float (113033835 / 134217728 : ℚ) = (14129229 / 16777216 : ℚ) := by
    have hl : Int.log 2 (113033835 / 134217728 : ℚ) = -1 :=
      int_log_two_eq _ _ (by norm_num) (by norm_num)
    simp only [round_float, round_nearest_even, round_magnitude]
    rw [if_neg (by norm_num : ¬ _ < (0 : ℚ)), hl]
    norm_num
  have e1 : ¬ ((1 : ℚ) < -round_double PI_1) := by rw [round_double_PI_1]; norm_num
  have e2 : ¬ ((1 : ℚ) > round_double PI_1) := by rw [round_double_PI_1]; norm_num
  simp only [sin_fast_rounded, if_neg e1, if_neg e2]
  rw [if_neg (by norm_num : ¬ (1 : ℚ) < 0)]
  rw [hc1, hc2, ha, hb1, hb, hd, hs, if_neg (by norm_num), hc3, ht1, ht2, hu, hv, hw]

/-! ## The claim on the range of `sin_fast` -/

/-- The range condition matters: at `x = 3.141592655`, between `PI_1` and
`PI_2 - PI_1`, the range reduction maps both `x` and `-x` to `-x`, and
`sin_fast` takes the same non-zero value at both. -/
theorem sin_fast_not_odd_beyond_range :
    sin_fast 3.141592655 = sin_fast (-3.141592655) ∧ sin_fast 3.141592655 ≠ 0 ∧
    sin_fast (-3.141592655) ≠ -sin_fast 3.141592655 := by
  have h1 : sin_fast 3.141592655 =
      48229802305977976395483481000211564317374281 /
        640000000000000000000000000000000000000000000000000 := by
    norm_num [sin_fast, PI_1, PI_2]
  have h2 : sin_fast (-3.141592655) =
      48229802305977976395483481000211564317374281 /
        640000000000000000000000000000000000000000000000000 := by
    norm_num [sin_fast, PI_1, PI_2]
  rw [h1, h2]
  norm_num

/-- C21: `sin_fast` is odd on its valid range.  For every `x` with
`-PI_1 ≤ x ≤ PI_1`, `sin_fast (-x) = -sin_fast x`, and `sin_fast 0 = 0`.  The
same holds for the code in machine arithmetic: whatever the roundings `rd` to
`double` and `rf` to `float`, provided each commutes with negation, and for
every `y` that the code finds between `-PI_1` and `PI_1`, `sin_fast_rounded`
takes opposite values at `-y` and `y`, and the value zero at zero. -/
theorem sin_fast_odd (x : ℚ) (h1 : -PI_1 ≤ x) (h2 : x ≤ PI_1) :
    sin_fast (-x) = -sin_fast x ∧ sin_fast 0 = 0 ∧
      ∀ rd rf : ℚ → ℚ, (∀ q, rd (-q) = -rd q) → (∀ q, rf (-q) = -rf q) →
        ∀ y : ℚ, -rd PI_1 ≤ y → y ≤ rd PI_1 →
          sin_fast_rounded rd rf (-y) = -sin_fast_rounded rd rf y ∧
            sin_fast_rounded rd rf 0 = 0 := by
  have hp : (0 : ℚ) ≤ PI_1 := by norm_num [PI_1]
  refine ⟨?_, ?_, ?_⟩
  · rw [sin_fast_eq_sin_core_reduce, sin_fast_eq_sin_core_reduce,
      sin_fast_reduce_of_mem x h1 h2,
      sin_fast_reduce_of_mem (-x) (by linarith) (by linarith), sin_core_neg]
  · rw [sin_fast_eq_sin_core_reduce, sin_fast_reduce_of_mem 0 (by linarith) hp]
    simp only [sin_core, zero_mul]
  · intro rd rf hrd hrf y hy1 hy2
    exact ⟨sin_fast_rounded_neg rd rf hrd hrf y hy1 hy2,
      sin_fast_rounded_zero rd rf hrd hrf (by linarith)⟩

/-- Witness of `sin_fast_odd` at `x = 1`, where `sin_fast` is
`336867072148917761 / 400000000000000000`, about `0.84217`; the machine
arithmetic is that of IEEE 754, rounding to nearest with ties to even. -/
theorem sin_fast_odd_witness :
    -PI_1 ≤ (1 : ℚ) ∧ (1 : ℚ) ≤ PI_1 ∧
    sin_fast 1 = 336867072148917761 / 400000000000000000 ∧
    sin_fast (-1) = -sin_fast 1 ∧ sin_fast 0 = 0 ∧
    sin_fast_rounded round_double round_float (-1) =
      -sin_fast_rounded round_double round_float 1 ∧
    sin_fast_rounded round_double round_float 0 = 0 :=
  ⟨by norm_num [PI_1], by norm_num [PI_1], by norm_num [sin_fast, PI_1, PI_2],
    (sin_fast_odd 1 (by norm_num [PI_1]) (by norm_num [PI_1])).1,
    (sin_fast_odd 1 (by norm_num [PI_1]) (by norm_num [PI_1])).2.1,
    (sin_fast_odd 1 (by norm_num [PI_1]) (by norm_num [PI_1])).2.2 round_double round_float
      (round_nearest_even_neg 53 (-1022)) (round_nearest_even_neg 24 (-126)) 1
      (by rw [round_double_PI_1]; norm_num) (by rw [round_double_PI_1]; norm_num)⟩

/-! ## `draw_line` on 32-bit integers -/

/-- On the values of a 32-bit `int` the wrap-around changes nothing. -/
theorem wrap_int32_of_mem (z : Int) (h : in_int32 z) : wrap_int32 z = z := by
  obtain ⟨h1, h2⟩ := h
  simp only [wrap_int32]
  omega

/-- A finished run of the loop starts with the current pixel. -/
theorem draw_line_loop_head (dx dy sx sy x1 y1 : Int) (fuel : Nat) (x y err : Int)
    (ps : List GPoint) (h : draw_line_loop dx dy sx sy x1 y1 fuel x y err = some ps) :
    ps.head? = some ⟨x, y⟩ := by
  cases fuel with
  | zero => simp [draw_line_loop] at h
  | succ fuel =>
    unfold draw_line_loop at h
    by_cases hb : x = x1 ∧ y = y1
    · rw [if_pos hb] at h
      cases h
      rfl
    · rw [if_neg hb] at h
      simp only [Option.map_eq_some'] at h
      obtain ⟨qs, _, rfl⟩ := h
      rfl

/-- Where no operation overflows, the loop on 32-bit integers is the loop on
unbounded integers: with `dx, dy ≤ B`, `3 * B < 2^31`, the error term within
`±3B/2` and every pixel of the run in the range of `int`. -/
theorem draw_line_int32_loop_eq (dx dy sx sy x1 y1 B : Int) (hdx : 0 ≤ dx) (hdy : 0 ≤ dy)
    (hxB : dx ≤ B) (hyB : dy ≤ B) (hB : 3 * B ≤ 2147483647) (fuel : Nat) :
    ∀ (x y err : Int) (ps : List GPoint),
      -(3 * B) ≤ 2 * err → 2 * err ≤ 3 * B →
      draw_line_loop dx dy sx sy x1 y1 fuel x y err = some ps →
      (∀ p ∈ ps, in_int32 p.x ∧ in_int32 p.y) →
      draw_line_int32_loop dx dy sx sy x1 y1 fuel x y err = some ps := by
  induction fuel with
  | zero =>
    intro x y err ps _ _ h
    simp [draw_line_loop] at h
  | succ fuel ih =>
    intro x y err ps hlo hhi h hps
    unfold draw_line_loop at h
    unfold draw_line_int32_loop
    by_cases hb : x = x1 ∧ y = y1
    · rw [if_pos hb] at h ⊢
      exact h
    · rw [if_neg hb] at h ⊢
      simp only [Option.map_eq_some'] at h
      obtain ⟨qs, hq, rfl⟩ := h
      have hhead := draw_line_loop_head _ _ _ _ _ _ _ _ _ _ _ hq
      have hmem : (⟨if err * 2 > -dy then x + sx else x,
          if err * 2 < dx then y + sy else y⟩ : GPoint) ∈ qs := by
        cases qs with
        | nil => simp at hhead
        | cons q qs =>
          simp only [List.head?_cons, Option.some.injEq] at hhead
          rw [hhead]
          exact List.mem_cons_self _ _
      have hrange := hps _ (List.mem_cons_of_mem _ hmem)
      have e1 : wrap_int32 (err * 2) = err * 2 :=
        wrap_int32_of_mem _ ⟨by omega, by omega⟩
      have e2 : wrap_int32 (-dy) = -dy := wrap_int32_of_mem _ ⟨by omega, by omega⟩
      have e3 : (if err * 2 > -dy then wrap_int32 (err - dy) else err) =
          (if err * 2 > -dy then err - dy else err) := by
        split_ifs with c
        · exact wrap_int32_of_mem _ ⟨by omega, by omega⟩
        · rfl
      have e4 : (if err * 2 > -dy then wrap_int32 (x + sx) else x) =
          (if err * 2 > -dy then x + sx else x) := by
        split_ifs with c
        · rw [if_pos c] at hrange
          exact wrap_int32_of_mem _ hrange.1
        · rfl
      have e5 : (if err * 2 < dx then
            wrap_int32 ((if err * 2 > -dy then err - dy else err) + dx)
          else (if err * 2 > -dy then err - dy else err)) =
          (if err * 2 < dx then (if err * 2 > -dy then err - dy else err) + dx
          else (if err * 2 > -dy then err - dy else err)) := by
        split_ifs with c c'
        · exact wrap_int32_of_mem _ ⟨by omega, by omega⟩
        · exact wrap_int32_of_mem _ ⟨by omega, by omega⟩
        · rfl
        · rfl
      have e6 : (if err * 2 < dx then wrap_int32 (y + sy) else y) =
          (if err * 2 < dx then y + sy else y) := by
        split_ifs with c
        · rw [if_pos c] at hrange
          exact wrap_int32_of_mem _ hrange.2
        · rfl
      simp only [e1, e2, e3, e4, e5, e6]
      rw [ih _ _ _ qs ?_ ?_ hq (fun p hp => hps p (List.mem_cons_of_mem _ hp))]
      · rfl
      · split_ifs <;> omega
      · split_ifs <;> omega

/-- The pixels plotted in the first `n` iterations are the first `n` pixels of
the finished run, when the run finishes. -/
theorem draw_line_int32_loop_take (dx dy sx sy x1 y1 : Int) (n : Nat) :
    ∀ (fuel : Nat) (x y err : Int) (ps : List GPoint),
      draw_line_int32_loop dx dy sx sy x1 y1 fuel x y err = some ps →
      draw_line_int32_plotted_loop dx dy sx sy x1 y1 n x y err = ps.take n := by
  induction n with
  | zero =>
    intro fuel x y err ps _
    simp [draw_line_int32_plotted_loop]
  | succ n ih =>
    intro fuel x y err ps h
    cases fuel with
    | zero => simp [draw_line_int32_loop] at h
    | succ fuel =>
      unfold draw_line_int32_loop at h
      unfold draw_line_int32_plotted_loop
      by_cases hb : x = x1 ∧ y = y1
      · rw [if_pos hb] at h ⊢
        cases h
        simp only [List.take_succ_cons, List.take_nil]
      · rw [if_neg hb] at h ⊢
        simp only [Option.map_eq_some'] at h
        obtain ⟨qs, hq, rfl⟩ := h
        simp only [List.take_succ_cons, List.cons.injEq, true_and]
        exact ih _ _ _ _ _ hq

/-- Where the differences of the end points are below `2^31 / 3`, a finished
run of `draw_line` on unbounded integers whose pixels are in the range of
`int` is a run of `draw_line` on 32-bit integers. -/
theorem draw_line_int32_eq (x0 y0 x1 y1 : Int)
    (hdx : 3 * |x1 - x0| ≤ 2147483647) (hdy : 3 * |y1 - y0| ≤ 2147483647)
    (fuel : Nat) (ps : List GPoint) (h : draw_line fuel x0 y0 x1 y1 = some ps)
    (hps : ∀ p ∈ ps, in_int32 p.x ∧ in_int32 p.y) :
    draw_line_int32 fuel x0 y0 x1 y1 = some ps := by
  have ax := abs_le.mp (show |x1 - x0| ≤ 715827882 by omega)
  have ay := abs_le.mp (show |y1 - y0| ≤ 715827882 by omega)
  have nx : 0 ≤ |x1 - x0| := abs_nonneg _
  have ny : 0 ≤ |y1 - y0| := abs_nonneg _
  have e1 : abs_int32 (wrap_int32 (x1 - x0)) = abs (x1 - x0) := by
    rw [wrap_int32_of_mem _ ⟨by omega, by omega⟩]
    simp only [abs_int32, abs]
    split_ifs
    · exact wrap_int32_of_mem _ ⟨by omega, by omega⟩
    · rfl
  have e2 : abs_int32 (wrap_int32 (y1 - y0)) = abs (y1 - y0) := by
    rw [wrap_int32_of_mem _ ⟨by omega, by omega⟩]
    simp only [abs_int32, abs]
    split_ifs
    · exact wrap_int32_of_mem _ ⟨by omega, by omega⟩
    · rfl
  have e3 : wrap_int32 (abs (x1 - x0) - abs (y1 - y0)) = abs (x1 - x0) - abs (y1 - y0) := by
    rw [abs_eq_abs, abs_eq_abs]
    exact wrap_int32_of_mem _ ⟨by omega, by omega⟩
  simp only [draw_line_int32, e1, e2, e3]
  simp only [draw_line] at h
  refine draw_line_int32_loop_eq _ _ _ _ _ _ 715827882 ?_ ?_ ?_ ?_ (by norm_num) fuel _ _ _ ps
    ?_ ?_ h hps
  all_goals rw [abs_eq_abs]
  all_goals try rw [abs_eq_abs]
  all_goals omega

/-- C4, the claim as it stands fails on the 32-bit `int` of the code: the call
`draw_line(0, 0, INT_MIN, 0)` computes `dx = abs(INT_MIN) = INT_MIN` and
`err = INT_MIN`, `err << 1` is `0`, neither step is taken, and the loop plots
`(0,0)` in every iteration without reaching its `break`. -/
theorem draw_line_int32_never_returns :
    in_int32 (-2147483648) ∧
    (∀ fuel : Nat, draw_line_int32 fuel 0 0 (-2147483648) 0 = none) ∧
    (∀ n : Nat, draw_line_int32_plotted n 0 0 (-2147483648) 0 = List.replicate n ⟨0, 0⟩) ∧
    draw_line_int32_plotted 2 0 0 (-2147483648) 0 = [⟨0, 0⟩, ⟨0, 0⟩] := by
  have h1 : ∀ fuel : Nat, draw_line_int32_loop (-2147483648) 0 (-1) (-1) (-2147483648) 0
      fuel 0 0 (-2147483648) = none := by
    intro fuel
    induction fuel with
    | zero => rfl
    | succ fuel ih =>
      unfold draw_line_int32_loop
      simp [wrap_int32, ih]
  have h2 : ∀ n : Nat, draw_line_int32_plotted_loop (-2147483648) 0 (-1) (-1)
      (-2147483648) 0 n 0 0 (-2147483648) = List.replicate n ⟨0, 0⟩ := by
    intro n
    induction n with
    | zero => rfl
    | succ n ih =>
      unfold draw_line_int32_plotted_loop
      simp [wrap_int32, ih, List.replicate_succ]
  have hd : abs_int32 (wrap_int32 (-2147483648 - 0)) = -2147483648 := by
    simp [abs_int32, wrap_int32]
  have hd0 : abs_int32 (wrap_int32 (0 - 0)) = 0 := by
    simp [abs_int32, wrap_int32]
  have he : wrap_int32 (-2147483648 - 0) = -2147483648 := by
    simp [wrap_int32]
  refine ⟨⟨by norm_num, by norm_num⟩, ?_, ?_, ?_⟩
  · intro fuel
    simp only [draw_line_int32, hd, hd0, he]
    exact h1 fuel
  · intro n
    simp only [draw_line_int32_plotted, hd, hd0, he]
    exact h2 n
  · simp only [draw_line_int32_plotted, hd, hd0, he]
    exact h2 2

/-- C19, the claim as it stands fails on the 32-bit `int` of the code: in
`draw_line(0, 0, 2^30 + 1, 0)` the first `err << 1` is `2^31 + 2`, which wraps
to a negative number, so the step in x is skipped and the step in y taken: the
second pixel plotted is `(0, -1)`, below the bounding box `0 ≤ y ≤ 0`. -/
theorem draw_line_int32_leaves_box :
    in_int32 1073741825 ∧
    draw_line_int32_plotted 2 0 0 1073741825 0 = [⟨0, 0⟩, ⟨0, -1⟩] ∧
    (∀ (fuel : Nat) (ps : List GPoint),
      draw_line_int32 fuel 0 0 1073741825 0 = some ps → ps.take 2 = [⟨0, 0⟩, ⟨0, -1⟩]) ∧
    ¬ (min (0 : Int) 0 ≤ -1) := by
  have hp : draw_line_int32_plotted 2 0 0 1073741825 0 = [⟨0, 0⟩, ⟨0, -1⟩] := by
    simp [draw_line_int32_plotted, draw_line_int32_plotted_loop, abs_int32, wrap_int32]
  refine ⟨⟨by norm_num, by norm_num⟩, hp, ?_, by norm_num⟩
  intro fuel ps h
  rw [← hp]
  simp only [draw_line_int32] at h
  simp only [draw_line_int32_plotted]
  exact (draw_line_int32_loop_take _ _ _ _ _ _ 2 fuel _ _ _ ps h).symm

/-- The run of `draw_line` on unbounded integers, with its pixel count and its
bounding box, is the run on 32-bit integers when the end points are values of
`int` and their differences are below `2^31 / 3`. -/
theorem draw_line_int32_run (x0 y0 x1 y1 : Int)
    (hx0 : in_int32 x0) (hy0 : in_int32 y0) (hx1 : in_int32 x1) (hy1 : in_int32 y1)
    (hdx : 3 * |x1 - x0| < 2 ^ 31) (hdy : 3 * |y1 - y0| < 2 ^ 31) :
    ∃ ps : List GPoint,
      (∀ extra : Nat,
        draw_line_int32 ((max |x1 - x0| |y1 - y0|).toNat + 1 + extra) x0 y0 x1 y1 =
          some ps) ∧
      ps.length = (max |x1 - x0| |y1 - y0|).toNat + 1 ∧ ps.Nodup ∧
      (∀ p ∈ ps, min x0 x1 ≤ p.x ∧ p.x ≤ max x0 x1 ∧ min y0 y1 ≤ p.y ∧ p.y ≤ max y0 y1) ∧
      List.Chain' (line_step (if x0 < x1 then 1 else -1) (if y0 < y1 then 1 else -1)) ps := by
  obtain ⟨⟨ps, hrun, hlen, hnd⟩, _⟩ := draw_line_pixel_count x0 y0 x1 y1
  obtain ⟨qs, hrun2, hbox, hchain⟩ := draw_line_box_connected x0 y0 x1 y1
  have hpq : qs = ps := by
    have a := hrun 0
    have b := hrun2 0
    rw [a] at b
    exact (Option.some.inj b).symm
  subst hpq
  refine ⟨qs, ?_, hlen, hnd, hbox, hchain⟩
  intro extra
  refine draw_line_int32_eq x0 y0 x1 y1 (by omega) (by omega) _ qs (hrun extra) ?_
  intro p hp
  obtain ⟨b1, b2, b3, b4⟩ := hbox p hp
  obtain ⟨l1, u1⟩ := hx0
  obtain ⟨l2, u2⟩ := hy0
  obtain ⟨l3, u3⟩ := hx1
  obtain ⟨l4, u4⟩ := hy1
  exact ⟨⟨le_trans (le_min l1 l3) b1, le_trans b2 (max_le u1 u3)⟩,
    ⟨le_trans (le_min l2 l4) b3, le_trans b4 (max_le u2 u4)⟩⟩

/-- C4: on the 32-bit `int` of the code, for all `x0 y0 x1 y1` that are values
of `int` with `3 * |x1 - x0| < 2^31` and `3 * |y1 - y0| < 2^31`, `draw_line`
returns (with `max(|x1-x0|,|y1-y0|) + 1` units of fuel or more) and plots
exactly `max(|x1-x0|,|y1-y0|) + 1` pixels, no pixel twice; `(0,0)->(5,0)`
plots exactly the six pixels `(0,0),...,(5,0)`, `(0,0)->(3,3)` exactly the four
diagonal pixels, and a line with equal end points exactly one pixel. -/
theorem draw_line_int32_pixel_count (x0 y0 x1 y1 : Int)
    (hx0 : in_int32 x0) (hy0 : in_int32 y0) (hx1 : in_int32 x1) (hy1 : in_int32 y1)
    (hdx : 3 * |x1 - x0| < 2 ^ 31) (hdy : 3 * |y1 - y0| < 2 ^ 31) :
    (∃ ps : List GPoint,
      (∀ extra : Nat,
        draw_line_int32 ((max |x1 - x0| |y1 - y0|).toNat + 1 + extra) x0 y0 x1 y1 =
          some ps) ∧
      ps.length = (max |x1 - x0| |y1 - y0|).toNat + 1 ∧ ps.Nodup) ∧
    (∀ extra : Nat, draw_line_int32 (6 + extra) 0 0 5 0 =
      some [⟨0, 0⟩, ⟨1, 0⟩, ⟨2, 0⟩, ⟨3, 0⟩, ⟨4, 0⟩, ⟨5, 0⟩]) ∧
    (∀ extra : Nat, draw_line_int32 (4 + extra) 0 0 3 3 =
      some [⟨0, 0⟩, ⟨1, 1⟩, ⟨2, 2⟩, ⟨3, 3⟩]) ∧
    (∀ extra : Nat, draw_line_int32 (1 + extra) x0 y0 x0 y0 = some [⟨x0, y0⟩]) := by
  obtain ⟨ps, hrun, hlen, hnd, _, _⟩ := draw_line_int32_run x0 y0 x1 y1 hx0 hy0 hx1 hy1 hdx hdy
  obtain ⟨_, h5, h3, h1⟩ := draw_line_pixel_count x0 y0 x1 y1
  refine ⟨⟨ps, hrun, hlen, hnd⟩, ?_, ?_, ?_⟩
  · intro extra
    refine draw_line_int32_eq 0 0 5 0 (by norm_num) (by norm_num) _ _ (h5 extra) ?_
    intro p hp
    simp only [List.mem_cons, List.mem_singleton, List.not_mem_nil, or_false] at hp
    rcases hp with h | h | h | h | h | h <;> subst h <;>
      exact ⟨⟨by norm_num, by norm_num⟩, ⟨by norm_num, by norm_num⟩⟩
  · intro extra
    refine draw_line_int32_eq 0 0 3 3 (by norm_num) (by norm_num) _ _ (h3 extra) ?_
    intro p hp
    simp only [List.mem_cons, List.mem_singleton, List.not_mem_nil, or_false] at hp
    rcases hp with h | h | h | h <;> subst h <;>
      exact ⟨⟨by norm_num, by norm_num⟩, ⟨by norm_num, by norm_num⟩⟩
  · intro extra
    refine draw_line_int32_eq x0 y0 x0 y0 (by simp) (by simp) _ _ (h1 extra) ?_
    intro p hp
    simp only [List.mem_singleton] at hp
    subst hp
    exact ⟨hx0, hy0⟩

/-- Witness of `draw_line_int32_pixel_count` for the line `(2,7)->(-3,4)`. -/
theorem draw_line_int32_pixel_count_witness :
    in_int32 2 ∧ in_int32 7 ∧ in_int32 (-3) ∧ in_int32 4 ∧
    3 * |(-3 : Int) - 2| < 2 ^ 31 ∧ 3 * |(4 : Int) - 7| < 2 ^ 31 ∧
    ∃ ps : List GPoint,
      (∀ extra : Nat,
        draw_line_int32 ((max |(-3 : Int) - 2| |(4 : Int) - 7|).toNat + 1 + extra) 2 7 (-3) 4 =
          some ps) ∧
      ps.length = (max |(-3 : Int) - 2| |(4 : Int) - 7|).toNat + 1 ∧ ps.Nodup :=
  ⟨⟨by norm_num, by norm_num⟩, ⟨by norm_num, by norm_num⟩, ⟨by norm_num, by norm_num⟩,
    ⟨by norm_num, by norm_num⟩, by norm_num, by norm_num,
    (draw_line_int32_pixel_count 2 7 (-3) 4 ⟨by norm_num, by norm_num⟩
      ⟨by norm_num, by norm_num⟩ ⟨by norm_num, by norm_num⟩ ⟨by norm_num, by norm_num⟩
      (by norm_num) (by norm_num)).1⟩

/-- C19: on the 32-bit `int` of the code, `draw_line` never leaves the bounding
box of its end points and never jumps, where no operation overflows.  For all
`x0 y0 x1 y1` that are values of `int` with `3 * |x1 - x0| < 2^31` and
`3 * |y1 - y0| < 2^31`, the call returns (with `max(|x1-x0|,|y1-y0|) + 1` units
of fuel or more), every pixel `(x,y)` plotted has `min(x0,x1) ≤ x ≤ max(x0,x1)`
and `min(y0,y1) ≤ y ≤ max(y0,y1)`, and each pixel after the first differs from
the one before by `0` or `sx` in x and by `0` or `sy` in y, not both `0`. -/
theorem draw_line_int32_box_connected (x0 y0 x1 y1 : Int)
    (hx0 : in_int32 x0) (hy0 : in_int32 y0) (hx1 : in_int32 x1) (hy1 : in_int32 y1)
    (hdx : 3 * |x1 - x0| < 2 ^ 31) (hdy : 3 * |y1 - y0| < 2 ^ 31) :
    ∃ ps : List GPoint,
      (∀ extra : Nat,
        draw_line_int32 ((max |x1 - x0| |y1 - y0|).toNat + 1 + extra) x0 y0 x1 y1 =
          some ps) ∧
      (∀ p ∈ ps, min x0 x1 ≤ p.x ∧ p.x ≤ max x0 x1 ∧ min y0 y1 ≤ p.y ∧ p.y ≤ max y0 y1) ∧
      List.Chain' (line_step (if x0 < x1 then 1 else -1) (if y0 < y1 then 1 else -1)) ps := by
  obtain ⟨ps, hrun, _, _, hbox, hchain⟩ :=
    draw_line_int32_run x0 y0 x1 y1 hx0 hy0 hx1 hy1 hdx hdy
  exact ⟨ps, hrun, hbox, hchain⟩

/-- Witness of `draw_line_int32_box_connected` for the line `(0,0)->(255,167)`,
the diagonal of the largest area that `draw_mesh` can address. -/
theorem draw_line_int32_box_connected_witness :
    in_int32 0 ∧ in_int32 255 ∧ in_int32 167 ∧
    3 * |(255 : Int) - 0| < 2 ^ 31 ∧ 3 * |(167 : Int) - 0| < 2 ^ 31 ∧
    ∃ ps : List GPoint,
      (∀ extra : Nat,
        draw_line_int32 ((max |(255 : Int) - 0| |(167 : Int) - 0|).toNat + 1 + extra)
          0 0 255 167 = some ps) ∧
      (∀ p ∈ ps, min 0 255 ≤ p.x ∧ p.x ≤ max 0 255 ∧ min 0 167 ≤ p.y ∧ p.y ≤ max 0 167) ∧
      List.Chain' (line_step (if (0 : Int) < 255 then 1 else -1)
        (if (0 : Int) < 167 then 1 else -1)) ps :=
  ⟨⟨by norm_num, by norm_num⟩, ⟨by norm_num, by norm_num⟩, ⟨by norm_num, by norm_num⟩,
    by norm_num, by norm_num,
    draw_line_int32_box_connected 0 0 255 167 ⟨by norm_num, by norm_num⟩
      ⟨by norm_num, by norm_num⟩ ⟨by norm_num, by norm_num⟩ ⟨by norm_num, by norm_num⟩
      (by norm_num) (by norm_num)⟩

/-! ## Error and grid of the rounding to nearest -/

/-- The rounded magnitude is within half a unit in the last place. -/
theorem round_magnitude_error (p : Nat) (emin : Int) (a : ℚ) :
    |round_magnitude p emin a - a| ≤ 2 ^ (max (Int.log 2 a) emin - (p : Int) + 1) / 2 := by
  have hupos : (0 : ℚ) < 2 ^ (max (Int.log 2 a) emin - (p : Int) + 1) :=
    zpow_pos (by norm_num) _
  simp only [round_magnitude]
  generalize (2 : ℚ) ^ (max (Int.log 2 a) emin - (p : Int) + 1) = u at hupos ⊢
  have key : ∀ r : ℤ, |(r : ℚ) - a / u| ≤ 1 / 2 → |(r : ℚ) * u - a| ≤ u / 2 := by
    intro r hr
    have e : (r : ℚ) * u - a = ((r : ℚ) - a / u) * u := by
      field_simp
    rw [e, abs_mul, abs_of_pos hupos]
    calc |(r : ℚ) - a / u| * u ≤ 1 / 2 * u := mul_le_mul_of_nonneg_right hr hupos.le
      _ = u / 2 := by ring
  have hfl := Int.floor_le (a / u)
  have hlt := Int.lt_floor_add_one (a / u)
  apply key
  rw [abs_le]
  split_ifs with c1 c2 c3 <;> constructor <;> push_cast <;> linarith

/-- The rounded magnitude is a multiple of the unit in the last place. -/
theorem round_magnitude_grid (p : Nat) (emin : Int) (a : ℚ) :
    ∃ r : ℤ, round_magnitude p emin a =
      (r : ℚ) * 2 ^ (max (Int.log 2 a) emin - (p : Int) + 1) :=
  ⟨_, rfl⟩

/-- The binary exponent of a magnitude below `2^k`. -/
theorem int_log_two_lt (a : ℚ) (k : ℤ) (ha : 0 ≤ a) (hk : 1 ≤ k) (h : a < 2 ^ k) :
    Int.log 2 a < k := by
  rcases ha.lt_or_eq with h0 | h0
  · apply (Int.lt_zpow_iff_log_lt (by norm_num) h0).mp
    rw [Nat.cast_ofNat]
    exact h
  · rw [← h0, Int.log_zero_right]
    omega

/-- Rounding to nearest moves a number of magnitude below `2^k` by at most
`2^(k-1-p)`, half a unit in the last place of the binade below `2^k`. -/
theorem round_nearest_even_error (p : Nat) (emin k : Int) (q : ℚ) (hk : 1 ≤ k)
    (he : emin < k) (hq : |q| < 2 ^ k) :
    |round_nearest_even p emin q - q| ≤ 2 ^ (k - 1 - (p : Int)) := by
  have hm : ∀ a : ℚ, 0 ≤ a → a < 2 ^ k →
      |round_magnitude p emin a - a| ≤ 2 ^ (k - 1 - (p : Int)) := by
    intro a ha hak
    have h1 := round_magnitude_error p emin a
    have h2 := int_log_two_lt a k ha hk hak
    have h4 : (2 : ℚ) ^ (max (Int.log 2 a) emin - (p : Int) + 1) / 2 =
        2 ^ (max (Int.log 2 a) emin - (p : Int)) := by
      rw [zpow_add_one₀ (by norm_num)]
      field_simp
    rw [h4] at h1
    exact h1.trans (zpow_le_zpow_right₀ (by norm_num)
      (by have := max_le (show Int.log 2 a ≤ k - 1 by omega) (show emin ≤ k - 1 by omega); omega))
  simp only [round_nearest_even]
  split_ifs with c
  · have := hm (-q) (by linarith) (by rwa [abs_of_neg c] at hq)
    rw [show -round_magnitude p emin (-q) - q = -(round_magnitude p emin (-q) - -q) by ring,
      abs_neg]
    exact this
  · exact hm q (not_lt.mp c) (by rwa [abs_of_nonneg (not_lt.mp c)] at hq)

/-- Rounding to nearest of a number with binary exponent `z` gives a multiple
of the unit in the last place of that exponent. -/
theorem round_nearest_even_grid (p : Nat) (emin z : Int) (q : ℚ) (hz : emin ≤ z)
    (h1 : 2 ^ z ≤ |q|) (h2 : |q| < 2 ^ (z + 1)) :
    ∃ r : ℤ, round_nearest_even p emin q = (r : ℚ) * 2 ^ (z - (p : Int) + 1) := by
  simp only [round_nearest_even]
  split_ifs with c
  · rw [abs_of_neg c] at h1 h2
    obtain ⟨r, hr⟩ := round_magnitude_grid p emin (-q)
    rw [int_log_two_eq _ z h1 h2, max_eq_left hz] at hr
    exact ⟨-r, by rw [hr]; push_cast; ring⟩
  · rw [abs_of_nonneg (not_lt.mp c)] at h1 h2
    obtain ⟨r, hr⟩ := round_magnitude_grid p emin q
    rw [int_log_two_eq _ z h1 h2, max_eq_left hz] at hr
    exact ⟨r, hr⟩

/-- The `double` nearest to the decimal `6.28318531`. -/
theorem round_double_PI_2 : round_double PI_2 = 884279719400493 / 140737488355328 := by
  have hl : Int.log 2 (6.28318531 : ℚ) = 2 := int_log_two_eq _ _ (by norm_num) (by norm_num)
  simp only [round_double, round_nearest_even, round_magnitude, PI_2]
  rw [if_neg (by norm_num : ¬ _ < (0 : ℚ)), hl]
  norm_num

/-! ## `fix_mesh_rotation` in machine arithmetic -/

/-- A finished run of the first loop: `n` corrections, the loop condition
holding before each of them and failing after the last. -/
theorem fix_rotation_add_rounded_spec (rd rf : ℚ → ℚ) (fuel : Nat) :
    ∀ r r' : ℚ, fix_rotation_add_rounded rd rf fuel r = some r' →
      ∃ n : Nat, r' = (fix_rotation_add_step rd rf)^[n] r ∧
        (∀ k : Nat, k < n → (fix_rotation_add_step rd rf)^[k] r < -rd PI_1) ∧
        ¬ (r' < -rd PI_1) := by
  induction fuel with
  | zero =>
    intro r r' h
    simp [fix_rotation_add_rounded] at h
  | succ fuel ih =>
    intro r r' h
    unfold fix_rotation_add_rounded at h
    by_cases c : r < -rd PI_1
    · rw [if_pos c] at h
      obtain ⟨n, h1, h2, h3⟩ := ih _ _ h
      refine ⟨n + 1, by rw [Function.iterate_succ_apply]; exact h1, ?_, h3⟩
      intro k hk
      cases k with
      | zero => exact c
      | succ j =>
        rw [Function.iterate_succ_apply]
        exact h2 j (by omega)
    · rw [if_neg c] at h
      cases h
      exact ⟨0, rfl, fun k hk => absurd hk (Nat.not_lt_zero k), c⟩

/-- A finished run of the second loop: `m` corrections, the loop condition
holding before each of them and failing after the last. -/
theorem fix_rotation_sub_rounded_spec (rd rf : ℚ → ℚ) (fuel : Nat) :
    ∀ r r' : ℚ, fix_rotation_sub_rounded rd rf fuel r = some r' →
      ∃ m : Nat, r' = (fix_rotation_sub_step rd rf)^[m] r ∧
        (∀ k : Nat, k < m → (fix_rotation_sub_step rd rf)^[k] r > -rd PI_1) ∧
        ¬ (r' > -rd PI_1) := by
  induction fuel with
  | zero =>
    intro r r' h
    simp [fix_rotation_sub_rounded] at h
  | succ fuel ih =>
    intro r r' h
    unfold fix_rotation_sub_rounded at h
    by_cases c : r > -rd PI_1
    · rw [if_pos c] at h
      obtain ⟨n, h1, h2, h3⟩ := ih _ _ h
      refine ⟨n + 1, by rw [Function.iterate_succ_apply]; exact h1, ?_, h3⟩
      intro k hk
      cases k with
      | zero => exact c
      | succ j =>
        rw [Function.iterate_succ_apply]
        exact h2 j (by omega)
    · rw [if_neg c] at h
      cases h
      exact ⟨0, rfl, fun k hk => absurd hk (Nat.not_lt_zero k), c⟩

/-- The first loop returns when every correction on the domain `D ≤ r` moves
the angle up by at least `2`: `n + 1` units of fuel are enough when
`-r ≤ 2 * n + 3`, and the result is at most `max r U` when no correction goes
beyond `U`. -/
theorem fix_rotation_add_rounded_returns (rd rf : ℚ → ℚ) (D U : ℚ) (hP : 3 ≤ rd PI_1)
    (hstep : ∀ r : ℚ, D ≤ r → r < -rd PI_1 →
      r + 2 ≤ fix_rotation_add_step rd rf r ∧ fix_rotation_add_step rd rf r ≤ U) :
    ∀ (n : Nat) (r : ℚ), D ≤ r → -r ≤ 2 * n + 3 →
      ∃ r' : ℚ, (∀ extra : Nat, fix_rotation_add_rounded rd rf (n + 1 + extra) r = some r') ∧
        r' ≤ max r U := by
  intro n
  induction n with
  | zero =>
    intro r _ hr
    have c : ¬ (r < -rd PI_1) := by
      push_cast at hr
      intro hc
      linarith
    refine ⟨r, fun extra => ?_, le_max_left _ _⟩
    rw [show 0 + 1 + extra = extra + 1 by omega, fix_rotation_add_rounded, if_neg c]
  | succ n ih =>
    intro r hD hr
    by_cases c : r < -rd PI_1
    · obtain ⟨s1, s2⟩ := hstep r hD c
      obtain ⟨r', h1, h2⟩ := ih (fix_rotation_add_step rd rf r) (by linarith)
        (by push_cast at hr ⊢; linarith)
      refine ⟨r', fun extra => ?_, ?_⟩
      · rw [show n + 1 + 1 + extra = (n + 1 + extra) + 1 by omega, fix_rotation_add_rounded,
          if_pos c]
        exact h1 extra
      · exact h2.trans (max_le (s2.trans (le_max_right _ _)) (le_max_right _ _))
    · refine ⟨r, fun extra => ?_, le_max_left _ _⟩
      rw [show n + 1 + 1 + extra = (n + 1 + extra) + 1 by omega, fix_rotation_add_rounded,
        if_neg c]

/-- The second loop returns when every correction on the domain `r ≤ D` moves
the angle down by at least `2`: `n + 1` units of fuel are enough when
`r ≤ 2 * n - 4`. -/
theorem fix_rotation_sub_rounded_returns (rd rf : ℚ → ℚ) (D : ℚ) (hP : rd PI_1 ≤ 4)
    (hstep : ∀ r : ℚ, r ≤ D → r > -rd PI_1 → fix_rotation_sub_step rd rf r ≤ r - 2) :
    ∀ (n : Nat) (r : ℚ), r ≤ D → r ≤ 2 * n - 4 →
      ∃ r' : ℚ, ∀ extra : Nat, fix_rotation_sub_rounded rd rf (n + 1 + extra) r = some r' := by
  intro n
  induction n with
  | zero =>
    intro r _ hr
    have c : ¬ (r > -rd PI_1) := by
      push_cast at hr
      intro hc
      linarith
    refine ⟨r, fun extra => ?_⟩
    rw [show 0 + 1 + extra = extra + 1 by omega, fix_rotation_sub_rounded, if_neg c]
  | succ n ih =>
    intro r hD hr
    by_cases c : r > -rd PI_1
    · have s1 := hstep r hD c
      obtain ⟨r', h1⟩ := ih (fix_rotation_sub_step rd rf r) (by linarith)
        (by push_cast at hr ⊢; linarith)
      refine ⟨r', fun extra => ?_⟩
      rw [show n + 1 + 1 + extra = (n + 1 + extra) + 1 by omega, fix_rotation_sub_rounded,
        if_pos c]
      exact h1 extra
    · refine ⟨r, fun extra => ?_⟩
      rw [show n + 1 + 1 + extra = (n + 1 + extra) + 1 by omega, fix_rotation_sub_rounded,
        if_neg c]

/-- In IEEE 754 arithmetic a correction `r -= PI_2` lowers an angle
`-PI_1 < r ≤ 2^27` by at least `2`: the rounding to `float` moves a number
below `2^27` by at most `4`. -/
theorem fix_rotation_sub_step_ieee (r : ℚ) (h1 : r ≤ 134217728)
    (h2 : r > -round_double PI_1) :
    fix_rotation_sub_step round_double round_float r ≤ r - 2 := by
  rw [round_double_PI_1] at h2
  simp only [fix_rotation_sub_step, round_double_PI_2]
  generalize hv : r - 884279719400493 / 140737488355328 = v
  have hv1 : |v| < 2 ^ (27 : ℤ) := by
    rw [abs_lt]
    constructor <;> norm_num <;> linarith
  have e1 : |round_double v - v| ≤ 2 ^ ((27 : ℤ) - 1 - ((53 : ℕ) : ℤ)) :=
    round_nearest_even_error 53 (-1022) 27 v (by norm_num) (by norm_num) hv1
  norm_num at e1
  rw [abs_le] at e1
  have hw1 : |round_double v| < 2 ^ (27 : ℤ) := by
    rw [abs_lt]
    constructor <;> norm_num <;> linarith
  have e2 : |round_float (round_double v) - round_double v| ≤
      2 ^ ((27 : ℤ) - 1 - ((24 : ℕ) : ℤ)) :=
    round_nearest_even_error 24 (-126) 27 _ (by norm_num) (by norm_num) hw1
  norm_num at e2
  rw [abs_le] at e2
  linarith

/-- In IEEE 754 arithmetic a correction `r += PI_2` raises an angle
`-2^27 ≤ r < -PI_1` by at least `2`, to at most `8`. -/
theorem fix_rotation_add_step_ieee (r : ℚ) (h1 : -134217728 ≤ r)
    (h2 : r < -round_double PI_1) :
    r + 2 ≤ fix_rotation_add_step round_double round_float r ∧
    fix_rotation_add_step round_double round_float r ≤ 8 := by
  rw [round_double_PI_1] at h2
  simp only [fix_rotation_add_step, round_double_PI_2]
  generalize hv : r + 884279719400493 / 140737488355328 = v
  have hv1 : |v| < 2 ^ (27 : ℤ) := by
    rw [abs_lt]
    constructor <;> norm_num <;> linarith
  have e1 : |round_double v - v| ≤ 2 ^ ((27 : ℤ) - 1 - ((53 : ℕ) : ℤ)) :=
    round_nearest_even_error 53 (-1022) 27 v (by norm_num) (by norm_num) hv1
  norm_num at e1
  rw [abs_le] at e1
  have hw1 : |round_double v| < 2 ^ (27 : ℤ) := by
    rw [abs_lt]
    constructor <;> norm_num <;> linarith
  have e2 : |round_float (round_double v) - round_double v| ≤
      2 ^ ((27 : ℤ) - 1 - ((24 : ℕ) : ℤ)) :=
    round_nearest_even_error 24 (-126) 27 _ (by norm_num) (by norm_num) hw1
  norm_num at e2
  rw [abs_le] at e2
  constructor <;> linarith

/-! ## Single corrections in IEEE 754 arithmetic -/

/-- In IEEE 754 arithmetic the correction `r -= PI_2` leaves `r = 2e8` as it is:
the `float`s next to `2e8` are `16` apart. -/
theorem fix_rotation_sub_step_2e8 :
    fix_rotation_sub_step round_double round_float 200000000 = 200000000 := by
  have h1 : round_double ((200000000 : ℚ) - (884279719400493 / 140737488355328 : ℚ)) =
      (3355443094585643 / 16777216 : ℚ) := by
    have hl : Int.log 2 ((200000000 : ℚ) - (884279719400493 / 140737488355328 : ℚ)) = 27 :=
      int_log_two_eq _ _ (by norm_num) (by norm_num)
    simp only [round_double, round_nearest_even, round_magnitude]
    rw [if_neg (by norm_num : ¬ _ < (0 : ℚ)), hl]
    norm_num
  have h2 : round_float (3355443094585643 / 16777216 : ℚ) =
      (200000000 : ℚ) := by
    have hl : Int.log 2 (3355443094585643 / 16777216 : ℚ) = 27 :=
      int_log_two_eq _ _ (by norm_num) (by norm_num)
    simp only [round_float, round_nearest_even, round_magnitude]
    rw [if_neg (by norm_num : ¬ _ < (0 : ℚ)), hl]
    norm_num
  simp only [fix_rotation_sub_step, round_double_PI_2]
  rw [h1, h2]

/-- The smallest positive `float` that the correction `r -= PI_2` leaves as it is:
`2^27 + 16`. -/
theorem fix_rotation_sub_step_absorbed :
    fix_rotation_sub_step round_double round_float 134217744 = 134217744 := by
  have h1 : round_double ((134217744 : ℚ) - (884279719400493 / 140737488355328 : ℚ)) =
      (2251799976706347 / 16777216 : ℚ) := by
    have hl : Int.log 2 ((134217744 : ℚ) - (884279719400493 / 140737488355328 : ℚ)) = 27 :=
      int_log_two_eq _ _ (by norm_num) (by norm_num)
    simp only [round_double, round_nearest_even, round_magnitude]
    rw [if_neg (by norm_num : ¬ _ < (0 : ℚ)), hl]
    norm_num
  have h2 : round_float (2251799976706347 / 16777216 : ℚ) =
      (134217744 : ℚ) := by
    have hl : Int.log 2 (2251799976706347 / 16777216 : ℚ) = 27 :=
      int_log_two_eq _ _ (by norm_num) (by norm_num)
    simp only [round_float, round_nearest_even, round_magnitude]
    rw [if_neg (by norm_num : ¬ _ < (0 : ℚ)), hl]
    norm_num
  simp only [fix_rotation_sub_step, round_double_PI_2]
  rw [h1, h2]

/-- A finished run of the two loops on one component, as a count of
corrections. -/
theorem fix_rotation_rounded_corrections_of_run (rd rf : ℚ → ℚ) (fa fs : Nat) (r r1 r2 : ℚ)
    (ha : fix_rotation_add_rounded rd rf fa r = some r1)
    (hs : fix_rotation_sub_rounded rd rf fs r1 = some r2) :
    ∃ n m : Nat, fix_rotation_rounded_corrections rd rf r r2 n m := by
  obtain ⟨n, a1, a2, a3⟩ := fix_rotation_add_rounded_spec rd rf fa r r1 ha
  obtain ⟨m, s1, s2, s3⟩ := fix_rotation_sub_rounded_spec rd rf fs r1 r2 hs
  subst a1
  subst s1
  exact ⟨n, m, a2, a3, s2, s3, rfl⟩

/-- The mesh returned by `fix_mesh_rotation` in machine arithmetic, from the
runs of the six loops. -/
theorem fix_mesh_rotation_rounded_of_runs (rd rf : ℚ → ℚ) (fuel : Nat) (mesh : Mesh)
    (x1 x2 y1 y2 z1 z2 : ℚ)
    (hx1 : fix_rotation_add_rounded rd rf fuel mesh.rotation.x = some x1)
    (hx2 : fix_rotation_sub_rounded rd rf fuel x1 = some x2)
    (hy1 : fix_rotation_add_rounded rd rf fuel mesh.rotation.y = some y1)
    (hy2 : fix_rotation_sub_rounded rd rf fuel y1 = some y2)
    (hz1 : fix_rotation_add_rounded rd rf fuel mesh.rotation.z = some z1)
    (hz2 : fix_rotation_sub_rounded rd rf fuel z1 = some z2) :
    fix_mesh_rotation_rounded rd rf fuel mesh = some { mesh with rotation := ⟨x2, y2, z2⟩ } := by
  simp only [fix_mesh_rotation_rounded, hx1, hx2, hy1, hy2, hz1, hz2, Option.some_bind]

/-- In IEEE 754 arithmetic the two loops return on a component of magnitude
at most `2^27`, with `2^26 + 3` units of fuel or more. -/
theorem fix_rotation_rounded_ieee_returns (r : ℚ) (h : |r| ≤ 134217728) :
    ∃ r1 r2 : ℚ,
      (∀ extra : Nat,
        fix_rotation_add_rounded round_double round_float (67108867 + extra) r = some r1) ∧
      (∀ extra : Nat,
        fix_rotation_sub_rounded round_double round_float (67108867 + extra) r1 = some r2) := by
  obtain ⟨hl, hu⟩ := abs_le.mp h
  obtain ⟨r1, a1, a2⟩ := fix_rotation_add_rounded_returns round_double round_float
    (-134217728) 8 (by rw [round_double_PI_1]; norm_num)
    (fun r hD hc => fix_rotation_add_step_ieee r hD hc) 67108864 r hl
    (by push_cast; linarith)
  have hr1 : r1 ≤ 134217728 := a2.trans (max_le hu (by norm_num))
  obtain ⟨r2, s1⟩ := fix_rotation_sub_rounded_returns round_double round_float
    134217728 (by rw [round_double_PI_1]; norm_num)
    (fun r hD hc => fix_rotation_sub_step_ieee r hD hc) 67108866 r1 hr1
    (by push_cast; linarith)
  refine ⟨r1, r2, fun extra => ?_, fun extra => ?_⟩
  · rw [show 67108867 + extra = 67108864 + 1 + (extra + 2) by omega]
    exact a1 _
  · rw [show 67108867 + extra = 67108866 + 1 + extra by omega]
    exact s1 _

/-- In exact arithmetic the two loops return on every component, with enough
fuel. -/
theorem fix_rotation_rounded_exact_returns (r : ℚ) :
    ∃ (N : Nat) (r1 r2 : ℚ),
      (∀ extra : Nat, fix_rotation_add_rounded id id (N + extra) r = some r1) ∧
      (∀ extra : Nat, fix_rotation_sub_rounded id id (N + extra) r1 = some r2) := by
  obtain ⟨n1, hn1⟩ := exists_nat_ge (-r)
  have hn1' : (0 : ℚ) ≤ n1 := Nat.cast_nonneg n1
  obtain ⟨r1, a1, -⟩ := fix_rotation_add_rounded_returns id id r 8
    (by simp only [id]; norm_num [PI_1])
    (fun q _ hc => by
      simp only [id] at hc
      simp only [fix_rotation_add_step, id]
      constructor
      · norm_num [PI_2]
      · norm_num [PI_1, PI_2] at hc ⊢
        linarith)
    n1 r le_rfl (by linarith)
  obtain ⟨n2, hn2⟩ := exists_nat_ge (r1 + 4)
  have hn2' : (0 : ℚ) ≤ n2 := Nat.cast_nonneg n2
  obtain ⟨r2, s1⟩ := fix_rotation_sub_rounded_returns id id r1
    (by simp only [id]; norm_num [PI_1])
    (fun q _ _ => by
      simp only [fix_rotation_sub_step, id]
      norm_num [PI_2]
      linarith)
    n2 r1 le_rfl (by linarith)
  refine ⟨n1 + n2 + 1, r1, r2, fun extra => ?_, fun extra => ?_⟩
  · rw [show n1 + n2 + 1 + extra = n1 + 1 + (n2 + extra) by omega]
    exact a1 _
  · rw [show n1 + n2 + 1 + extra = n2 + 1 + (n1 + extra) by omega]
    exact s1 _

/-- C18, the claim as it stands fails on the `float` of the code: at
`rotation.x = 2e8`, a finite angle and a `float`, the correction `r -= PI_2`
gives `2e8 - 6.28...`, which rounds back to `2e8` (the neighbouring `float`s
are `16` apart), so the second loop never ends and `fix_mesh_rotation` does
not return, whatever the fuel.  The same happens at `2^27 + 16`, the `float`
next above `2^27`. -/
theorem fix_mesh_rotation_rounded_never_returns :
    round_float 200000000 = 200000000 ∧
    fix_rotation_sub_step round_double round_float 200000000 = 200000000 ∧
    (∀ fuel : Nat, fix_rotation_sub_rounded round_double round_float fuel 200000000 = none) ∧
    (∀ fuel : Nat, fix_mesh_rotation_rounded round_double round_float fuel
      ⟨⟨0, 0, 0⟩, ⟨200000000, 0, 0⟩, 0, [], 0, [], []⟩ = none) ∧
    fix_rotation_sub_step round_double round_float 134217744 = 134217744 := by
  have hf : round_float 200000000 = 200000000 := by
    have hl : Int.log 2 (200000000 : ℚ) = 27 :=
      int_log_two_eq _ _ (by norm_num) (by norm_num)
    simp only [round_float, round_nearest_even, round_magnitude]
    rw [if_neg (by norm_num : ¬ _ < (0 : ℚ)), hl]
    norm_num
  have hc : (200000000 : ℚ) > -round_double PI_1 := by
    rw [round_double_PI_1]
    norm_num
  have hsub : ∀ fuel : Nat,
      fix_rotation_sub_rounded round_double round_float fuel 200000000 = none := by
    intro fuel
    induction fuel with
    | zero => rfl
    | succ fuel ih =>
      rw [fix_rotation_sub_rounded, if_pos hc, fix_rotation_sub_step_2e8]
      exact ih
  refine ⟨hf, fix_rotation_sub_step_2e8, hsub, ?_, fix_rotation_sub_step_absorbed⟩
  intro fuel
  simp only [fix_mesh_rotation_rounded]
  cases fuel with
  | zero => rfl
  | succ fuel =>
    rw [fix_rotation_add_rounded, if_neg (by rw [round_double_PI_1]; norm_num)]
    simp only [Option.some_bind, hsub, Option.none_bind]

/-- C18, amended: in the arithmetic of the code (IEEE 754, the sum in `double`,
the store in `float`), for every mesh whose rotation components have a
magnitude of at most `2^27 = 134217728`, `fix_mesh_rotation` returns, with
`2^26 + 3` units of fuel or more for each loop, after a finite number of
corrections on each of the x, y and z components: `n` corrections `r += PI_2`
and then `m` corrections `r -= PI_2`, each loop condition holding before each
of its corrections and failing after the last.  With the angles and the
corrections read as exact numbers, it returns for every mesh. -/
theorem fix_mesh_rotation_rounded_terminates (mesh : Mesh)
    (hx : |mesh.rotation.x| ≤ 134217728) (hy : |mesh.rotation.y| ≤ 134217728)
    (hz : |mesh.rotation.z| ≤ 134217728) :
    (∃ mesh' : Mesh,
      (∀ extra : Nat, fix_mesh_rotation_rounded round_double round_float
        (67108867 + extra) mesh = some mesh') ∧
      ∃ nx mx ny my nz mz : Nat,
        fix_rotation_rounded_corrections round_double round_float
          mesh.rotation.x mesh'.rotation.x nx mx ∧
        fix_rotation_rounded_corrections round_double round_float
          mesh.rotation.y mesh'.rotation.y ny my ∧
        fix_rotation_rounded_corrections round_double round_float
          mesh.rotation.z mesh'.rotation.z nz mz) ∧
    (∃ (N : Nat) (mesh' : Mesh),
      (∀ extra : Nat, fix_mesh_rotation_rounded id id (N + extra) mesh = some mesh') ∧
      ∃ nx mx ny my nz mz : Nat,
        fix_rotation_rounded_corrections id id mesh.rotation.x mesh'.rotation.x nx mx ∧
        fix_rotation_rounded_corrections id id mesh.rotation.y mesh'.rotation.y ny my ∧
        fix_rotation_rounded_corrections id id mesh.rotation.z mesh'.rotation.z nz mz) := by
  constructor
  · obtain ⟨x1, x2, ax, sx⟩ := fix_rotation_rounded_ieee_returns mesh.rotation.x hx
    obtain ⟨y1, y2, ay, sy⟩ := fix_rotation_rounded_ieee_returns mesh.rotation.y hy
    obtain ⟨z1, z2, az, sz⟩ := fix_rotation_rounded_ieee_returns mesh.rotation.z hz
    refine ⟨{ mesh with rotation := ⟨x2, y2, z2⟩ }, fun extra =>
      fix_mesh_rotation_rounded_of_runs _ _ _ mesh x1 x2 y1 y2 z1 z2
        (ax extra) (sx extra) (ay extra) (sy extra) (az extra) (sz extra), ?_⟩
    obtain ⟨nx, mx, cx⟩ := fix_rotation_rounded_corrections_of_run _ _ _ _ _ _ _ (ax 0) (sx 0)
    obtain ⟨ny, my, cy⟩ := fix_rotation_rounded_corrections_of_run _ _ _ _ _ _ _ (ay 0) (sy 0)
    obtain ⟨nz, mz, cz⟩ := fix_rotation_rounded_corrections_of_run _ _ _ _ _ _ _ (az 0) (sz 0)
    exact ⟨nx, mx, ny, my, nz, mz, cx, cy, cz⟩
  · obtain ⟨Nx, x1, x2, ax, sx⟩ := fix_rotation_rounded_exact_returns mesh.rotation.x
    obtain ⟨Ny, y1, y2, ay, sy⟩ := fix_rotation_rounded_exact_returns mesh.rotation.y
    obtain ⟨Nz, z1, z2, az, sz⟩ := fix_rotation_rounded_exact_returns mesh.rotation.z
    refine ⟨Nx + Ny + Nz, { mesh with rotation := ⟨x2, y2, z2⟩ }, fun extra =>
      fix_mesh_rotation_rounded_of_runs _ _ _ mesh x1 x2 y1 y2 z1 z2 ?_ ?_ ?_ ?_ ?_ ?_, ?_⟩
    · rw [show Nx + Ny + Nz + extra = Nx + (Ny + Nz + extra) by omega]; exact ax _
    · rw [show Nx + Ny + Nz + extra = Nx + (Ny + Nz + extra) by omega]; exact sx _
    · rw [show Nx + Ny + Nz + extra = Ny + (Nx + Nz + extra) by omega]; exact ay _
    · rw [show Nx + Ny + Nz + extra = Ny + (Nx + Nz + extra) by omega]; exact sy _
    · rw [show Nx + Ny + Nz + extra = Nz + (Nx + Ny + extra) by omega]; exact az _
    · rw [show Nx + Ny + Nz + extra = Nz + (Nx + Ny + extra) by omega]; exact sz _
    · obtain ⟨nx, mx, cx⟩ := fix_rotation_rounded_corrections_of_run _ _ _ _ _ _ _ (ax 0) (sx 0)
      obtain ⟨ny, my, cy⟩ := fix_rotation_rounded_corrections_of_run _ _ _ _ _ _ _ (ay 0) (sy 0)
      obtain ⟨nz, mz, cz⟩ := fix_rotation_rounded_corrections_of_run _ _ _ _ _ _ _ (az 0) (sz 0)
      exact ⟨nx, mx, ny, my, nz, mz, cx, cy, cz⟩

/-- Witness of `fix_mesh_rotation_rounded_terminates`: a mesh with the rotation
`(1, 0, -134217728)`. -/
theorem fix_mesh_rotation_rounded_terminates_witness :
    |(1 : ℚ)| ≤ 134217728 ∧ |(0 : ℚ)| ≤ 134217728 ∧ |(-134217728 : ℚ)| ≤ 134217728 ∧
    ∃ mesh' : Mesh,
      (∀ extra : Nat, fix_mesh_rotation_rounded round_double round_float (67108867 + extra)
        ⟨⟨0, 0, 0⟩, ⟨1, 0, -134217728⟩, 0, [], 0, [], []⟩ = some mesh') ∧
      ∃ nx mx ny my nz mz : Nat,
        fix_rotation_rounded_corrections round_double round_float 1 mesh'.rotation.x nx mx ∧
        fix_rotation_rounded_corrections round_double round_float 0 mesh'.rotation.y ny my ∧
        fix_rotation_rounded_corrections round_double round_float (-134217728)
          mesh'.rotation.z nz mz :=
  ⟨by norm_num, by norm_num, by norm_num [abs_le],
    (fix_mesh_rotation_rounded_terminates ⟨⟨0, 0, 0⟩, ⟨1, 0, -134217728⟩, 0, [], 0, [], []⟩
      (by norm_num) (by norm_num) (by norm_num [abs_le])).1⟩

/-! ## What `draw_mesh` does to position and rotation -/

/-- A rounded number below the multiple `n + 1` of the unit in the last place
is at most the multiple `n`, in the binade of exponent `z` and below it. -/
theorem round_float_grid_le (z n : ℤ) (q : ℚ) (hz : 1 ≤ z) (hn : 8388609 ≤ n)
    (hq : |q| < 2 ^ (z + 1)) (hy : round_float q < ((n : ℚ) + 1) * 2 ^ (z - 23)) :
    round_float q ≤ (n : ℚ) * 2 ^ (z - 23) := by
  have hu : (0 : ℚ) < 2 ^ (z - 23) := zpow_pos (by norm_num) _
  by_cases hq2 : (2 : ℚ) ^ z ≤ |q|
  · obtain ⟨r, hr⟩ := round_nearest_even_grid 24 (-126) z q (by omega) hq2 hq
    have hr' : round_float q = (r : ℚ) * 2 ^ (z - 23) := by
      rw [show z - 23 = z - ((24 : ℕ) : ℤ) + 1 by push_cast; ring]
      exact hr
    rw [hr'] at hy ⊢
    have h1 : (r : ℚ) < (n : ℚ) + 1 := lt_of_mul_lt_mul_right hy hu.le
    have h2 : r < n + 1 := by exact_mod_cast h1
    have h3 : (r : ℚ) ≤ (n : ℚ) := by exact_mod_cast (show r ≤ n by omega)
    exact mul_le_mul_of_nonneg_right h3 hu.le
  · have hq3 : |q| < 2 ^ z := not_le.mp hq2
    have e1 : |round_float q - q| ≤ 2 ^ (z - 1 - ((24 : ℕ) : ℤ)) :=
      round_nearest_even_error 24 (-126) z q hz (by omega) hq3
    have a1 : (2 : ℚ) ^ z = 8388608 * 2 ^ (z - 23) := by
      rw [show z = 23 + (z - 23) by ring, zpow_add₀ (by norm_num)]
      norm_num
    have a2 : (2 : ℚ) ^ (z - 1 - ((24 : ℕ) : ℤ)) ≤ 2 ^ (z - 23) :=
      zpow_le_zpow_right₀ (by norm_num) (by push_cast; omega)
    have a3 : (8388609 : ℚ) ≤ (n : ℚ) := by exact_mod_cast hn
    have a4 : (8388609 : ℚ) * 2 ^ (z - 23) ≤ (n : ℚ) * 2 ^ (z - 23) :=
      mul_le_mul_of_nonneg_right a3 hu.le
    rw [abs_le] at e1
    rw [abs_lt] at hq3
    linarith

/-- The mirror image of `round_float_grid_le` for negative numbers. -/
theorem round_float_grid_ge (z n : ℤ) (q : ℚ) (hz : 1 ≤ z) (hn : 8388609 ≤ n)
    (hq : |q| < 2 ^ (z + 1)) (hy : -(((n : ℚ) + 1) * 2 ^ (z - 23)) < round_float q) :
    -((n : ℚ) * 2 ^ (z - 23)) ≤ round_float q := by
  have hneg : round_float (-q) = -round_float q := round_nearest_even_neg 24 (-126) q
  have := round_float_grid_le z n (-q) hz hn (by rwa [abs_neg]) (by rw [hneg]; linarith)
  rw [hneg] at this
  linarith

/-- No `float` lies strictly between `13176794 / 2^22 = 3.1415925...` and
`13176795 / 2^22 = 3.1415927...`, the two `float`s around `PI_1`. -/
theorem float_above_PI_1 (x : ℚ) (hf : round_float x = x) (h : 13176794 / 4194304 < x) :
    13176795 / 4194304 ≤ x := by
  by_contra hc
  have hc' : x < 13176795 / 4194304 := not_le.mp hc
  have hq : |x| < 2 ^ ((1 : ℤ) + 1) := by
    rw [abs_lt]
    constructor <;> norm_num <;> linarith
  have := round_float_grid_le 1 13176794 x (by norm_num) (by norm_num) hq
    (by rw [hf]; norm_num; linarith)
  rw [hf] at this
  norm_num at this
  linarith

/-- The mirror image of `float_above_PI_1`. -/
theorem float_below_neg_PI_1 (x : ℚ) (hf : round_float x = x)
    (h : x < -(13176794 / 4194304)) : x ≤ -(13176795 / 4194304) := by
  have hneg : round_float (-x) = -x := by
    rw [show round_float (-x) = -round_float x from round_nearest_even_neg 24 (-126) x, hf]
  have := float_above_PI_1 (-x) hneg (by linarith)
  linarith

/-- The largest `float` that is at most `PI_1 + PI_2 = 9.42477796` is
`9882595 / 2^20 = 9.42477703...`. -/
theorem float_below_three_pi (x : ℚ) (hf : round_float x = x) (h : x ≤ PI_1 + PI_2) :
    x ≤ 9882595 / 1048576 := by
  by_contra hc
  have hc' : 9882595 / 1048576 < x := not_le.mp hc
  norm_num [PI_1, PI_2] at h
  have hq : |x| < 2 ^ ((3 : ℤ) + 1) := by
    rw [abs_lt]
    constructor <;> norm_num <;> linarith
  have := round_float_grid_le 3 9882595 x (by norm_num) (by norm_num) hq
    (by rw [hf]; norm_num; linarith)
  rw [hf] at this
  norm_num at this
  linarith

/-- The mirror image of `float_below_three_pi`. -/
theorem float_above_neg_three_pi (x : ℚ) (hf : round_float x = x)
    (h : -PI_1 - PI_2 ≤ x) : -(9882595 / 1048576) ≤ x := by
  have hneg : round_float (-x) = -x := by
    rw [show round_float (-x) = -round_float x from round_nearest_even_neg 24 (-126) x, hf]
  have := float_below_three_pi (-x) hneg (by linarith)
  linarith

/-- The correction `x += PI_2` of the range reduction in IEEE 754 arithmetic,
on a `float` between `-3π` and the `float` below `-PI_1`: the result lies
between `-3.14159185` and the `float` below `PI_1`. -/
theorem sin_fast_reduce_add_ieee (x : ℚ) (hlo : -(9882595 / 1048576) ≤ x)
    (hhi : x ≤ -(13176795 / 4194304)) :
    -(314159185 / 100000000) ≤
      round_float (round_double (x + 884279719400493 / 140737488355328)) ∧
    round_float (round_double (x + 884279719400493 / 140737488355328)) ≤
      13176794 / 4194304 := by
  generalize hv : x + 884279719400493 / 140737488355328 = v
  have hv1 : |v| < 2 ^ (2 : ℤ) := by
    rw [abs_lt]
    constructor <;> norm_num <;> linarith
  have e1 : |round_double v - v| ≤ 2 ^ ((2 : ℤ) - 1 - ((53 : ℕ) : ℤ)) :=
    round_nearest_even_error 53 (-1022) 2 v (by norm_num) (by norm_num) hv1
  norm_num at e1
  rw [abs_le] at e1
  have hw1 : |round_double v| < 2 ^ ((1 : ℤ) + 1) := by
    rw [abs_lt]
    constructor <;> norm_num <;> linarith
  have e2 : |round_float (round_double v) - round_double v| ≤
      2 ^ ((2 : ℤ) - 1 - ((24 : ℕ) : ℤ)) :=
    round_nearest_even_error 24 (-126) 2 _ (by norm_num) (by norm_num) hw1
  norm_num at e2
  rw [abs_le] at e2
  refine ⟨by linarith, ?_⟩
  have := round_float_grid_le 1 13176794 (round_double v) (by norm_num) (by norm_num) hw1
    (by norm_num; linarith)
  norm_num at this
  linarith

/-- The correction `x -= PI_2` of the range reduction in IEEE 754 arithmetic,
on a `float` between the `float` above `PI_1` and `3π`. -/
theorem sin_fast_reduce_sub_ieee (x : ℚ) (hlo : 13176795 / 4194304 ≤ x)
    (hhi : x ≤ 9882595 / 1048576) :
    -(13176794 / 4194304) ≤
      round_float (round_double (x - 884279719400493 / 140737488355328)) ∧
    round_float (round_double (x - 884279719400493 / 140737488355328)) ≤
      314159185 / 100000000 := by
  generalize hv : x - 884279719400493 / 140737488355328 = v
  have hv1 : |v| < 2 ^ (2 : ℤ) := by
    rw [abs_lt]
    constructor <;> norm_num <;> linarith
  have e1 : |round_double v - v| ≤ 2 ^ ((2 : ℤ) - 1 - ((53 : ℕ) : ℤ)) :=
    round_nearest_even_error 53 (-1022) 2 v (by norm_num) (by norm_num) hv1
  norm_num at e1
  rw [abs_le] at e1
  have hw1 : |round_double v| < 2 ^ ((1 : ℤ) + 1) := by
    rw [abs_lt]
    constructor <;> norm_num <;> linarith
  have e2 : |round_float (round_double v) - round_double v| ≤
      2 ^ ((2 : ℤ) - 1 - ((24 : ℕ) : ℤ)) :=
    round_nearest_even_error 24 (-126) 2 _ (by norm_num) (by norm_num) hw1
  norm_num at e2
  rw [abs_le] at e2
  refine ⟨?_, by linarith⟩
  have := round_float_grid_ge 1 13176794 (round_double v) (by norm_num) (by norm_num) hw1
    (by norm_num; linarith)
  norm_num at this
  linarith

/-! ## The range reduction of `sin_fast` on `float`s -/

/-- C11: the range reduction at the start of `sin_fast` on every `float` `x`
at most one period outside the valid range, `-PI_1 - PI_2 ≤ x ≤ PI_1 + PI_2`.
In exact arithmetic it yields an angle in `[-PI_1, PI_1]` that is `x`,
`x + PI_2` or `x - PI_2`: `x + PI_2` when `x < -PI_1`, `x - PI_2` when
`x > PI_1`, and `x` itself when `x` is in `[-PI_1, PI_1]`.  In the arithmetic
of the code (IEEE 754, `PI_1` and `PI_2` as `double`s, the sum rounded to
`double` and stored in the `float`) it yields an angle in `[-PI_1, PI_1]` by
the same single correction. -/
theorem sin_fast_reduce_float (x : ℚ) (hf : round_float x = x)
    (h1 : -PI_1 - PI_2 ≤ x) (h2 : x ≤ PI_1 + PI_2) :
    ((-PI_1 ≤ sin_fast_reduce x ∧ sin_fast_reduce x ≤ PI_1) ∧
      (sin_fast_reduce x = x ∨ sin_fast_reduce x = x + PI_2 ∨
        sin_fast_reduce x = x - PI_2) ∧
      (x < -PI_1 → sin_fast_reduce x = x + PI_2) ∧
      (PI_1 < x → sin_fast_reduce x = x - PI_2) ∧
      (-PI_1 ≤ x → x ≤ PI_1 → sin_fast_reduce x = x)) ∧
    ((-round_double PI_1 ≤ sin_fast_reduce_rounded round_double round_float x ∧
        sin_fast_reduce_rounded round_double round_float x ≤ round_double PI_1) ∧
      (x < -round_double PI_1 → sin_fast_reduce_rounded round_double round_float x =
        round_float (round_double (x + round_double PI_2))) ∧
      (round_double PI_1 < x → sin_fast_reduce_rounded round_double round_float x =
        round_float (round_double (x - round_double PI_2))) ∧
      (-round_double PI_1 ≤ x → x ≤ round_double PI_1 →
        sin_fast_reduce_rounded round_double round_float x = x)) := by
  have hlo := float_above_neg_three_pi x hf h1
  have hhi := float_below_three_pi x hf h2
  have hp1 : PI_1 = 3.14159265 := rfl
  have hp2 : PI_2 = 6.28318531 := rfl
  constructor
  · have ha : x < -PI_1 → sin_fast_reduce x = x + PI_2 := by
      intro c
      have hx := float_below_neg_PI_1 x hf (by rw [hp1] at c; norm_num at c ⊢; linarith)
      simp only [sin_fast_reduce]
      rw [if_pos c, if_neg (by rw [hp1, hp2]; norm_num; linarith)]
    have hb : PI_1 < x → sin_fast_reduce x = x - PI_2 := by
      intro c
      have c1 : ¬ (x < -PI_1) := by rw [hp1] at c ⊢; norm_num at c ⊢; linarith
      simp only [sin_fast_reduce]
      rw [if_neg c1, if_pos c]
    have hc : -PI_1 ≤ x → x ≤ PI_1 → sin_fast_reduce x = x :=
      fun c1 c2 => sin_fast_reduce_of_mem x c1 c2
    refine ⟨?_, ?_, ha, hb, hc⟩
    · rcases lt_or_le x (-PI_1) with c | c
      · rw [ha c]
        have hx := float_below_neg_PI_1 x hf (by rw [hp1] at c; norm_num at c ⊢; linarith)
        constructor
        · linarith
        · rw [hp1, hp2]; norm_num; linarith
      · rcases lt_or_le PI_1 x with c' | c'
        · rw [hb c']
          have hx := float_above_PI_1 x hf (by rw [hp1] at c'; norm_num at c' ⊢; linarith)
          constructor
          · rw [hp1, hp2]; norm_num; linarith
          · linarith
        · rw [hc c c']
          exact ⟨c, c'⟩
    · rcases lt_or_le x (-PI_1) with c | c
      · exact Or.inr (Or.inl (ha c))
      · rcases lt_or_le PI_1 x with c' | c'
        · exact Or.inr (Or.inr (hb c'))
        · exact Or.inl (hc c c')
  · rw [round_double_PI_1, round_double_PI_2]
    have ha : x < -(7074237743944945 / 2251799813685248) →
        sin_fast_reduce_rounded round_double round_float x =
          round_float (round_double (x + 884279719400493 / 140737488355328)) := by
      intro c
      have hx := float_below_neg_PI_1 x hf (by norm_num at c ⊢; linarith)
      obtain ⟨-, b2⟩ := sin_fast_reduce_add_ieee x hlo hx
      simp only [sin_fast_reduce_rounded, round_double_PI_1, round_double_PI_2]
      rw [if_pos c, if_neg (by norm_num at b2 ⊢; linarith)]
    have hb : 7074237743944945 / 2251799813685248 < x →
        sin_fast_reduce_rounded round_double round_float x =
          round_float (round_double (x - 884279719400493 / 140737488355328)) := by
      intro c
      have c1 : ¬ (x < -(7074237743944945 / 2251799813685248)) := by
        norm_num at c ⊢
        linarith
      simp only [sin_fast_reduce_rounded, round_double_PI_1, round_double_PI_2]
      rw [if_neg c1, if_pos c]
    have hc : -(7074237743944945 / 2251799813685248) ≤ x →
        x ≤ 7074237743944945 / 2251799813685248 →
        sin_fast_reduce_rounded round_double round_float x = x := by
      intro c1 c2
      simp only [sin_fast_reduce_rounded, round_double_PI_1, round_double_PI_2]
      rw [if_neg (not_lt.mpr c1), if_neg (not_lt.mpr c2)]
    refine ⟨?_, ha, hb, hc⟩
    rcases lt_or_le x (-(7074237743944945 / 2251799813685248)) with c | c
    · rw [ha c]
      have hx := float_below_neg_PI_1 x hf (by norm_num at c ⊢; linarith)
      obtain ⟨b1, b2⟩ := sin_fast_reduce_add_ieee x hlo hx
      constructor <;> norm_num at b1 b2 ⊢ <;> linarith
    · rcases lt_or_le (7074237743944945 / 2251799813685248) x with c' | c'
      · rw [hb c']
        have hx := float_above_PI_1 x hf (by norm_num at c' ⊢; linarith)
        obtain ⟨b1, b2⟩ := sin_fast_reduce_sub_ieee x hx hhi
        constructor <;> norm_num at b1 b2 ⊢ <;> linarith
      · rw [hc c c']
        exact ⟨c, c'⟩

/-- Witness of `sin_fast_reduce_float` at the `float` next below `-PI_1`,
`x = -13176795 / 2^22 = -3.14159274...`: one correction `x += PI_2`, which
gives `3.14159256...` in exact arithmetic and the `float`
`6588397 / 2^21 = 3.1415925...` in the arithmetic of the code. -/
theorem sin_fast_reduce_float_witness :
    round_float (-13176795 / 4194304) = -13176795 / 4194304 ∧
    -PI_1 - PI_2 ≤ (-13176795 / 4194304 : ℚ) ∧ (-13176795 / 4194304 : ℚ) ≤ PI_1 + PI_2 ∧
    sin_fast_reduce (-13176795 / 4194304) = -13176795 / 4194304 + PI_2 ∧
    (-PI_1 ≤ sin_fast_reduce (-13176795 / 4194304) ∧
      sin_fast_reduce (-13176795 / 4194304) ≤ PI_1) ∧
    sin_fast_reduce_rounded round_double round_float (-13176795 / 4194304) =
      6588397 / 2097152 ∧
    (-round_double PI_1 ≤
        sin_fast_reduce_rounded round_double round_float (-13176795 / 4194304) ∧
      sin_fast_reduce_rounded round_double round_float (-13176795 / 4194304) ≤
        round_double PI_1) := by
  have hf : round_float (-13176795 / 4194304 : ℚ) =
      (-13176795 / 4194304 : ℚ) := by
    have hl : Int.log 2 (-(-13176795 / 4194304 : ℚ) : ℚ) = 1 :=
      int_log_two_eq _ _ (by norm_num) (by norm_num)
    simp only [round_float, round_nearest_even, round_magnitude]
    rw [if_pos (by norm_num : _ < (0 : ℚ)), hl]
    norm_num
  have e1 : round_double ((-13176795 / 4194304 : ℚ) + (884279719400493 / 140737488355328 : ℚ)) =
      (442139847595053 / 140737488355328 : ℚ) := by
    have hl : Int.log 2 ((-13176795 / 4194304 : ℚ) + (884279719400493 / 140737488355328 : ℚ)) = 1 :=
      int_log_two_eq _ _ (by norm_num) (by norm_num)
    simp only [round_double, round_nearest_even, round_magnitude]
    rw [if_neg (by norm_num : ¬ _ < (0 : ℚ)), hl]
    norm_num
  have e2 : round_float (442139847595053 / 140737488355328 : ℚ) =
      (6588397 / 2097152 : ℚ) := by
    have hl : Int.log 2 (442139847595053 / 140737488355328 : ℚ) = 1 :=
      int_log_two_eq _ _ (by norm_num) (by norm_num)
    simp only [round_float, round_nearest_even, round_magnitude]
    rw [if_neg (by norm_num : ¬ _ < (0 : ℚ)), hl]
    norm_num
  have h1 : -PI_1 - PI_2 ≤ (-13176795 / 4194304 : ℚ) := by norm_num [PI_1, PI_2]
  have h2 : (-13176795 / 4194304 : ℚ) ≤ PI_1 + PI_2 := by norm_num [PI_1, PI_2]
  obtain ⟨⟨a1, -, a3, -, -⟩, ⟨b1, b2, -, -⟩⟩ :=
    sin_fast_reduce_float (-13176795 / 4194304) hf h1 h2
  refine ⟨hf, h1, h2, a3 (by norm_num [PI_1]), a1, ?_, b1⟩
  rw [b2 (by rw [round_double_PI_1]; norm_num), round_double_PI_2, e1, e2]

/-- The range reduction is the first step of `sin_fast` in machine arithmetic:
where the reduced angle is in the range, `sin_fast` takes the same value at
`x` and at the reduced angle. -/
theorem sin_fast_rounded_of_reduce (rd rf : ℚ → ℚ) (x : ℚ)
    (h1 : -rd PI_1 ≤ sin_fast_reduce_rounded rd rf x)
    (h2 : sin_fast_reduce_rounded rd rf x ≤ rd PI_1) :
    sin_fast_rounded rd rf x = sin_fast_rounded rd rf (sin_fast_reduce_rounded rd rf x) := by
  simp only [sin_fast_rounded, if_neg (not_lt.mpr h1), if_neg (not_lt.mpr h2)]
  simp only [sin_fast_reduce_rounded]

end ThreeDee
